import Mathlib

/-!
# Fractal tree (`main.c`): heap-level embedding and verification

The C program keeps a binary tree of line segments in malloc'd `TreeNode`s and
walks it with an explicit growable stack of node pointers (`DATreeNodes`).

Embedding choices:

* a pointer is `Option Nat` (`none` is `NULL`); the heap is a list of cells
  indexed by address, a cell being `none` once freed; `emalloc` hands out the
  next unused address (allocation failure is fatal in the program and is not
  modelled);
* `size_t` counters are natural numbers (a stack of `2^64` pointers cannot be
  allocated, so `cnt`/`cap` never wrap upward); the one downward wrap,
  `--cnt` at `cnt = 0`, leads to an out-of-bounds read and is a fault;
* the `while` loops take a fuel argument; every theorem about a result shows
  that the stated amount of fuel is enough;
* `float`, raylib's `Color` and the four raymath vector functions are external
  to the program: the scalar type `F`, the colour type `C` and the record
  `Raymath F` are parameters;
* `DrawLineV` calls are recorded, in order, in an output list, and so are the
  `free` calls of `tree_destroy`;
* a second rendering of the three operations (`generate_new_leaves_tr`,
  `draw_tree_tr`, `tree_destroy_tr`) carries the heap and the list of calls
  made (`da_init`, `erealloc`, `da_destroy`, `node_create`, `free`,
  `DrawLineV`) through every exit, the faulting ones included, so that what a
  run did before it stopped can be stated; its results are proved equal to
  those of the first rendering;
* `Fault.assertion` is a failed `assert`, which halts the program; the other
  memory faults (`nullDeref`, `badPointer`, `outOfBounds`) stand for undefined
  behaviour that the C code does not detect; `da_pop_unchecked` shows what
  `da_pop` does when the out-of-bounds read is simply carried out;
* `util.h` (`MAX`, `emalloc`, `erealloc`) is not among the sources and is
  modelled from the specification.
-/

namespace FractalTree

/-! ## Data model -/

/-- The raylib `Vector2`: two scalar components. -/
structure Vector2 (F : Type) where
  x : F
  y : F
deriving DecidableEq, Repr

/-- The C struct `Line`: two endpoints and a colour. -/
structure Line (F C : Type) where
  p0 : Vector2 F
  p1 : Vector2 F
  c : C
deriving DecidableEq, Repr

/-- A node pointer: `none` is `NULL`, `some a` is the address `a`. -/
abbrev Ptr := Option Nat

/-- The C struct `TreeNode`: two child pointers and the node's line. -/
structure TreeNode (F C : Type) where
  left : Ptr
  right : Ptr
  line : Line F C
deriving DecidableEq, Repr

/-- The node heap: cell `a` holds the node stored at address `a`, or `none`
once that node has been freed. Addresses at or beyond the length are
unallocated. -/
abbrev Heap (F C : Type) := List (Option (TreeNode F C))

/-- The C struct `DATreeNodes`: a buffer of node pointers, the number of
slots in use and the recorded capacity. -/
structure DATreeNodes where
  nodes : List Ptr
  cnt : Nat
  cap : Nat
deriving DecidableEq, Repr

/-- Ways in which an execution can stop without a result. -/
inductive Fault where
  | assertion
  | nullDeref
  | badPointer
  | outOfBounds
  | outOfFuel
deriving DecidableEq, Repr

/-- The raymath functions used by the program, and the scalar negation of
`-angle`. -/
structure Raymath (F : Type) where
  Vector2Add : Vector2 F → Vector2 F → Vector2 F
  Vector2Subtract : Vector2 F → Vector2 F → Vector2 F
  Vector2Scale : Vector2 F → F → Vector2 F
  Vector2Rotate : Vector2 F → F → Vector2 F
  neg : F → F

/-- The four raymath functions as `raymath.h` defines them, over a ring of
scalars with given cosine and sine functions: componentwise sum, difference
and scaling, and the standard rotation of the plane. -/
def raymath (F : Type) [Ring F] (cos sin : F → F) : Raymath F where
  Vector2Add := fun v1 v2 => { x := v1.x + v2.x, y := v1.y + v2.y }
  Vector2Subtract := fun v1 v2 => { x := v1.x - v2.x, y := v1.y - v2.y }
  Vector2Scale := fun v s => { x := v.x * s, y := v.y * s }
  Vector2Rotate := fun v angle =>
    { x := v.x * cos angle - v.y * sin angle, y := v.x * sin angle + v.y * cos angle }
  neg := fun a => -a

/-- The vector of a line, `p1 - p0`. -/
def Line.vec {F C : Type} [Ring F] (ln : Line F C) : Vector2 F :=
  { x := ln.p1.x - ln.p0.x, y := ln.p1.y - ln.p0.y }

/-- Squared length of a vector. -/
def Vector2.normSq {F : Type} [Ring F] (v : Vector2 F) : F := v.x * v.x + v.y * v.y

/-- Dot product: the component of `v` along `w`, times the length of `w`. -/
def Vector2.dot {F : Type} [Ring F] (v w : Vector2 F) : F := v.x * w.x + v.y * w.y

/-- Cross product: the component of `v` across `w`, times the length of `w`. -/
def Vector2.cross {F : Type} [Ring F] (v w : Vector2 F) : F := v.x * w.y - v.y * w.x

/-! ## Heap access -/

variable {F C : Type}

/-- Read the node a pointer refers to (`cur->...`). -/
def deref (h : Heap F C) (p : Ptr) : Except Fault (TreeNode F C) :=
  match p with
  | none => .error .nullDeref
  | some a =>
    match h[a]? with
    | some (some n) => .ok n
    | _ => .error .badPointer

/-- Overwrite the node a pointer refers to. -/
def store (h : Heap F C) (p : Ptr) (n : TreeNode F C) : Except Fault (Heap F C) :=
  match p with
  | none => .error .nullDeref
  | some a =>
    match h[a]? with
    | some (some _) => .ok (h.set a (some n))
    | _ => .error .badPointer

/-- The function `node_create`: allocate a node holding `line`, with both
children `NULL`. Returns the new heap and the new node's pointer. -/
def node_create (h : Heap F C) (line : Line F C) : Heap F C × Ptr :=
  (h ++ [some { left := none, right := none, line := line }], some h.length)

/-! ## The pointer stack -/

/-- Modelled from the spec: the macro `MAX` of `util.h`, which is not among
the sources. `da_init` reserves "minimum 1 slot" with `MAX(cap, 1)`, so `MAX`
is the larger of its two arguments. -/
def MAX (a b : Nat) : Nat := if a > b then a else b

/-- Modelled from the spec: `erealloc` of `util.h`, which is not among the
sources: storage grows, the old contents are kept, and running out of memory
is fatal (not modelled). The buffer is resized to `n` slots; new slots,
uninitialised in C, hold `NULL` here. -/
def erealloc (nodes : List Ptr) (n : Nat) : List Ptr :=
  nodes.take n ++ List.replicate (n - nodes.length) none

/-- The function `da_init`; the slots of the fresh buffer, uninitialised in
C, hold `NULL` here. -/
def da_init (cap : Nat) : DATreeNodes :=
  { cap := MAX cap 1, nodes := List.replicate (MAX cap 1) none, cnt := 0 }

/-- The function `da_destroy`: the buffer is released and `cnt` zeroed
(the source assigns `cnt` twice and leaves `cap` alone). -/
def da_destroy (da : DATreeNodes) : DATreeNodes :=
  { da with nodes := [], cnt := 0 }

/-- The function `da_append`. -/
def da_append (da : DATreeNodes) (node : Ptr) : Except Fault DATreeNodes :=
  let da1 : DATreeNodes :=
    if da.cnt = da.cap then
      { da with cap := da.cap * 2, nodes := erealloc da.nodes (da.cap * 2) }
    else da
  if da1.cnt < da1.nodes.length then
    .ok { da1 with nodes := da1.nodes.set da1.cnt node, cnt := da1.cnt + 1 }
  else .error .outOfBounds

/-- The function `da_pop`: `return da->nodes[--da->cnt]`. At `cnt = 0` the
decrement wraps to `SIZE_MAX` and the read falls outside the buffer. -/
def da_pop (da : DATreeNodes) : Except Fault (Ptr × DATreeNodes) :=
  match da.cnt with
  | 0 => .error .outOfBounds
  | k + 1 =>
    match da.nodes[k]? with
    | some p => .ok (p, { da with cnt := k })
    | none => .error .outOfBounds

/-- Push a child pointer when it is not `NULL`
(`if (cur->left) da_append(&node_stack, cur->left);`). -/
def push_child (da : DATreeNodes) (child : Ptr) : Except Fault DATreeNodes :=
  if child.isSome then da_append da child else .ok da

/-! ## `generate_new_leaves` -/

/-- First loop of `generate_new_leaves` (lines 156-167): walk the tree with
`node_stack`, appending every node without children to `leaf_stack`. -/
def collect_loop (h : Heap F C) :
    Nat → DATreeNodes → DATreeNodes → Except Fault (DATreeNodes × DATreeNodes)
  | fuel, node_stack, leaf_stack =>
    if node_stack.cnt > 0 then
      match fuel with
      | 0 => .error .outOfFuel
      | fuel + 1 =>
        match da_pop node_stack with
        | .error e => .error e
        | .ok (cur, node_stack) =>
          match deref h cur with
          | .error e => .error e
          | .ok n =>
            if n.left.isNone ∧ n.right.isNone then
              match da_append leaf_stack cur with
              | .error e => .error e
              | .ok leaf_stack => collect_loop h fuel node_stack leaf_stack
            else
              match push_child node_stack n.left with
              | .error e => .error e
              | .ok node_stack =>
                match push_child node_stack n.right with
                | .error e => .error e
                | .ok node_stack => collect_loop h fuel node_stack leaf_stack
    else .ok (node_stack, leaf_stack)

/-- The left child's line built from a leaf's line (lines 177-187). -/
def left_line (rm : Raymath F) (angle scale : F) (line : Line F C) : Line F C :=
  let left_vec := rm.Vector2Subtract line.p1 line.p0
  let left_vec := rm.Vector2Scale left_vec scale
  let left_vec := rm.Vector2Rotate left_vec (rm.neg angle)
  { p0 := line.p1, p1 := rm.Vector2Add line.p1 left_vec, c := line.c }

/-- The right child's line built from a leaf's line (lines 177-187). -/
def right_line (rm : Raymath F) (angle scale : F) (line : Line F C) : Line F C :=
  let right_vec := rm.Vector2Subtract line.p1 line.p0
  let right_vec := rm.Vector2Scale right_vec scale
  let right_vec := rm.Vector2Rotate right_vec angle
  { p0 := line.p1, p1 := rm.Vector2Add line.p1 right_vec, c := line.c }

/-- One iteration body of the second loop (lines 175-190) for the popped
pointer `cur`: create the two children and hang them under `cur`. -/
def expand_leaf (rm : Raymath F) (angle scale : F) (h : Heap F C) (cur : Ptr) :
    Except Fault (Heap F C) :=
  match deref h cur with
  | .error e => .error e
  | .ok n =>
    let ll := left_line rm angle scale n.line
    let rl := right_line rm angle scale n.line
    let (h1, l) := node_create h ll
    match deref h1 cur with
    | .error e => .error e
    | .ok n1 =>
      match store h1 cur { n1 with left := l } with
      | .error e => .error e
      | .ok h2 =>
        let (h3, r) := node_create h2 rl
        match deref h3 cur with
        | .error e => .error e
        | .ok n3 => store h3 cur { n3 with right := r }

/-- Second loop of `generate_new_leaves` (lines 170-191). -/
def expand_loop (rm : Raymath F) (angle scale : F) :
    Nat → Heap F C → DATreeNodes → Except Fault (Heap F C × DATreeNodes)
  | fuel, h, leaf_stack =>
    if leaf_stack.cnt > 0 then
      match fuel with
      | 0 => .error .outOfFuel
      | fuel + 1 =>
        match da_pop leaf_stack with
        | .error e => .error e
        | .ok (cur, leaf_stack) =>
          match expand_leaf rm angle scale h cur with
          | .error e => .error e
          | .ok h => expand_loop rm angle scale fuel h leaf_stack
    else .ok (h, leaf_stack)

/-- The function `generate_new_leaves`; each of its two loops may run for at
most `fuel` iterations. -/
def generate_new_leaves (rm : Raymath F) (fuel : Nat) (h : Heap F C) (root : Ptr)
    (angle scale : F) : Except Fault (Heap F C) :=
  if root.isNone then .error .assertion
  else
    let node_stack := da_init 1
    let leaf_stack := da_init 1
    match da_append node_stack root with
    | .error e => .error e
    | .ok node_stack =>
      match collect_loop h fuel node_stack leaf_stack with
      | .error e => .error e
      | .ok (node_stack, leaf_stack) =>
        let _ := da_destroy node_stack
        match expand_loop rm angle scale fuel h leaf_stack with
        | .error e => .error e
        | .ok (h, leaf_stack) =>
          let _ := da_destroy leaf_stack
          .ok h

/-- The growth loop of `main` (lines 58-60), `while (n--) generate_new_leaves(...)`,
for a count `n`. -/
def grow_times (rm : Raymath F) (fuel : Nat) (root : Ptr) (angle scale : F) :
    Nat → Heap F C → Except Fault (Heap F C)
  | 0, h => .ok h
  | n + 1, h =>
    match generate_new_leaves rm fuel h root angle scale with
    | .error e => .error e
    | .ok h => grow_times rm fuel root angle scale n h

/-! ## `draw_tree` -/

/-- The loop of `draw_tree` (lines 205-214); `out` collects the arguments of
the `DrawLineV` calls made so far, oldest first. -/
def draw_loop (h : Heap F C) :
    Nat → DATreeNodes → List (Line F C) → Except Fault (List (Line F C))
  | fuel, node_stack, out =>
    if node_stack.cnt > 0 then
      match fuel with
      | 0 => .error .outOfFuel
      | fuel + 1 =>
        match da_pop node_stack with
        | .error e => .error e
        | .ok (cur, node_stack) =>
          match deref h cur with
          | .error e => .error e
          | .ok n =>
            match push_child node_stack n.left with
            | .error e => .error e
            | .ok node_stack =>
              match push_child node_stack n.right with
              | .error e => .error e
              | .ok node_stack => draw_loop h fuel node_stack (out ++ [n.line])
    else .ok out

/-- The function `draw_tree`: the result is the sequence of lines passed to
`DrawLineV`. -/
def draw_tree (fuel : Nat) (h : Heap F C) (root : Ptr) : Except Fault (List (Line F C)) :=
  if root.isNone then .error .assertion
  else
    match da_append (da_init 1) root with
    | .error e => .error e
    | .ok node_stack => draw_loop h fuel node_stack []

/-! ## Specification-level view: stacks as lists, heaps as trees -/

/-- The stack invariant: the buffer has `cap >= 1` slots, of which `cnt` are
in use. -/
def DATreeNodes.WF (da : DATreeNodes) : Prop :=
  da.cnt ≤ da.cap ∧ da.nodes.length = da.cap ∧ 1 ≤ da.cap

/-- The pointers held by a stack, most recently pushed first. -/
def DATreeNodes.items (da : DATreeNodes) : List Ptr :=
  (da.nodes.take da.cnt).reverse

/-- A finite binary tree of heap nodes; `nil` is an absent child. Each node
records its address and its line. -/
inductive Tree (F C : Type) where
  | nil : Tree F C
  | node (addr : Nat) (line : Line F C) (left right : Tree F C) : Tree F C
deriving DecidableEq, Repr

namespace Tree

/-- The pointer to the root of a tree (`NULL` for the absent tree). -/
def ptr : Tree F C → Ptr
  | nil => none
  | node a _ _ _ => some a

/-- Whether the tree is absent. -/
def isNil : Tree F C → Bool
  | nil => true
  | node _ _ _ _ => false

/-- Addresses of all nodes. -/
def addrs : Tree F C → List Nat
  | nil => []
  | node a _ l r => a :: (addrs l ++ addrs r)

/-- Number of nodes. -/
def size : Tree F C → Nat
  | nil => 0
  | node _ _ l r => 1 + size l + size r

/-- Addresses of the nodes without children, left to right. -/
def leafAddrs : Tree F C → List Nat
  | nil => []
  | node a _ l r => if l.isNil ∧ r.isNil then [a] else leafAddrs l ++ leafAddrs r

/-- Number of nodes without children. -/
def leaves : Tree F C → Nat
  | nil => 0
  | node _ _ l r => if l.isNil ∧ r.isNil then 1 else leaves l + leaves r

/-- All nodes as (address, line) pairs. -/
def nodes : Tree F C → List (Nat × Line F C)
  | nil => []
  | node a ln l r => (a, ln) :: (nodes l ++ nodes r)

end Tree

/-- What one call of `generate_new_leaves` makes of a tree, when the next
unused address is `n`: every node without children receives two new children,
the leaves being served left to right with consecutive addresses. -/
def Tree.grow (rm : Raymath F) (angle scale : F) : Tree F C → Nat → Tree F C
  | .nil, _ => .nil
  | .node a ln l r, n =>
    if l.isNil ∧ r.isNil then
      .node a ln (.node n (left_line rm angle scale ln) .nil .nil)
        (.node (n + 1) (right_line rm angle scale ln) .nil .nil)
    else .node a ln (Tree.grow rm angle scale l n) (Tree.grow rm angle scale r (n + 2 * l.leaves))

/-- What `k` successive calls of `generate_new_leaves` make of a tree, the
next unused address being `n` before the first call. -/
def Tree.growN (rm : Raymath F) (angle scale : F) : Nat → Tree F C → Nat → Tree F C
  | 0, t, _ => t
  | k + 1, t, n => Tree.growN rm angle scale k (t.grow rm angle scale n) (n + 2 * t.leaves)

/-- Every node has no child or two children. -/
def Tree.Strict : Tree F C → Prop
  | .nil => True
  | .node _ _ l r => l.isNil = r.isNil ∧ Tree.Strict l ∧ Tree.Strict r

/-- For every node without children, the number of edges between it and the
root. -/
def Tree.leafDepths : Tree F C → List Nat
  | .nil => []
  | .node _ _ l r =>
    if l.isNil ∧ r.isNil then [0]
    else (Tree.leafDepths l ++ Tree.leafDepths r).map (fun d => d + 1)

/-- The nodes in the order in which the loop of `draw_tree` pops them: a
node, then its right subtree, then its left subtree. -/
def Tree.drawOrder : Tree F C → List (Nat × Line F C)
  | .nil => []
  | .node a ln l r => (a, ln) :: (Tree.drawOrder r ++ Tree.drawOrder l)

/-- The heap `h` contains the tree `t`: every node of `t` is a live cell at
its address, holding its line and the pointers to its two subtrees. -/
def TreeAt (h : Heap F C) : Tree F C → Prop
  | .nil => True
  | .node a ln l r =>
    h[a]? = some (some { left := l.ptr, right := r.ptr, line := ln }) ∧ TreeAt h l ∧ TreeAt h r

/-- The pointer `p` is the root of the tree `t` laid out in `h`, no node being
reached twice. -/
def IsTree (h : Heap F C) (p : Ptr) (t : Tree F C) : Prop :=
  t.ptr = p ∧ TreeAt h t ∧ t.addrs.Nodup

/-- The heap after the loop body of lines 175-190 ran on the node `n` stored
at address `a`. -/
def expand_at (rm : Raymath F) (angle scale : F) (h : Heap F C) (a : Nat)
    (n : TreeNode F C) : Heap F C :=
  (((h ++ [some (TreeNode.mk none none (left_line rm angle scale n.line))]).set a
      (some (TreeNode.mk (some h.length) n.right n.line))) ++
    [some (TreeNode.mk none none (right_line rm angle scale n.line))]).set a
      (some (TreeNode.mk (some h.length) (some (h.length + 1)) n.line))

/-! ## `tree_destroy` -/

/-- The library call `free` on a node pointer: the cell is dead afterwards.
`free(NULL)` does nothing; freeing a cell that is not live (a double free or
a wild pointer) is a fault. -/
def free (h : Heap F C) (p : Ptr) : Except Fault (Heap F C) :=
  match p with
  | none => .ok h
  | some a =>
    match h[a]? with
    | some (some _) => .ok (h.set a none)
    | _ => .error .badPointer

/-- The loop of `tree_destroy` (lines 132-140); `freed` collects the
arguments of the `free` calls made so far, oldest first. The result keeps the
final stack. -/
def destroy_loop :
    Nat → Heap F C → DATreeNodes → List Ptr →
      Except Fault (Heap F C × DATreeNodes × List Ptr)
  | fuel, h, node_stack, freed =>
    if node_stack.cnt > 0 then
      match fuel with
      | 0 => .error .outOfFuel
      | fuel + 1 =>
        match da_pop node_stack with
        | .error e => .error e
        | .ok (cur, node_stack) =>
          match deref h cur with
          | .error e => .error e
          | .ok n =>
            match push_child node_stack n.left with
            | .error e => .error e
            | .ok node_stack =>
              match push_child node_stack n.right with
              | .error e => .error e
              | .ok node_stack =>
                match free h cur with
                | .error e => .error e
                | .ok h => destroy_loop fuel h node_stack (freed ++ [cur])
    else .ok (h, node_stack, freed)

/-- The function `tree_destroy`: the result is the heap afterwards and the
sequence of pointers passed to `free`. -/
def tree_destroy (fuel : Nat) (h : Heap F C) (root : Ptr) :
    Except Fault (Heap F C × List Ptr) :=
  if root.isNone then .error .assertion
  else
    match da_append (da_init 1) root with
    | .error e => .error e
    | .ok node_stack =>
      match destroy_loop fuel h node_stack [] with
      | .error e => .error e
      | .ok (h, node_stack, freed) =>
        let _ := da_destroy node_stack
        .ok (h, freed)

/-! ## `da_pop` without the bounds check of the embedding -/

/-- The largest `size_t` value, on a 64-bit target. -/
def SIZE_MAX : Nat := 2 ^ 64 - 1

/-- What `return da->nodes[--da->cnt]` does when nothing checks the read: the
decrement is taken modulo `SIZE_MAX + 1`, and a read outside the buffer
delivers whatever the memory holds there (`oob i` for slot `i`). -/
def da_pop_unchecked (oob : Nat → Ptr) (da : DATreeNodes) : Ptr × DATreeNodes :=
  let cnt := (da.cnt + SIZE_MAX) % (SIZE_MAX + 1)
  ((da.nodes[cnt]?).getD (oob cnt), { da with cnt := cnt })

/-! ## Further specification-level notions -/

/-- The stacks a program can hold: `da_init`, then any sequence of
`da_append` and of `da_pop` on a non-empty stack. -/
inductive Reachable : DATreeNodes → Prop where
  | init (cap : Nat) : Reachable (da_init cap)
  | append (s s2 : DATreeNodes) (x : Ptr) :
      Reachable s → da_append s x = .ok s2 → Reachable s2
  | pop (s s2 : DATreeNodes) (x : Ptr) :
      Reachable s → 0 < s.cnt → da_pop s = .ok (x, s2) → Reachable s2

/-- Height of a tree in edges: the largest number of edges between the root
and a node (0 for the absent tree and for a single node). -/
def Tree.height : Tree F C → Nat
  | .nil => 0
  | .node _ _ l r =>
    if l.isNil ∧ r.isNil then 0 else 1 + max (Tree.height l) (Tree.height r)

/-- The childless nodes, left to right, each with its depth in edges below
the root, the root being at depth `d`. -/
def Tree.leafInfo : Tree F C → Nat → List (Nat × Nat)
  | .nil, _ => []
  | .node a _ l r, d =>
    if l.isNil ∧ r.isNil then [(a, d)]
    else Tree.leafInfo l (d + 1) ++ Tree.leafInfo r (d + 1)

/-- A binary tree of segments without addresses; `nil` is an absent child. -/
inductive Shape (F C : Type) where
  | nil : Shape F C
  | node (line : Line F C) (left right : Shape F C) : Shape F C
deriving DecidableEq, Repr

/-- Forget the addresses of a tree. -/
def Tree.shape : Tree F C → Shape F C
  | .nil => .nil
  | .node _ ln l r => .node ln (Tree.shape l) (Tree.shape r)

/-- The recursive reference definition of growth: a leaf with segment `s`
becomes a node with two fresh leaf children built from `s` by the angle/scale
rule; any other node keeps its segment and has its children grown, an absent
child staying absent. -/
def growRec (rm : Raymath F) (angle scale : F) : Shape F C → Shape F C
  | .nil => .nil
  | .node s .nil .nil =>
    .node s (.node (left_line rm angle scale s) .nil .nil)
      (.node (right_line rm angle scale s) .nil .nil)
  | .node s l r => .node s (growRec rm angle scale l) (growRec rm angle scale r)

/-- A tree in which some of the childless nodes have been given their two
children: the childless node at address `b` has them, at the addresses `c`
and `c + 1`, exactly when `f b = some c`. -/
def Tree.growBy (rm : Raymath F) (angle scale : F) (f : Nat → Option Nat) :
    Tree F C → Tree F C
  | .nil => .nil
  | .node a ln l r =>
    if l.isNil ∧ r.isNil then
      match f a with
      | some c =>
        .node a ln (.node c (left_line rm angle scale ln) .nil .nil)
          (.node (c + 1) (right_line rm angle scale ln) .nil .nil)
      | none => .node a ln .nil .nil
    else .node a ln (Tree.growBy rm angle scale f l) (Tree.growBy rm angle scale f r)

/-! ## The three operations with their effects recorded

The definitions above return a result only; a run that stops on a fault
returns nothing else. The definitions of this section follow the same source
lines and additionally keep, on every path, the heap as it is when the run
ends and the list of calls made into the C library and raylib up to that
point. Every such call goes through one of the recording operations below,
so that a call cannot be made without being recorded. -/

/-- A call that changes something outside the function's own variables. -/
inductive Event (F C : Type) where
  /-- The `emalloc` of `da_init`: a stack buffer is set up. -/
  | da_init (cap : Nat)
  /-- The `erealloc` of `da_append`: the stack buffer grows to `cap` slots. -/
  | erealloc (cap : Nat)
  /-- The `free` of `da_destroy`: a stack buffer is released. -/
  | da_destroy
  /-- The `emalloc` of `node_create`: the node `p` is created. -/
  | node_create (p : Ptr)
  /-- The call `free(cur)` of `tree_destroy`: the node `p` is freed. -/
  | free (p : Ptr)
  /-- The call `DrawLineV`: a segment is emitted. -/
  | DrawLineV (line : Line F C)
deriving DecidableEq, Repr

/-- How a run ends: the heap and the recorded calls at that point, and the
result or the fault. -/
structure Outcome (F C α : Type) where
  heap : Heap F C
  log : List (Event F C)
  result : Except Fault α

/-- The calls recorded after `da_append(da, ...)`: an `erealloc` when the
stack was full. -/
def da_append_log (log : List (Event F C)) (da : DATreeNodes) : List (Event F C) :=
  if da.cnt = da.cap then log ++ [.erealloc (da.cap * 2)] else log

/-- The calls recorded after `if (child) da_append(da, child);`. -/
def push_child_log (log : List (Event F C)) (da : DATreeNodes) (child : Ptr) :
    List (Event F C) :=
  if child.isSome then da_append_log log da else log

/-- The function `da_init`, recorded. -/
def da_init_tr (log : List (Event F C)) (cap : Nat) : List (Event F C) × DATreeNodes :=
  (log ++ [.da_init cap], da_init cap)

/-- The function `da_destroy`, recorded. -/
def da_destroy_tr (log : List (Event F C)) (da : DATreeNodes) :
    List (Event F C) × DATreeNodes :=
  (log ++ [.da_destroy], da_destroy da)

/-- The function `da_append`, recorded. -/
def da_append_tr (log : List (Event F C)) (da : DATreeNodes) (node : Ptr) :
    List (Event F C) × Except Fault DATreeNodes :=
  (da_append_log log da, da_append da node)

/-- The statement `if (child) da_append(da, child);`, recorded. -/
def push_child_tr (log : List (Event F C)) (da : DATreeNodes) (child : Ptr) :
    List (Event F C) × Except Fault DATreeNodes :=
  if child.isSome then da_append_tr log da child else (log, .ok da)

/-- The function `node_create`, recorded. -/
def node_create_tr (log : List (Event F C)) (h : Heap F C) (line : Line F C) :
    List (Event F C) × Heap F C × Ptr :=
  (log ++ [.node_create (node_create h line).2], node_create h line)

/-- The call `free(cur)` on a node, recorded. -/
def free_tr (log : List (Event F C)) (h : Heap F C) (p : Ptr) :
    List (Event F C) × Except Fault (Heap F C) :=
  (log ++ [.free p], free h p)

/-- The call `DrawLineV(line.p0, line.p1, line.c)`, recorded. -/
def DrawLineV (log : List (Event F C)) (line : Line F C) : List (Event F C) :=
  log ++ [.DrawLineV line]

/-- First loop of `generate_new_leaves` (lines 156-167), effects recorded. -/
def collect_loop_tr (h : Heap F C) :
    Nat → DATreeNodes → DATreeNodes → List (Event F C) →
      Outcome F C (DATreeNodes × DATreeNodes)
  | fuel, node_stack, leaf_stack, log =>
    if node_stack.cnt > 0 then
      match fuel with
      | 0 => ⟨h, log, .error .outOfFuel⟩
      | fuel + 1 =>
        match da_pop node_stack with
        | .error e => ⟨h, log, .error e⟩
        | .ok (cur, node_stack) =>
          match deref h cur with
          | .error e => ⟨h, log, .error e⟩
          | .ok n =>
            if n.left.isNone ∧ n.right.isNone then
              match da_append_tr log leaf_stack cur with
              | (log, .error e) => ⟨h, log, .error e⟩
              | (log, .ok leaf_stack) => collect_loop_tr h fuel node_stack leaf_stack log
            else
              match push_child_tr log node_stack n.left with
              | (log, .error e) => ⟨h, log, .error e⟩
              | (log, .ok node_stack) =>
                match push_child_tr log node_stack n.right with
                | (log, .error e) => ⟨h, log, .error e⟩
                | (log, .ok node_stack) => collect_loop_tr h fuel node_stack leaf_stack log
    else ⟨h, log, .ok (node_stack, leaf_stack)⟩

/-- The loop body of lines 175-190 for the popped pointer `cur`, effects
recorded. -/
def expand_leaf_tr (rm : Raymath F) (angle scale : F) (h : Heap F C)
    (log : List (Event F C)) (cur : Ptr) : Outcome F C (Heap F C) :=
  match deref h cur with
  | .error e => ⟨h, log, .error e⟩
  | .ok n =>
    let ll := left_line rm angle scale n.line
    let rl := right_line rm angle scale n.line
    let (log1, h1, l) := node_create_tr log h ll
    match deref h1 cur with
    | .error e => ⟨h1, log1, .error e⟩
    | .ok n1 =>
      match store h1 cur { n1 with left := l } with
      | .error e => ⟨h1, log1, .error e⟩
      | .ok h2 =>
        let (log3, h3, r) := node_create_tr log1 h2 rl
        match deref h3 cur with
        | .error e => ⟨h3, log3, .error e⟩
        | .ok n3 =>
          match store h3 cur { n3 with right := r } with
          | .error e => ⟨h3, log3, .error e⟩
          | .ok h4 => ⟨h4, log3, .ok h4⟩

/-- Second loop of `generate_new_leaves` (lines 170-191), effects recorded. -/
def expand_loop_tr (rm : Raymath F) (angle scale : F) :
    Nat → Heap F C → DATreeNodes → List (Event F C) → Outcome F C (Heap F C × DATreeNodes)
  | fuel, h, leaf_stack, log =>
    if leaf_stack.cnt > 0 then
      match fuel with
      | 0 => ⟨h, log, .error .outOfFuel⟩
      | fuel + 1 =>
        match da_pop leaf_stack with
        | .error e => ⟨h, log, .error e⟩
        | .ok (cur, leaf_stack) =>
          match expand_leaf_tr rm angle scale h log cur with
          | ⟨h1, log1, .error e⟩ => ⟨h1, log1, .error e⟩
          | ⟨_, log1, .ok h1⟩ => expand_loop_tr rm angle scale fuel h1 leaf_stack log1
    else ⟨h, log, .ok (h, leaf_stack)⟩

/-- The function `generate_new_leaves`, effects recorded: the assertion comes
first, then the two `da_init`, the push of the root, the two loops, each
followed by its `da_destroy`. -/
def generate_new_leaves_tr (rm : Raymath F) (fuel : Nat) (h : Heap F C)
    (log : List (Event F C)) (root : Ptr) (angle scale : F) : Outcome F C (Heap F C) :=
  if root.isNone then ⟨h, log, .error .assertion⟩
  else
    let (log, node_stack) := da_init_tr log 1
    let (log, leaf_stack) := da_init_tr log 1
    match da_append_tr log node_stack root with
    | (log, .error e) => ⟨h, log, .error e⟩
    | (log, .ok node_stack) =>
      match collect_loop_tr h fuel node_stack leaf_stack log with
      | ⟨h1, log1, .error e⟩ => ⟨h1, log1, .error e⟩
      | ⟨h1, log1, .ok (node_stack, leaf_stack)⟩ =>
        let (log1, _) := da_destroy_tr log1 node_stack
        match expand_loop_tr rm angle scale fuel h1 leaf_stack log1 with
        | ⟨h2, log2, .error e⟩ => ⟨h2, log2, .error e⟩
        | ⟨_, log2, .ok (h2, leaf_stack)⟩ =>
          let (log2, _) := da_destroy_tr log2 leaf_stack
          ⟨h2, log2, .ok h2⟩

/-- The loop of `draw_tree` (lines 205-214), effects recorded. -/
def draw_loop_tr (h : Heap F C) :
    Nat → DATreeNodes → List (Line F C) → List (Event F C) → Outcome F C (List (Line F C))
  | fuel, node_stack, out, log =>
    if node_stack.cnt > 0 then
      match fuel with
      | 0 => ⟨h, log, .error .outOfFuel⟩
      | fuel + 1 =>
        match da_pop node_stack with
        | .error e => ⟨h, log, .error e⟩
        | .ok (cur, node_stack) =>
          match deref h cur with
          | .error e => ⟨h, log, .error e⟩
          | .ok n =>
            match push_child_tr log node_stack n.left with
            | (log, .error e) => ⟨h, log, .error e⟩
            | (log, .ok node_stack) =>
              match push_child_tr log node_stack n.right with
              | (log, .error e) => ⟨h, log, .error e⟩
              | (log, .ok node_stack) =>
                draw_loop_tr h fuel node_stack (out ++ [n.line]) (DrawLineV log n.line)
    else ⟨h, log, .ok out⟩

/-- The function `draw_tree`, effects recorded. -/
def draw_tree_tr (fuel : Nat) (h : Heap F C) (log : List (Event F C)) (root : Ptr) :
    Outcome F C (List (Line F C)) :=
  if root.isNone then ⟨h, log, .error .assertion⟩
  else
    let (log, node_stack) := da_init_tr log 1
    match da_append_tr log node_stack root with
    | (log, .error e) => ⟨h, log, .error e⟩
    | (log, .ok node_stack) =>
      match draw_loop_tr h fuel node_stack [] log with
      | ⟨h1, log1, .error e⟩ => ⟨h1, log1, .error e⟩
      | ⟨h1, log1, .ok out⟩ => ⟨h1, (da_destroy_tr log1 node_stack).1, .ok out⟩

/-- The loop of `tree_destroy` (lines 132-140), effects recorded. -/
def destroy_loop_tr :
    Nat → Heap F C → DATreeNodes → List Ptr → List (Event F C) →
      Outcome F C (Heap F C × DATreeNodes × List Ptr)
  | fuel, h, node_stack, freed, log =>
    if node_stack.cnt > 0 then
      match fuel with
      | 0 => ⟨h, log, .error .outOfFuel⟩
      | fuel + 1 =>
        match da_pop node_stack with
        | .error e => ⟨h, log, .error e⟩
        | .ok (cur, node_stack) =>
          match deref h cur with
          | .error e => ⟨h, log, .error e⟩
          | .ok n =>
            match push_child_tr log node_stack n.left with
            | (log, .error e) => ⟨h, log, .error e⟩
            | (log, .ok node_stack) =>
              match push_child_tr log node_stack n.right with
              | (log, .error e) => ⟨h, log, .error e⟩
              | (log, .ok node_stack) =>
                match free_tr log h cur with
                | (log, .error e) => ⟨h, log, .error e⟩
                | (log, .ok h1) =>
                  destroy_loop_tr fuel h1 node_stack (freed ++ [cur]) log
    else ⟨h, log, .ok (h, node_stack, freed)⟩

/-- The function `tree_destroy`, effects recorded. -/
def tree_destroy_tr (fuel : Nat) (h : Heap F C) (log : List (Event F C)) (root : Ptr) :
    Outcome F C (Heap F C × List Ptr) :=
  if root.isNone then ⟨h, log, .error .assertion⟩
  else
    let (log, node_stack) := da_init_tr log 1
    match da_append_tr log node_stack root with
    | (log, .error e) => ⟨h, log, .error e⟩
    | (log, .ok node_stack) =>
      match destroy_loop_tr fuel h node_stack [] log with
      | ⟨h1, log1, .error e⟩ => ⟨h1, log1, .error e⟩
      | ⟨_, log1, .ok (h1, node_stack, freed)⟩ =>
        ⟨h1, (da_destroy_tr log1 node_stack).1, .ok (h1, freed)⟩

/-! ## Concrete inputs -/

/-- Cosine of an angle counted in quarter turns. -/
def quarterCos (k : Int) : Int :=
  match k % 4 with
  | 0 => 1
  | 2 => -1
  | _ => 0

/-- Sine of an angle counted in quarter turns. -/
def quarterSin (k : Int) : Int :=
  match k % 4 with
  | 1 => 1
  | 3 => -1
  | _ => 0

/-- Exact raymath over the integers, angles being counted in quarter turns. -/
def exRaymath : Raymath Int := raymath Int quarterCos quarterSin

/-- A two-node heap: the root has a left child only. -/
def exHeap : Heap Int Nat :=
  [some (TreeNode.mk (some 1) none (Line.mk ⟨0, 0⟩ ⟨0, 4⟩ 7)),
   some (TreeNode.mk none none (Line.mk ⟨0, 4⟩ ⟨4, 4⟩ 7))]

/-- The tree laid out in `exHeap`. -/
def exTree : Tree Int Nat :=
  .node 0 (Line.mk ⟨0, 0⟩ ⟨0, 4⟩ 7) (.node 1 (Line.mk ⟨0, 4⟩ ⟨4, 4⟩ 7) .nil .nil) .nil

/-- A three-node heap: a root with two childless children. -/
def exStrictHeap : Heap Int Nat :=
  [some (TreeNode.mk (some 1) (some 2) (Line.mk ⟨0, 0⟩ ⟨0, 4⟩ 7)),
   some (TreeNode.mk none none (Line.mk ⟨0, 4⟩ ⟨4, 4⟩ 7)),
   some (TreeNode.mk none none (Line.mk ⟨0, 4⟩ ⟨-4, 4⟩ 7))]

/-- The tree laid out in `exStrictHeap`. -/
def exStrictTree : Tree Int Nat :=
  .node 0 (Line.mk ⟨0, 0⟩ ⟨0, 4⟩ 7) (.node 1 (Line.mk ⟨0, 4⟩ ⟨4, 4⟩ 7) .nil .nil)
    (.node 2 (Line.mk ⟨0, 4⟩ ⟨-4, 4⟩ 7) .nil .nil)

/-- A stack that is full: `da_init(1)` followed by one `da_append`. -/
def exFullStack : DATreeNodes := { nodes := [some 5], cnt := 1, cap := 1 }

/-- A heap that is not a tree: both child pointers of node 0 lead to node 1. -/
def exSharedHeap : Heap Int Nat :=
  [some (TreeNode.mk (some 1) (some 1) (Line.mk ⟨0, 0⟩ ⟨0, 4⟩ 7)),
   some (TreeNode.mk none none (Line.mk ⟨0, 4⟩ ⟨4, 4⟩ 7))]

/-! ## Stack lemmas -/

theorem MAX_eq_max (a b : Nat) : MAX a b = max a b := by
  unfold MAX
  split <;> omega

theorem da_init_WF (cap : Nat) : (da_init cap).WF := by
  simp [da_init, DATreeNodes.WF, MAX_eq_max]

theorem da_init_items (cap : Nat) : (da_init cap).items = [] := by
  simp [da_init, DATreeNodes.items]

theorem items_length (da : DATreeNodes) (hw : da.WF) : da.items.length = da.cnt := by
  obtain ⟨h1, h2, _⟩ := hw
  simp [DATreeNodes.items]; omega

theorem take_succ_set (xs : List Ptr) (k : Nat) (p : Ptr) (hk : k < xs.length) :
    (xs.set k p).take (k + 1) = xs.take k ++ [p] := by
  induction xs generalizing k with
  | nil => simp at hk
  | cons x xs ih =>
    cases k with
    | zero => simp
    | succ k =>
      simp only [List.length_cons, Nat.add_lt_add_iff_right] at hk
      simp [ih k hk]

theorem da_append_spec (da : DATreeNodes) (p : Ptr) (hw : da.WF) :
    ∃ da2, da_append da p = .ok da2 ∧ da2.WF ∧ da2.items = p :: da.items := by
  obtain ⟨h1, h2, h3⟩ := hw
  by_cases hc : da.cnt = da.cap
  · have hlen : (erealloc da.nodes (da.cap * 2)).length = da.cap * 2 := by
      simp [erealloc, h2]; omega
    have hlt : da.cnt < (erealloc da.nodes (da.cap * 2)).length := by omega
    refine ⟨{ nodes := (erealloc da.nodes (da.cap * 2)).set da.cnt p, cnt := da.cnt + 1,
              cap := da.cap * 2 }, ?_, ?_, ?_⟩
    · simp only [da_append, hc, if_true]
      rw [if_pos (by rw [hlen]; omega)]
    · simp [DATreeNodes.WF, hlen]; omega
    · simp only [DATreeNodes.items]
      rw [take_succ_set _ _ _ hlt]
      have : (erealloc da.nodes (da.cap * 2)).take da.cnt = da.nodes.take da.cnt := by
        simp only [erealloc]
        rw [List.take_append_of_le_length (by simp [h2]; omega)]
        rw [List.take_take]
        congr 1; omega
      simp [this]
  · have hlt : da.cnt < da.nodes.length := by omega
    refine ⟨{ da with nodes := da.nodes.set da.cnt p, cnt := da.cnt + 1 }, ?_, ?_, ?_⟩
    · simp only [da_append, hc, if_false]
      rw [if_pos hlt]
    · simp [DATreeNodes.WF]; omega
    · simp only [DATreeNodes.items]
      rw [take_succ_set _ _ _ hlt]
      simp

theorem da_pop_spec (da : DATreeNodes) (p : Ptr) (rest : List Ptr) (hw : da.WF)
    (hi : da.items = p :: rest) :
    ∃ da2, da_pop da = .ok (p, da2) ∧ da2.WF ∧ da2.items = rest ∧ da2.cnt + 1 = da.cnt := by
  obtain ⟨h1, h2, h3⟩ := hw
  have hlen := items_length da ⟨h1, h2, h3⟩
  rw [hi] at hlen
  simp only [List.length_cons] at hlen
  obtain ⟨k, hk⟩ : ∃ k, da.cnt = k + 1 := ⟨rest.length, hlen.symm⟩
  have hklt : k < da.nodes.length := by omega
  have htake : da.nodes.take (k + 1) = da.nodes.take k ++ [da.nodes[k]] := by
    rw [List.take_succ]
    simp [List.getElem?_eq_getElem hklt]
  simp only [DATreeNodes.items, hk, htake, List.reverse_append, List.reverse_singleton,
    List.singleton_append, List.cons.injEq] at hi
  refine ⟨{ da with cnt := k }, ?_, ?_, ?_, ?_⟩
  · simp only [da_pop, hk]
    rw [List.getElem?_eq_getElem hklt]
    simp [hi.1]
  · simp [DATreeNodes.WF]; omega
  · simp [DATreeNodes.items, hi.2]
  · simp [hk]

theorem push_child_spec (da : DATreeNodes) (t : Tree F C) (hw : da.WF) :
    ∃ da2, push_child da t.ptr = .ok da2 ∧ da2.WF ∧
      da2.items = (if t.isNil then [] else [t.ptr]) ++ da.items := by
  cases t with
  | nil => exact ⟨da, by simp [push_child, Tree.ptr], hw, by simp [Tree.isNil]⟩
  | node a ln l r =>
    obtain ⟨da2, e, w, i⟩ := da_append_spec da (some a) hw
    exact ⟨da2, by simp [push_child, Tree.ptr, e], w, by simp [Tree.isNil, Tree.ptr, i]⟩

/-! ## The leaf-collection loop -/

theorem isNil_iff_ptr (t : Tree F C) : t.ptr.isNone = t.isNil := by
  cases t <;> rfl

theorem eq_nil_of_isNil (t : Tree F C) (ht : t.isNil = true) : t = .nil := by
  cases t with
  | nil => rfl
  | node a ln l r => simp [Tree.isNil] at ht

theorem collect_loop_done (h : Heap F C) (fuel : Nat) (ns ls : DATreeNodes)
    (hc : ns.cnt = 0) : collect_loop h fuel ns ls = .ok (ns, ls) := by
  unfold collect_loop
  simp [hc]

theorem collect_loop_leaf (h : Heap F C) (fuel : Nat) (ns ns1 ls ls1 : DATreeNodes)
    (cur : Ptr) (n : TreeNode F C) (hc : ns1.cnt + 1 = ns.cnt)
    (hpop : da_pop ns = .ok (cur, ns1)) (hd : deref h cur = .ok n)
    (hl : n.left = none) (hr : n.right = none) (happ : da_append ls cur = .ok ls1) :
    collect_loop h (fuel + 1) ns ls = collect_loop h fuel ns1 ls1 := by
  rw [collect_loop]
  have : ns.cnt > 0 := by omega
  simp [this, hpop, hd, hl, hr, happ]

theorem collect_loop_inner (h : Heap F C) (fuel : Nat) (ns ns1 ns2 ns3 ls : DATreeNodes)
    (cur : Ptr) (n : TreeNode F C) (hc : ns1.cnt + 1 = ns.cnt)
    (hpop : da_pop ns = .ok (cur, ns1)) (hd : deref h cur = .ok n)
    (hlr : ¬ (n.left.isNone ∧ n.right.isNone))
    (hpl : push_child ns1 n.left = .ok ns2) (hpr : push_child ns2 n.right = .ok ns3) :
    collect_loop h (fuel + 1) ns ls = collect_loop h fuel ns3 ls := by
  rw [collect_loop]
  have : ns.cnt > 0 := by omega
  simp only [this, if_true, hpop, hd, hpl, hpr]
  rw [if_neg hlr]

theorem deref_of_TreeAt (h : Heap F C) (a : Nat) (ln : Line F C) (l r : Tree F C)
    (ht : TreeAt h (.node a ln l r)) :
    deref h (some a) = .ok { left := l.ptr, right := r.ptr, line := ln } := by
  simp [TreeAt] at ht
  simp [deref, ht.1]

/-- Walking a subtree that sits on top of `node_stack`: after `t.size`
iterations the subtree is gone from `node_stack` and its leaves, left to
right, are on top of `leaf_stack`. -/
theorem collect_tree (h : Heap F C) (t : Tree F C) (ht : TreeAt h t) :
    ∀ (ns ls : DATreeNodes) (rest : List Ptr), ns.WF → ls.WF →
      ns.items = (if t.isNil then [] else [t.ptr]) ++ rest →
      ∃ ns2 ls2, ns2.WF ∧ ls2.WF ∧ ns2.items = rest ∧
        ls2.items = t.leafAddrs.map some ++ ls.items ∧
        ∀ fuel, collect_loop h (fuel + t.size) ns ls = collect_loop h fuel ns2 ls2 := by
  induction t with
  | nil =>
    intro ns ls rest hns hls hi
    exact ⟨ns, ls, hns, hls, by simpa [Tree.isNil] using hi, by simp [Tree.leafAddrs],
      by simp [Tree.size]⟩
  | node a ln l r ihl ihr =>
    intro ns ls rest hns hls hi
    have hd := deref_of_TreeAt h a ln l r ht
    simp only [TreeAt] at ht
    simp only [Tree.isNil, Tree.ptr, Bool.false_eq_true, if_false, List.singleton_append] at hi
    obtain ⟨ns1, hpop, hns1, hi1, hc1⟩ := da_pop_spec ns (some a) rest hns hi
    by_cases hleaf : l.isNil = true ∧ r.isNil = true
    · obtain ⟨ls1, happ, hls1, hli1⟩ := da_append_spec ls (some a) hls
      refine ⟨ns1, ls1, hns1, hls1, hi1, ?_, ?_⟩
      · simp [Tree.leafAddrs, hleaf, hli1]
      · intro fuel
        have hl := eq_nil_of_isNil l hleaf.1
        have hr := eq_nil_of_isNil r hleaf.2
        subst hl; subst hr
        have : fuel + (Tree.node a ln Tree.nil Tree.nil).size = fuel + 1 := by simp [Tree.size]
        rw [this]
        exact collect_loop_leaf h fuel ns ns1 ls ls1 (some a) _ hc1 hpop hd rfl rfl happ
    · obtain ⟨ns2, hpl, hns2, hi2⟩ := push_child_spec ns1 l hns1
      obtain ⟨ns3, hpr, hns3, hi3⟩ := push_child_spec ns2 r hns2
      rw [hi2, hi1] at hi3
      obtain ⟨ns4, ls4, hns4, hls4, hi4, hli4, hrun4⟩ := ihr ht.2.2 ns3 ls _ hns3 hls hi3
      obtain ⟨ns5, ls5, hns5, hls5, hi5, hli5, hrun5⟩ := ihl ht.2.1 ns4 ls4 rest hns4 hls4 hi4
      refine ⟨ns5, ls5, hns5, hls5, hi5, ?_, ?_⟩
      · simp [Tree.leafAddrs, hleaf, hli5, hli4]
      · intro fuel
        have : fuel + (Tree.node a ln l r).size = (fuel + l.size + r.size) + 1 := by
          simp [Tree.size]; omega
        rw [this]
        rw [collect_loop_inner h _ ns ns1 ns2 ns3 ls (some a) _ hc1 hpop hd
          (by simpa [isNil_iff_ptr] using hleaf) hpl hpr]
        rw [hrun4, hrun5]

/-! ## The leaf-expansion loop -/

theorem get_set {α : Type} (h : List α) (a b : Nat) (x : α) :
    (h.set a x)[b]? = if a = b ∧ a < h.length then some x else h[b]? := by
  rw [List.getElem?_set]
  by_cases hab : a = b
  · subst hab
    by_cases hl : a < h.length
    · simp [hl]
    · simp [hl]; omega
  · simp [hab]

theorem get_snoc {α : Type} (h : List α) (x : α) (b : Nat) :
    (h ++ [x])[b]? = if b < h.length then h[b]? else if b = h.length then some x else none := by
  by_cases hb : b < h.length
  · rw [List.getElem?_append_left hb, if_pos hb]
  · rw [if_neg hb]
    by_cases he : b = h.length
    · subst he; simp
    · rw [if_neg he, List.getElem?_eq_none]
      simp; omega

theorem expand_leaf_spec (rm : Raymath F) (angle scale : F) (h : Heap F C) (a : Nat)
    (n : TreeNode F C) (ha : h[a]? = some (some n)) :
    ∃ h2, expand_leaf rm angle scale h (some a) = .ok h2 ∧
      h2.length = h.length + 2 ∧
      h2[a]? = some (some { left := some h.length, right := some (h.length + 1),
                            line := n.line }) ∧
      h2[h.length]? = some (some { left := none, right := none,
                                   line := left_line rm angle scale n.line }) ∧
      h2[h.length + 1]? = some (some { left := none, right := none,
                                       line := right_line rm angle scale n.line }) ∧
      ∀ b, b < h.length → b ≠ a → h2[b]? = h[b]? := by
  have hlt : a < h.length := by
    by_contra hge
    rw [List.getElem?_eq_none (by omega)] at ha
    exact Option.noConfusion ha
  have e1 : ∀ x : Option (TreeNode F C), (h ++ [x])[a]? = some (some n) := by
    intro x
    rw [List.getElem?_append_left hlt]; exact ha
  refine ⟨expand_at rm angle scale h a n, ?_, ?_, ?_, ?_, ?_, ?_⟩ <;> unfold expand_at
  · simp only [expand_leaf, deref, ha, node_create, e1, store]
    simp only [List.getElem?_append_left, List.length_set, List.length_append,
      List.length_singleton, Nat.lt_succ_of_lt hlt, List.getElem?_set_self, store]
  · simp
  · rw [get_set, if_pos]
    exact ⟨rfl, by simp; omega⟩
  · rw [get_set, if_neg (by omega), get_snoc, if_pos (by simp), get_set, if_neg (by omega),
      get_snoc, if_neg (by omega), if_pos rfl]
  · rw [get_set, if_neg (by omega), get_snoc, if_neg (by simp), if_pos (by simp)]
  · intro b hb hne
    rw [get_set, if_neg (by omega), get_snoc, if_pos (by simp; omega), get_set,
      if_neg (by omega), get_snoc, if_pos hb]

theorem expand_loop_step (rm : Raymath F) (angle scale : F) (fuel : Nat) (h h2 : Heap F C)
    (ls ls1 : DATreeNodes) (cur : Ptr) (hc : ls1.cnt + 1 = ls.cnt)
    (hpop : da_pop ls = .ok (cur, ls1)) (he : expand_leaf rm angle scale h cur = .ok h2) :
    expand_loop rm angle scale (fuel + 1) h ls = expand_loop rm angle scale fuel h2 ls1 := by
  rw [expand_loop]
  have : ls.cnt > 0 := by omega
  simp [this, hpop, he]

theorem expand_loop_done (rm : Raymath F) (angle scale : F) (fuel : Nat) (h : Heap F C)
    (ls : DATreeNodes) (hc : ls.cnt = 0) :
    expand_loop rm angle scale fuel h ls = .ok (h, ls) := by
  unfold expand_loop
  simp [hc]

/-! ## Trees in the heap: frame and bounds -/

theorem TreeAt_congr (h h2 : Heap F C) (t : Tree F C)
    (hs : ∀ b ∈ t.addrs, h2[b]? = h[b]?) (ht : TreeAt h t) : TreeAt h2 t := by
  induction t with
  | nil => trivial
  | node a ln l r ihl ihr =>
    simp only [TreeAt] at ht ⊢
    simp only [Tree.addrs, List.mem_cons, List.mem_append] at hs
    refine ⟨?_, ihl (fun b hb => hs b (Or.inr (Or.inl hb))) ht.2.1,
      ihr (fun b hb => hs b (Or.inr (Or.inr hb))) ht.2.2⟩
    rw [hs a (Or.inl rfl)]; exact ht.1

theorem TreeAt_lt (h : Heap F C) (t : Tree F C) (ht : TreeAt h t) :
    ∀ b ∈ t.addrs, b < h.length := by
  induction t with
  | nil => intro b hb; simp [Tree.addrs] at hb
  | node a ln l r ihl ihr =>
    simp only [TreeAt] at ht
    intro b hb
    simp only [Tree.addrs, List.mem_cons, List.mem_append] at hb
    rcases hb with rfl | hb | hb
    · by_contra hge
      rw [List.getElem?_eq_none (by omega)] at ht
      exact Option.noConfusion ht.1
    · exact ihl ht.2.1 b hb
    · exact ihr ht.2.2 b hb

theorem leafAddrs_subset (t : Tree F C) : ∀ b ∈ t.leafAddrs, b ∈ t.addrs := by
  induction t with
  | nil => intro b hb; simp [Tree.leafAddrs] at hb
  | node a ln l r ihl ihr =>
    intro b hb
    simp only [Tree.leafAddrs] at hb
    simp only [Tree.addrs, List.mem_cons, List.mem_append]
    split at hb
    · simp at hb; exact Or.inl hb
    · rcases List.mem_append.1 hb with hb | hb
      · exact Or.inr (Or.inl (ihl b hb))
      · exact Or.inr (Or.inr (ihr b hb))

theorem leafAddrs_length (t : Tree F C) : t.leafAddrs.length = t.leaves := by
  induction t with
  | nil => rfl
  | node a ln l r ihl ihr =>
    simp only [Tree.leafAddrs, Tree.leaves]
    split
    · rfl
    · simp [ihl, ihr]

theorem grow_ptr (rm : Raymath F) (angle scale : F) (t : Tree F C) (n : Nat) :
    (t.grow rm angle scale n).ptr = t.ptr := by
  cases t with
  | nil => rfl
  | node a ln l r =>
    simp only [Tree.grow]
    split <;> rfl

theorem grow_addrs (rm : Raymath F) (angle scale : F) (t : Tree F C) :
    ∀ n, ∀ b ∈ (t.grow rm angle scale n).addrs,
      b ∈ t.addrs ∨ (n ≤ b ∧ b < n + 2 * t.leaves) := by
  induction t with
  | nil => intro n b hb; simp [Tree.grow, Tree.addrs] at hb
  | node a ln l r ihl ihr =>
    intro n b hb
    simp only [Tree.grow] at hb
    simp only [Tree.leaves, Tree.addrs, List.mem_cons, List.mem_append]
    split at hb
    · rename_i hleaf
      rw [if_pos hleaf]
      simp only [Tree.addrs, List.mem_cons, List.mem_append, List.append_nil,
        List.not_mem_nil, or_false] at hb
      rcases hb with rfl | rfl | rfl
      · exact Or.inl (Or.inl rfl)
      · exact Or.inr ⟨by omega, by omega⟩
      · exact Or.inr ⟨by omega, by omega⟩
    · rename_i hleaf
      rw [if_neg hleaf]
      simp only [Tree.addrs, List.mem_cons, List.mem_append] at hb
      rcases hb with rfl | hb | hb
      · exact Or.inl (Or.inl rfl)
      · rcases ihl n b hb with h1 | h1
        · exact Or.inl (Or.inr (Or.inl h1))
        · exact Or.inr ⟨by omega, by omega⟩
      · rcases ihr _ b hb with h1 | h1
        · exact Or.inl (Or.inr (Or.inr h1))
        · exact Or.inr ⟨by omega, by omega⟩

/-- Serving the leaves of a subtree that sit, left to right, on top of
`leaf_stack`: after `t.leaves` iterations the heap holds the grown subtree,
two cells were allocated per leaf and only the leaves' cells were changed. -/
theorem expand_tree (rm : Raymath F) (angle scale : F) (t : Tree F C) :
    ∀ (h : Heap F C) (ls : DATreeNodes) (rest : List Ptr), TreeAt h t → t.addrs.Nodup →
      ls.WF → ls.items = t.leafAddrs.map some ++ rest →
      ∃ h2 ls2, ls2.WF ∧ ls2.items = rest ∧
        TreeAt h2 (t.grow rm angle scale h.length) ∧
        h2.length = h.length + 2 * t.leaves ∧
        (∀ b, b < h.length → b ∉ t.leafAddrs → h2[b]? = h[b]?) ∧
        ∀ fuel, expand_loop rm angle scale (fuel + t.leaves) h ls
          = expand_loop rm angle scale fuel h2 ls2 := by
  induction t with
  | nil =>
    intro h ls rest _ _ hls hi
    exact ⟨h, ls, hls, by simpa [Tree.leafAddrs] using hi, by simp [Tree.grow, TreeAt],
      by simp [Tree.leaves], fun _ _ _ => rfl, by simp [Tree.leaves]⟩
  | node a ln l r ihl ihr =>
    intro h ls rest ht hnd hls hi
    by_cases hleaf : l.isNil = true ∧ r.isNil = true
    · have hl := eq_nil_of_isNil l hleaf.1
      have hr := eq_nil_of_isNil r hleaf.2
      subst hl; subst hr
      simp only [Tree.leafAddrs, Tree.isNil, and_self, if_true, List.map_cons, List.map_nil,
        List.singleton_append] at hi
      obtain ⟨ls1, hpop, hls1, hi1, hc1⟩ := da_pop_spec ls (some a) rest hls hi
      simp only [TreeAt, Tree.ptr, and_true] at ht
      obtain ⟨h2, he, hlen, hga, hgl, hgr, hfr⟩ := expand_leaf_spec rm angle scale h a _ ht
      refine ⟨h2, ls1, hls1, hi1, ?_, ?_, ?_, ?_⟩
      · simp only [Tree.grow, Tree.isNil, and_self, if_true, TreeAt, Tree.ptr, and_true]
        exact ⟨hga, hgl, hgr⟩
      · simp [Tree.leaves, Tree.isNil, hlen]
      · intro b hb hnotin
        simp only [Tree.leafAddrs, Tree.isNil, and_self, if_true, List.mem_singleton] at hnotin
        exact hfr b hb hnotin
      · intro fuel
        simp only [Tree.leaves, Tree.isNil, and_self, if_true]
        exact expand_loop_step rm angle scale fuel h h2 ls ls1 (some a) hc1 hpop he
    · simp only [Tree.leafAddrs, if_neg hleaf, List.map_append, List.append_assoc] at hi
      simp only [TreeAt] at ht
      simp only [Tree.addrs, List.nodup_cons, List.mem_append, not_or, List.nodup_append]
        at hnd
      obtain ⟨⟨hal, har⟩, hndl, hndr, hdisj⟩ := hnd
      obtain ⟨h1, ls1, hls1, hi1, ht1, hlen1, hfr1, hrun1⟩ :=
        ihl h ls _ ht.2.1 hndl hls hi
      have hltl := TreeAt_lt h l ht.2.1
      have hltr := TreeAt_lt h r ht.2.2
      have hlta : a < h.length := by
        by_contra hge
        rw [List.getElem?_eq_none (by omega)] at ht
        exact Option.noConfusion ht.1
      have htr1 : TreeAt h1 r :=
        TreeAt_congr h h1 r (fun b hb => hfr1 b (hltr b hb)
          (fun hbl => hdisj (leafAddrs_subset l b hbl) hb)) ht.2.2
      obtain ⟨h2, ls2, hls2, hi2, ht2, hlen2, hfr2, hrun2⟩ :=
        ihr h1 ls1 rest htr1 hndr hls1 hi1
      have htl2 : TreeAt h2 (l.grow rm angle scale h.length) := by
        refine TreeAt_congr h1 h2 _ (fun b hb => hfr2 b (TreeAt_lt h1 _ ht1 b hb) ?_) ht1
        intro hbr
        have hbr2 := leafAddrs_subset r b hbr
        rcases grow_addrs rm angle scale l h.length b hb with hbl | hbl
        · exact hdisj hbl hbr2
        · have := hltr b hbr2
          omega
      refine ⟨h2, ls2, hls2, hi2, ?_, ?_, ?_, ?_⟩
      · simp only [Tree.grow, if_neg hleaf, TreeAt, grow_ptr]
        refine ⟨?_, htl2, ?_⟩
        · rw [hfr2 a (by omega) (fun hx => har (leafAddrs_subset r a hx)),
            hfr1 a hlta (fun hx => hal (leafAddrs_subset l a hx))]
          exact ht.1
        · rw [hlen1] at ht2; exact ht2
      · simp only [Tree.leaves, if_neg hleaf]; omega
      · intro b hb hnotin
        simp only [Tree.leafAddrs, if_neg hleaf, List.mem_append, not_or] at hnotin
        rw [hfr2 b (by omega) hnotin.2, hfr1 b hb hnotin.1]
      · intro fuel
        simp only [Tree.leaves, if_neg hleaf]
        have : fuel + (l.leaves + r.leaves) = (fuel + r.leaves) + l.leaves := by omega
        rw [this, hrun1, hrun2]

theorem leafDepths_length (t : Tree F C) : t.leafDepths.length = t.leaves := by
  induction t with
  | nil => rfl
  | node a ln l r ihl ihr =>
    simp only [Tree.leafDepths, Tree.leaves]
    split
    · rfl
    · simp [ihl, ihr]

theorem leaves_le_size (t : Tree F C) : t.leaves ≤ t.size := by
  induction t with
  | nil => simp [Tree.leaves, Tree.size]
  | node a ln l r ihl ihr =>
    simp only [Tree.leaves, Tree.size]
    split <;> omega

theorem grow_nodup (rm : Raymath F) (angle scale : F) (t : Tree F C) :
    ∀ n, t.addrs.Nodup → (∀ b ∈ t.addrs, b < n) → (t.grow rm angle scale n).addrs.Nodup := by
  induction t with
  | nil => intro n _ _; simp [Tree.grow, Tree.addrs]
  | node a ln l r ihl ihr =>
    intro n hnd hlt
    simp only [Tree.addrs, List.nodup_cons, List.mem_append, not_or, List.nodup_append]
      at hnd
    obtain ⟨⟨hal, har⟩, hndl, hndr, hdisj⟩ := hnd
    simp only [Tree.addrs, List.mem_cons, List.mem_append] at hlt
    have hltl : ∀ b ∈ l.addrs, b < n := fun b hb => hlt b (Or.inr (Or.inl hb))
    have hltr : ∀ b ∈ r.addrs, b < n := fun b hb => hlt b (Or.inr (Or.inr hb))
    have han : a < n := hlt a (Or.inl rfl)
    simp only [Tree.grow]
    split
    · simp [Tree.addrs]; omega
    · simp only [Tree.addrs, List.nodup_cons, List.mem_append, not_or, List.nodup_append]
      refine ⟨⟨?_, ?_⟩, ihl n hndl hltl, ihr _ hndr (fun b hb => by have := hltr b hb; omega), ?_⟩
      · intro hx
        rcases grow_addrs rm angle scale l n a hx with h1 | h1
        · exact hal h1
        · omega
      · intro hx
        rcases grow_addrs rm angle scale r _ a hx with h1 | h1
        · exact har h1
        · omega
      · intro x hxl hxr
        rcases grow_addrs rm angle scale l n x hxl with h1 | h1 <;>
          rcases grow_addrs rm angle scale r _ x hxr with h2 | h2
        · exact hdisj h1 h2
        · have := hltl x h1; omega
        · have := hltr x h2; omega
        · omega

/-- Effect of one call of `generate_new_leaves` on a tree laid out in the heap. -/
theorem generate_new_leaves_spec (rm : Raymath F) (angle scale : F) (h : Heap F C) (a : Nat)
    (t : Tree F C) (ht : IsTree h (some a) t) :
    ∃ h2, (∀ fuel, t.size ≤ fuel →
        generate_new_leaves rm fuel h (some a) angle scale = .ok h2) ∧
      IsTree h2 (some a) (t.grow rm angle scale h.length) ∧
      h2.length = h.length + 2 * t.leaves ∧
      (∀ b, b < h.length → b ∉ t.leafAddrs → h2[b]? = h[b]?) := by
  obtain ⟨hp, hta, hnd⟩ := ht
  have hnil : t.isNil = false := by
    cases t with
    | nil => simp [Tree.ptr] at hp
    | node _ _ _ _ => rfl
  obtain ⟨ns0, happ, hns0, hi0⟩ := da_append_spec (da_init 1) (some a) (da_init_WF 1)
  rw [da_init_items] at hi0
  obtain ⟨ns2, ls2, hns2, hls2, hi2, hli2, hrun⟩ :=
    collect_tree h t hta ns0 (da_init 1) [] hns0 (da_init_WF 1) (by simp [hnil, hp, hi0])
  rw [da_init_items, List.append_nil] at hli2
  obtain ⟨h2, ls3, hls3, hi3, ht3, hlen3, hfr3, hrun3⟩ :=
    expand_tree rm angle scale t h ls2 [] hta hnd hls2 (by simp [hli2])
  refine ⟨h2, ?_, ⟨by rw [grow_ptr]; exact hp, ht3,
    grow_nodup rm angle scale t _ hnd (TreeAt_lt h t hta)⟩, hlen3, hfr3⟩
  intro fuel hfuel
  have hc2 : ns2.cnt = 0 := by rw [← items_length ns2 hns2, hi2]; rfl
  have hc3 : ls3.cnt = 0 := by rw [← items_length ls3 hls3, hi3]; rfl
  have e1 : collect_loop h fuel ns0 (da_init 1) = .ok (ns2, ls2) := by
    have : fuel = (fuel - t.size) + t.size := by omega
    rw [this, hrun, collect_loop_done h _ ns2 ls2 hc2]
  have e2 : expand_loop rm angle scale fuel h ls2 = .ok (h2, ls3) := by
    have : fuel = (fuel - t.leaves) + t.leaves := by have := leaves_le_size t; omega
    rw [this, hrun3, expand_loop_done rm angle scale _ h2 ls3 hc3]
  simp [generate_new_leaves, happ, e1, e2]

/-! ## Counting and shape lemmas for `grow` -/

theorem grow_isNil (rm : Raymath F) (angle scale : F) (t : Tree F C) (n : Nat) :
    (t.grow rm angle scale n).isNil = t.isNil := by
  rw [← isNil_iff_ptr, ← isNil_iff_ptr, grow_ptr]

theorem grow_leaves (rm : Raymath F) (angle scale : F) (t : Tree F C) :
    ∀ n, (t.grow rm angle scale n).leaves = 2 * t.leaves := by
  induction t with
  | nil => intro n; rfl
  | node a ln l r ihl ihr =>
    intro n
    by_cases hleaf : l.isNil = true ∧ r.isNil = true
    · have hl := eq_nil_of_isNil l hleaf.1
      have hr := eq_nil_of_isNil r hleaf.2
      subst hl; subst hr
      simp [Tree.grow, Tree.leaves, Tree.isNil]
    · have h2 : ¬ ((l.grow rm angle scale n).isNil = true ∧
          (r.grow rm angle scale (n + 2 * l.leaves)).isNil = true) := by
        simpa [grow_isNil] using hleaf
      simp only [Tree.grow, Tree.leaves, if_neg hleaf, if_neg h2, ihl, ihr]
      omega

theorem grow_size (rm : Raymath F) (angle scale : F) (t : Tree F C) :
    ∀ n, (t.grow rm angle scale n).size = t.size + 2 * t.leaves := by
  induction t with
  | nil => intro n; rfl
  | node a ln l r ihl ihr =>
    intro n
    by_cases hleaf : l.isNil = true ∧ r.isNil = true
    · have hl := eq_nil_of_isNil l hleaf.1
      have hr := eq_nil_of_isNil r hleaf.2
      subst hl; subst hr
      simp [Tree.grow, Tree.leaves, Tree.isNil, Tree.size]
    · simp only [Tree.grow, Tree.leaves, Tree.size, if_neg hleaf, ihl, ihr]
      omega

theorem grow_strict (rm : Raymath F) (angle scale : F) (t : Tree F C) :
    ∀ n, t.Strict → (t.grow rm angle scale n).Strict := by
  induction t with
  | nil => intro n _; trivial
  | node a ln l r ihl ihr =>
    intro n hs
    simp only [Tree.Strict] at hs
    by_cases hleaf : l.isNil = true ∧ r.isNil = true
    · have hl := eq_nil_of_isNil l hleaf.1
      have hr := eq_nil_of_isNil r hleaf.2
      subst hl; subst hr
      simp [Tree.grow, Tree.Strict, Tree.isNil]
    · simp only [Tree.grow, if_neg hleaf, Tree.Strict, grow_isNil]
      exact ⟨hs.1, ihl n hs.2.1, ihr _ hs.2.2⟩

theorem grow_leafDepths (rm : Raymath F) (angle scale : F) (t : Tree F C) :
    ∀ n, (t.grow rm angle scale n).leafDepths
      = t.leafDepths.flatMap (fun d => [d + 1, d + 1]) := by
  induction t with
  | nil => intro n; rfl
  | node a ln l r ihl ihr =>
    intro n
    by_cases hleaf : l.isNil = true ∧ r.isNil = true
    · have hl := eq_nil_of_isNil l hleaf.1
      have hr := eq_nil_of_isNil r hleaf.2
      subst hl; subst hr
      simp [Tree.grow, Tree.leafDepths, Tree.isNil]
    · have h2 : ¬ ((l.grow rm angle scale n).isNil = true ∧
          (r.grow rm angle scale (n + 2 * l.leaves)).isNil = true) := by
        simpa [grow_isNil] using hleaf
      simp only [Tree.grow, Tree.leafDepths, if_neg hleaf, if_neg h2, ihl, ihr]
      simp [List.flatMap_append, List.flatMap_map, List.map_flatMap]

theorem growN_leaves (rm : Raymath F) (angle scale : F) (k : Nat) :
    ∀ (t : Tree F C) (n : Nat), (t.growN rm angle scale k n).leaves = 2 ^ k * t.leaves := by
  induction k with
  | zero => intro t n; simp [Tree.growN]
  | succ k ih =>
    intro t n
    simp only [Tree.growN, ih, grow_leaves, pow_succ]
    ring

theorem growN_size (rm : Raymath F) (angle scale : F) (k : Nat) :
    ∀ (t : Tree F C) (n : Nat),
      (t.growN rm angle scale k n).size + 2 * t.leaves = t.size + 2 ^ (k + 1) * t.leaves := by
  induction k with
  | zero => intro t n; simp [Tree.growN]
  | succ k ih =>
    intro t n
    have h1 := ih (t.grow rm angle scale n) (n + 2 * t.leaves)
    rw [grow_leaves, grow_size] at h1
    simp only [Tree.growN]
    have : 2 ^ (k + 1 + 1) * t.leaves = 2 ^ (k + 1) * (2 * t.leaves) := by ring
    omega

theorem growN_strict (rm : Raymath F) (angle scale : F) (k : Nat) :
    ∀ (t : Tree F C) (n : Nat), t.Strict → (t.growN rm angle scale k n).Strict := by
  induction k with
  | zero => intro t n hs; exact hs
  | succ k ih => intro t n hs; exact ih _ _ (grow_strict rm angle scale t n hs)

theorem growN_leafDepths (rm : Raymath F) (angle scale : F) (k : Nat) :
    ∀ (t : Tree F C) (n d0 : Nat), (∀ d ∈ t.leafDepths, d = d0) →
      ∀ d ∈ (t.growN rm angle scale k n).leafDepths, d = d0 + k := by
  induction k with
  | zero => intro t n d0 h0 d hd; exact h0 d hd
  | succ k ih =>
    intro t n d0 h0 d hd
    have := ih (t.grow rm angle scale n) (n + 2 * t.leaves) (d0 + 1) (by
      intro e he
      rw [grow_leafDepths] at he
      simp only [List.mem_flatMap, List.mem_cons, List.mem_singleton, List.not_mem_nil,
        or_false, or_self] at he
      obtain ⟨x, hx, rfl⟩ := he
      rw [h0 x hx]) d hd
    omega

theorem size_le_growN (rm : Raymath F) (angle scale : F) (k : Nat) (t : Tree F C) (n : Nat) :
    t.size ≤ (t.growN rm angle scale k n).size := by
  have h1 := growN_size rm angle scale k t n
  have h2 : 2 * t.leaves ≤ 2 ^ (k + 1) * t.leaves := by
    have : 2 ≤ 2 ^ (k + 1) := by
      calc 2 = 2 ^ 1 := by norm_num
        _ ≤ 2 ^ (k + 1) := Nat.pow_le_pow_right (by norm_num) (by omega)
    exact Nat.mul_le_mul_right _ this
  omega

/-- Effect of `n` successive calls of `generate_new_leaves`. -/
theorem grow_times_spec (rm : Raymath F) (angle scale : F) (a : Nat) (k : Nat) :
    ∀ (h : Heap F C) (t : Tree F C), IsTree h (some a) t →
      ∃ h2, (∀ fuel, (t.growN rm angle scale k h.length).size ≤ fuel →
          grow_times rm fuel (some a) angle scale k h = .ok h2) ∧
        IsTree h2 (some a) (t.growN rm angle scale k h.length) := by
  induction k with
  | zero => intro h t ht; exact ⟨h, fun _ _ => rfl, ht⟩
  | succ k ih =>
    intro h t ht
    obtain ⟨h1, hrun1, ht1, hlen1, _⟩ := generate_new_leaves_spec rm angle scale h a t ht
    obtain ⟨h2, hrun2, ht2⟩ := ih h1 _ ht1
    rw [hlen1] at hrun2 ht2
    refine ⟨h2, ?_, ht2⟩
    intro fuel hfuel
    simp only [Tree.growN] at hfuel
    have hs := size_le_growN rm angle scale k (t.grow rm angle scale h.length)
      (h.length + 2 * t.leaves)
    rw [grow_size] at hs
    simp only [grow_times, hrun1 fuel (by omega)]
    exact hrun2 fuel hfuel

theorem IsTree_node_create (h0 : Heap F C) (trunk : Line F C) :
    IsTree (node_create h0 trunk).1 (node_create h0 trunk).2
      (.node h0.length trunk .nil .nil) := by
  simp [IsTree, node_create, Tree.ptr, TreeAt, Tree.addrs]

theorem TreeAt_unique (h : Heap F C) (t : Tree F C) :
    ∀ t2 : Tree F C, TreeAt h t → TreeAt h t2 → t.ptr = t2.ptr → t = t2 := by
  induction t with
  | nil =>
    intro t2 _ _ hp
    cases t2 with
    | nil => rfl
    | node _ _ _ _ => simp [Tree.ptr] at hp
  | node a ln l r ihl ihr =>
    intro t2 ht ht2 hp
    cases t2 with
    | nil => simp [Tree.ptr] at hp
    | node a2 ln2 l2 r2 =>
      simp only [Tree.ptr, Option.some.injEq] at hp
      subst hp
      simp only [TreeAt] at ht ht2
      have he := ht.1.symm.trans ht2.1
      simp only [Option.some.injEq, TreeNode.mk.injEq] at he
      rw [ihl l2 ht.2.1 ht2.2.1 he.1, ihr r2 ht.2.2 ht2.2.2 he.2.1, he.2.2]

/-! ## What happens at a single node -/

theorem isNil_of_addrs (t : Tree F C) (b : Nat) (hb : b ∈ t.addrs) : t.isNil = false := by
  cases t with
  | nil => simp [Tree.addrs] at hb
  | node _ _ _ _ => rfl

/-- A node of the tree that has no children in `h` owns, after growth, two
consecutive new cells holding its left and right child. -/
theorem grow_leaf_children (rm : Raymath F) (angle scale : F) (h h2 : Heap F C)
    (t : Tree F C) :
    ∀ n, TreeAt h t → TreeAt h2 (t.grow rm angle scale n) →
      ∀ b ∈ t.addrs, ∀ nd, h[b]? = some (some nd) → nd.left = none → nd.right = none →
        ∃ l, n ≤ l ∧ l + 1 < n + 2 * t.leaves ∧
          h2[b]? = some (some (TreeNode.mk (some l) (some (l + 1)) nd.line)) ∧
          h2[l]? = some (some (TreeNode.mk none none (left_line rm angle scale nd.line))) ∧
          h2[l + 1]? = some (some (TreeNode.mk none none (right_line rm angle scale nd.line))) := by
  induction t with
  | nil => intro n _ _ b hb; simp [Tree.addrs] at hb
  | node a ln l r ihl ihr =>
    intro n ht ht2 b hb nd hnd hleft hright
    simp only [TreeAt] at ht
    simp only [Tree.addrs, List.mem_cons, List.mem_append] at hb
    rcases hb with rfl | hb | hb
    · have he := ht.1.symm.trans hnd
      simp only [Option.some.injEq] at he
      subst he
      simp only at hleft hright
      have hl := eq_nil_of_isNil l (by rw [← isNil_iff_ptr, hleft]; rfl)
      have hr := eq_nil_of_isNil r (by rw [← isNil_iff_ptr, hright]; rfl)
      subst hl; subst hr
      simp only [Tree.grow, Tree.isNil, and_self, if_true, TreeAt, Tree.ptr, and_true] at ht2
      exact ⟨n, Nat.le_refl n, by simp [Tree.leaves, Tree.isNil], ht2.1, ht2.2.1, ht2.2.2⟩
    · have hnl := isNil_of_addrs l b hb
      have hleaf : ¬ (l.isNil = true ∧ r.isNil = true) := by simp [hnl]
      simp only [Tree.grow, if_neg hleaf, TreeAt] at ht2
      obtain ⟨x, h1, h2', h3⟩ := ihl n ht.2.1 ht2.2.1 b hb nd hnd hleft hright
      exact ⟨x, h1, by simp only [Tree.leaves, if_neg hleaf]; omega, h3⟩
    · have hnr := isNil_of_addrs r b hb
      have hleaf : ¬ (l.isNil = true ∧ r.isNil = true) := by simp [hnr]
      simp only [Tree.grow, if_neg hleaf, TreeAt] at ht2
      obtain ⟨x, h1, h2', h3⟩ := ihr _ ht.2.2 ht2.2.2 b hb nd hnd hleft hright
      exact ⟨x, by omega, by simp only [Tree.leaves, if_neg hleaf]; omega, h3⟩

/-- Every cell allocated by the growth of a tree is a childless node hanging
under one of the tree's former leaves. -/
theorem grow_new_cells (rm : Raymath F) (angle scale : F) (h2 : Heap F C) (t : Tree F C) :
    ∀ n, TreeAt h2 (t.grow rm angle scale n) → ∀ c, n ≤ c → c < n + 2 * t.leaves →
      ∃ b ∈ t.leafAddrs, ∃ nd2 ln, h2[b]? = some (some nd2) ∧
        (nd2.left = some c ∨ nd2.right = some c) ∧
        h2[c]? = some (some (TreeNode.mk none none ln)) := by
  induction t with
  | nil => intro n _ c h1 h2; simp [Tree.leaves] at h2; omega
  | node a ln l r ihl ihr =>
    intro n ht2 c hge hlt
    by_cases hleaf : l.isNil = true ∧ r.isNil = true
    · have hl := eq_nil_of_isNil l hleaf.1
      have hr := eq_nil_of_isNil r hleaf.2
      subst hl; subst hr
      simp only [Tree.grow, Tree.isNil, and_self, if_true, TreeAt, Tree.ptr, and_true] at ht2
      simp only [Tree.leaves, Tree.isNil, and_self, if_true] at hlt
      refine ⟨a, by simp [Tree.leafAddrs, Tree.isNil], _, ?_, ht2.1, ?_⟩
      · exact if c = n then left_line rm angle scale ln else right_line rm angle scale ln
      · by_cases hc : c = n
        · subst hc
          exact ⟨Or.inl rfl, by rw [if_pos rfl]; exact ht2.2.1⟩
        · have hc1 : c = n + 1 := by omega
          subst hc1
          exact ⟨Or.inr rfl, by rw [if_neg hc]; exact ht2.2.2⟩
    · simp only [Tree.grow, if_neg hleaf, TreeAt] at ht2
      simp only [Tree.leaves, if_neg hleaf] at hlt
      simp only [Tree.leafAddrs, if_neg hleaf, List.mem_append]
      by_cases hc : c < n + 2 * l.leaves
      · obtain ⟨b, hb, rest⟩ := ihl n ht2.2.1 c hge hc
        exact ⟨b, Or.inl hb, rest⟩
      · obtain ⟨b, hb, rest⟩ := ihr _ ht2.2.2 c (by omega) (by omega)
        exact ⟨b, Or.inr hb, rest⟩

/-- The cells of the leaves of a tree hold nodes without children. -/
theorem leafAddrs_childless (h : Heap F C) (t : Tree F C) (ht : TreeAt h t) :
    ∀ b ∈ t.leafAddrs, ∃ ln, h[b]? = some (some (TreeNode.mk none none ln)) := by
  induction t with
  | nil => intro b hb; simp [Tree.leafAddrs] at hb
  | node a ln l r ihl ihr =>
    intro b hb
    simp only [TreeAt] at ht
    by_cases hleaf : l.isNil = true ∧ r.isNil = true
    · have hl := eq_nil_of_isNil l hleaf.1
      have hr := eq_nil_of_isNil r hleaf.2
      subst hl; subst hr
      simp only [Tree.leafAddrs, Tree.isNil, and_self, if_true, List.mem_singleton] at hb
      subst hb
      exact ⟨ln, ht.1⟩
    · simp only [Tree.leafAddrs, if_neg hleaf, List.mem_append] at hb
      rcases hb with hb | hb
      · exact ihl ht.2.1 b hb
      · exact ihr ht.2.2 b hb

/-- Every node of a tree in the heap is a live cell whose line is the one
the tree records. -/
theorem TreeAt_nodes (h : Heap F C) (t : Tree F C) (ht : TreeAt h t) :
    ∀ b ∈ t.addrs, ∃ nd, h[b]? = some (some nd) ∧ (b, nd.line) ∈ t.nodes := by
  induction t with
  | nil => intro b hb; simp [Tree.addrs] at hb
  | node a ln l r ihl ihr =>
    intro b hb
    simp only [TreeAt] at ht
    simp only [Tree.addrs, List.mem_cons, List.mem_append] at hb
    simp only [Tree.nodes, List.mem_cons, List.mem_append]
    rcases hb with rfl | hb | hb
    · exact ⟨_, ht.1, Or.inl rfl⟩
    · obtain ⟨nd, h1, h2⟩ := ihl ht.2.1 b hb
      exact ⟨nd, h1, Or.inr (Or.inl h2)⟩
    · obtain ⟨nd, h1, h2⟩ := ihr ht.2.2 b hb
      exact ⟨nd, h1, Or.inr (Or.inr h2)⟩

theorem grow_colour (rm : Raymath F) (angle scale : F) (c : C) (t : Tree F C) :
    ∀ n, (∀ p ∈ t.nodes, p.2.c = c) → ∀ p ∈ (t.grow rm angle scale n).nodes, p.2.c = c := by
  induction t with
  | nil => intro n _ p hp; simp [Tree.grow, Tree.nodes] at hp
  | node a ln l r ihl ihr =>
    intro n hc p hp
    simp only [Tree.nodes, List.mem_cons, List.mem_append] at hc
    have hln : ln.c = c := hc (a, ln) (Or.inl rfl)
    simp only [Tree.grow] at hp
    split at hp
    · simp only [Tree.nodes, List.mem_cons, List.mem_append, List.append_nil,
        List.not_mem_nil, or_false] at hp
      rcases hp with rfl | rfl | rfl
      · exact hln
      · exact hln
      · exact hln
    · simp only [Tree.nodes, List.mem_cons, List.mem_append] at hp
      rcases hp with rfl | hp | hp
      · exact hln
      · exact ihl n (fun q hq => hc q (Or.inr (Or.inl hq))) p hp
      · exact ihr _ (fun q hq => hc q (Or.inr (Or.inr hq))) p hp

theorem growN_colour (rm : Raymath F) (angle scale : F) (c : C) (k : Nat) :
    ∀ (t : Tree F C) (n : Nat), (∀ p ∈ t.nodes, p.2.c = c) →
      ∀ p ∈ (t.growN rm angle scale k n).nodes, p.2.c = c := by
  induction k with
  | zero => intro t n hc; exact hc
  | succ k ih => intro t n hc; exact ih _ _ (grow_colour rm angle scale c t n hc)

/-- The `n` growth calls of `main`, started on the one-node tree made by
`node_create`. -/
theorem grow_times_trunk (rm : Raymath F) (angle scale : F) (h0 : Heap F C)
    (trunk : Line F C) (N : Nat) :
    ∃ h, (∀ fuel, 2 ^ (N + 1) ≤ fuel →
        grow_times rm fuel (node_create h0 trunk).2 angle scale N (node_create h0 trunk).1
          = .ok h) ∧
      IsTree h (node_create h0 trunk).2
        ((Tree.node h0.length trunk .nil .nil).growN rm angle scale N (h0.length + 1)) := by
  have h1 := IsTree_node_create h0 trunk
  obtain ⟨h, hrun, ht⟩ := grow_times_spec rm angle scale h0.length N _ _ h1
  have hlen : (node_create h0 trunk).1.length = h0.length + 1 := by simp [node_create]
  rw [hlen] at hrun ht
  refine ⟨h, ?_, ht⟩
  intro fuel hfuel
  apply hrun
  have := growN_size rm angle scale N (Tree.node h0.length trunk .nil .nil) (h0.length + 1)
  simp only [Tree.leaves, Tree.size, Tree.isNil, and_self, if_true] at this
  omega

/-! ## Claims about growth -/

/-- C1: for every `N`, trunk, angle and scale, calling `generate_new_leaves`
`N` times on the one-node tree returned by `node_create` runs to completion
and leaves a tree with exactly `2^N` leaves and `2^(N+1) - 1` nodes. -/
theorem grow_times_counts (rm : Raymath F) (angle scale : F) (h0 : Heap F C)
    (trunk : Line F C) (N : Nat) :
    ∃ h t, (∀ fuel, 2 ^ (N + 1) ≤ fuel →
        grow_times rm fuel (node_create h0 trunk).2 angle scale N (node_create h0 trunk).1
          = .ok h) ∧
      IsTree h (node_create h0 trunk).2 t ∧ t.leaves = 2 ^ N ∧ t.size = 2 ^ (N + 1) - 1 := by
  obtain ⟨h, hrun, ht⟩ := grow_times_trunk rm angle scale h0 trunk N
  refine ⟨h, _, hrun, ht, ?_, ?_⟩
  · rw [growN_leaves]; simp [Tree.leaves, Tree.isNil]
  · have := growN_size rm angle scale N (Tree.node h0.length trunk .nil .nil) (h0.length + 1)
    simp only [Tree.leaves, Tree.size, Tree.isNil, and_self, if_true] at this
    omega

/-- C2: after one call of `generate_new_leaves` on a tree, every node of the
tree that had both children absent has both children present; each of the two
children is a node with both children absent, stored at an address that was
neither a node of the tree nor allocated before the call, and the two
children are distinct. -/
theorem former_leaves_get_two_new_leaves (rm : Raymath F) (angle scale : F) (h : Heap F C)
    (a : Nat) (t : Tree F C) (ht : IsTree h (some a) t) :
    ∃ h2, (∀ fuel, t.size ≤ fuel →
        generate_new_leaves rm fuel h (some a) angle scale = .ok h2) ∧
      ∀ b ∈ t.addrs, ∀ nd, h[b]? = some (some nd) → nd.left = none → nd.right = none →
        ∃ l r nd2 nl nr, h2[b]? = some (some nd2) ∧ nd2.left = some l ∧ nd2.right = some r ∧
          h2[l]? = some (some nl) ∧ nl.left = none ∧ nl.right = none ∧
          h2[r]? = some (some nr) ∧ nr.left = none ∧ nr.right = none ∧
          l ≠ r ∧ l ∉ t.addrs ∧ r ∉ t.addrs ∧ h[l]? = none ∧ h[r]? = none := by
  obtain ⟨h2, hrun, ht2, _, _⟩ := generate_new_leaves_spec rm angle scale h a t ht
  refine ⟨h2, hrun, ?_⟩
  intro b hb nd hnd hl hr
  obtain ⟨l, hge, _, e1, e2, e3⟩ :=
    grow_leaf_children rm angle scale h h2 t h.length ht.2.1 ht2.2.1 b hb nd hnd hl hr
  have hlt := TreeAt_lt h t ht.2.1
  refine ⟨l, l + 1, _, _, _, e1, rfl, rfl, e2, rfl, rfl, e3, rfl, rfl, by omega, ?_, ?_,
    List.getElem?_eq_none (by omega), List.getElem?_eq_none (by omega)⟩
  · intro hx; have := hlt l hx; omega
  · intro hx; have := hlt (l + 1) hx; omega

/-- C3: one call of `generate_new_leaves` leaves every cell unchanged that is
not a childless node of the tree (so every node with at least one child keeps
its line and both child pointers), keeps the line of every node of the tree,
and changes a childless node only by pointing it at two newly allocated
cells; exactly two cells per former leaf are allocated, and each new cell is a
child of a former leaf. -/
theorem generate_new_leaves_frame (rm : Raymath F) (angle scale : F) (h : Heap F C)
    (a : Nat) (t : Tree F C) (ht : IsTree h (some a) t) :
    ∃ h2, (∀ fuel, t.size ≤ fuel →
        generate_new_leaves rm fuel h (some a) angle scale = .ok h2) ∧
      (∀ b nd, h[b]? = some (some nd) →
        (b ∉ t.addrs ∨ nd.left ≠ none ∨ nd.right ≠ none) → h2[b]? = some (some nd)) ∧
      (∀ b ∈ t.addrs, ∀ nd, h[b]? = some (some nd) →
        ∃ nd2, h2[b]? = some (some nd2) ∧ nd2.line = nd.line) ∧
      (∀ b ∈ t.addrs, ∀ nd, h[b]? = some (some nd) → nd.left = none → nd.right = none →
        ∃ l r, h2[b]? = some (some (TreeNode.mk (some l) (some r) nd.line)) ∧
          h.length ≤ l ∧ h.length ≤ r) ∧
      h2.length = h.length + 2 * t.leaves ∧
      (∀ c, h.length ≤ c → c < h2.length →
        ∃ b ∈ t.addrs, ∃ ln nd2, h[b]? = some (some (TreeNode.mk none none ln)) ∧
          h2[b]? = some (some nd2) ∧ (nd2.left = some c ∨ nd2.right = some c)) := by
  obtain ⟨h2, hrun, ht2, hlen, hfr⟩ := generate_new_leaves_spec rm angle scale h a t ht
  have hkeep : ∀ b nd, h[b]? = some (some nd) →
      (b ∉ t.addrs ∨ nd.left ≠ none ∨ nd.right ≠ none) → h2[b]? = some (some nd) := by
    intro b nd hnd hcase
    have hblt : b < h.length := by
      by_contra hge
      rw [List.getElem?_eq_none (by omega)] at hnd
      exact Option.noConfusion hnd
    rw [hfr b hblt ?_, hnd]
    intro hleaf
    obtain ⟨ln, hln⟩ := leafAddrs_childless h t ht.2.1 b hleaf
    have he := hnd.symm.trans hln
    simp only [Option.some.injEq] at he
    subst he
    rcases hcase with hc | hc | hc
    · exact hc (leafAddrs_subset t b hleaf)
    · exact hc rfl
    · exact hc rfl
  have hnew : ∀ b ∈ t.addrs, ∀ nd, h[b]? = some (some nd) → nd.left = none →
      nd.right = none →
      ∃ l r, h2[b]? = some (some (TreeNode.mk (some l) (some r) nd.line)) ∧
        h.length ≤ l ∧ h.length ≤ r := by
    intro b hb nd hnd hl hr
    obtain ⟨l, hge, _, e1, _, _⟩ :=
      grow_leaf_children rm angle scale h h2 t h.length ht.2.1 ht2.2.1 b hb nd hnd hl hr
    exact ⟨l, l + 1, e1, hge, by omega⟩
  refine ⟨h2, hrun, hkeep, ?_, hnew, hlen, ?_⟩
  case refine_2 =>
    intro c hge hlt
    obtain ⟨b, hb, nd2, _, e1, e2, _⟩ :=
      grow_new_cells rm angle scale h2 t h.length ht2.2.1 c hge (by omega)
    obtain ⟨ln, hln⟩ := leafAddrs_childless h t ht.2.1 b hb
    exact ⟨b, leafAddrs_subset t b hb, ln, nd2, hln, e1, e2⟩
  intro b hb nd hnd
  by_cases hc : nd.left = none ∧ nd.right = none
  · obtain ⟨l, r, e, _⟩ := hnew b hb nd hnd hc.1 hc.2
    exact ⟨_, e, rfl⟩
  · refine ⟨nd, hkeep b nd hnd ?_, rfl⟩
    by_cases hl : nd.left = none
    · exact Or.inr (Or.inr (fun hr => hc ⟨hl, hr⟩))
    · exact Or.inr (Or.inl hl)

/-- C4: if every node of a tree has no child or two children, the same holds
after `generate_new_leaves`; and every tree obtained from a `node_create`
tree by any number of `generate_new_leaves` calls has no node with exactly
one child. -/
theorem strictness_invariant (rm : Raymath F) (angle scale : F) (h : Heap F C) (a : Nat)
    (t : Tree F C) (ht : IsTree h (some a) t) (hs : t.Strict) :
    (∃ h2 t2, (∀ fuel, t.size ≤ fuel →
        generate_new_leaves rm fuel h (some a) angle scale = .ok h2) ∧
      IsTree h2 (some a) t2 ∧ t2.Strict) ∧
    ∀ (h0 : Heap F C) (trunk : Line F C) (N : Nat),
      ∃ hN tN, (∀ fuel, 2 ^ (N + 1) ≤ fuel →
          grow_times rm fuel (node_create h0 trunk).2 angle scale N (node_create h0 trunk).1
            = .ok hN) ∧
        IsTree hN (node_create h0 trunk).2 tN ∧ tN.Strict := by
  constructor
  · obtain ⟨h2, hrun, ht2, _, _⟩ := generate_new_leaves_spec rm angle scale h a t ht
    exact ⟨h2, _, hrun, ht2, grow_strict rm angle scale t _ hs⟩
  · intro h0 trunk N
    obtain ⟨hN, hrun, htN⟩ := grow_times_trunk rm angle scale h0 trunk N
    exact ⟨hN, _, hrun, htN, growN_strict rm angle scale N _ _ (by simp [Tree.Strict])⟩

/-- C5: calling `generate_new_leaves` `N` times on a one-node tree yields a
perfect binary tree of depth `N`: every node has no child or two children and
every childless node lies exactly `N` edges below the root. -/
theorem grow_times_perfect (rm : Raymath F) (angle scale : F) (h0 : Heap F C)
    (trunk : Line F C) (N : Nat) :
    ∃ h t, (∀ fuel, 2 ^ (N + 1) ≤ fuel →
        grow_times rm fuel (node_create h0 trunk).2 angle scale N (node_create h0 trunk).1
          = .ok h) ∧
      IsTree h (node_create h0 trunk).2 t ∧ t.Strict ∧ t.leafDepths ≠ [] ∧
      ∀ d ∈ t.leafDepths, d = N := by
  obtain ⟨h, hrun, ht⟩ := grow_times_trunk rm angle scale h0 trunk N
  refine ⟨h, _, hrun, ht, growN_strict rm angle scale N _ _ (by simp [Tree.Strict]), ?_, ?_⟩
  · intro he
    have h1 := growN_leaves rm angle scale N (Tree.node h0.length trunk .nil .nil)
      (h0.length + 1)
    rw [← leafDepths_length, he] at h1
    simp only [Tree.leaves, Tree.isNil, and_self, if_true, List.length_nil, mul_one] at h1
    have : 0 < 2 ^ N := Nat.pow_pos (by norm_num)
    omega
  · intro d hd
    have := growN_leafDepths rm angle scale N (Tree.node h0.length trunk .nil .nil)
      (h0.length + 1) 0 (by simp [Tree.leafDepths, Tree.isNil]) d hd
    omega

/-- C6: for every tree, strict or not, one call of `generate_new_leaves`
doubles the number of leaves and adds two nodes per former leaf. -/
theorem generate_new_leaves_doubles (rm : Raymath F) (angle scale : F) (h : Heap F C)
    (a : Nat) (t : Tree F C) (ht : IsTree h (some a) t) :
    ∃ h2 t2, (∀ fuel, t.size ≤ fuel →
        generate_new_leaves rm fuel h (some a) angle scale = .ok h2) ∧
      IsTree h2 (some a) t2 ∧ t2.leaves = 2 * t.leaves ∧ t2.size = t.size + 2 * t.leaves := by
  obtain ⟨h2, hrun, ht2, _, _⟩ := generate_new_leaves_spec rm angle scale h a t ht
  exact ⟨h2, _, hrun, ht2, grow_leaves rm angle scale t _, grow_size rm angle scale t _⟩

/-- C7: when `generate_new_leaves` expands a leaf with segment `(p0, p1, c)`,
the new left child holds `(p1, p1 + rotate(scale * (p1 - p0), -angle), c)` and
the new right child holds `(p1, p1 + rotate(scale * (p1 - p0), angle), c)`; in
particular both start exactly at the parent's `p1`. -/
theorem child_segments (rm : Raymath F) (angle scale : F) (h : Heap F C)
    (a : Nat) (t : Tree F C) (ht : IsTree h (some a) t) :
    ∃ h2, (∀ fuel, t.size ≤ fuel →
        generate_new_leaves rm fuel h (some a) angle scale = .ok h2) ∧
      ∀ b ∈ t.addrs, ∀ nd, h[b]? = some (some nd) → nd.left = none → nd.right = none →
        ∃ l r nl nr, h2[b]? = some (some (TreeNode.mk (some l) (some r) nd.line)) ∧
          h2[l]? = some (some nl) ∧ h2[r]? = some (some nr) ∧
          nl.line = Line.mk nd.line.p1
            (rm.Vector2Add nd.line.p1
              (rm.Vector2Rotate
                (rm.Vector2Scale (rm.Vector2Subtract nd.line.p1 nd.line.p0) scale)
                (rm.neg angle)))
            nd.line.c ∧
          nr.line = Line.mk nd.line.p1
            (rm.Vector2Add nd.line.p1
              (rm.Vector2Rotate
                (rm.Vector2Scale (rm.Vector2Subtract nd.line.p1 nd.line.p0) scale)
                angle))
            nd.line.c ∧
          nl.line.p0 = nd.line.p1 ∧ nr.line.p0 = nd.line.p1 := by
  obtain ⟨h2, hrun, ht2, _, _⟩ := generate_new_leaves_spec rm angle scale h a t ht
  refine ⟨h2, hrun, ?_⟩
  intro b hb nd hnd hl hr
  obtain ⟨l, _, _, e1, e2, e3⟩ :=
    grow_leaf_children rm angle scale h h2 t h.length ht.2.1 ht2.2.1 b hb nd hnd hl hr
  exact ⟨l, l + 1, _, _, e1, e2, e3, rfl, rfl, rfl, rfl⟩

/-- C9: after `N` calls of `generate_new_leaves` on the one-node tree built
by `node_create` from a trunk of colour `c`, every node of the tree has colour
`c`. -/
theorem colour_propagation (rm : Raymath F) (angle scale : F) (h0 : Heap F C)
    (trunk : Line F C) (N : Nat) :
    ∃ h t, (∀ fuel, 2 ^ (N + 1) ≤ fuel →
        grow_times rm fuel (node_create h0 trunk).2 angle scale N (node_create h0 trunk).1
          = .ok h) ∧
      IsTree h (node_create h0 trunk).2 t ∧
      ∀ b ∈ t.addrs, ∃ nd, h[b]? = some (some nd) ∧ nd.line.c = trunk.c := by
  obtain ⟨h, hrun, ht⟩ := grow_times_trunk rm angle scale h0 trunk N
  refine ⟨h, _, hrun, ht, ?_⟩
  intro b hb
  obtain ⟨nd, e, hmem⟩ := TreeAt_nodes h _ ht.2.1 b hb
  refine ⟨nd, e, ?_⟩
  exact growN_colour rm angle scale trunk.c N _ _
    (by simp [Tree.nodes]) (b, nd.line) hmem

/-! ## The draw walk -/

theorem draw_loop_done (h : Heap F C) (fuel : Nat) (ns : DATreeNodes) (out : List (Line F C))
    (hc : ns.cnt = 0) : draw_loop h fuel ns out = .ok out := by
  unfold draw_loop
  simp [hc]

theorem draw_loop_step (h : Heap F C) (fuel : Nat) (ns ns1 ns2 ns3 : DATreeNodes)
    (out : List (Line F C)) (cur : Ptr) (n : TreeNode F C) (hc : ns1.cnt + 1 = ns.cnt)
    (hpop : da_pop ns = .ok (cur, ns1)) (hd : deref h cur = .ok n)
    (hpl : push_child ns1 n.left = .ok ns2) (hpr : push_child ns2 n.right = .ok ns3) :
    draw_loop h (fuel + 1) ns out = draw_loop h fuel ns3 (out ++ [n.line]) := by
  rw [draw_loop]
  have : ns.cnt > 0 := by omega
  simp only [this, if_true, hpop, hd, hpl, hpr]

/-- Drawing a subtree that sits on top of `node_stack`: after `t.size`
iterations the subtree is gone from the stack and its lines were emitted in
`drawOrder`. -/
theorem draw_walk (h : Heap F C) (t : Tree F C) (ht : TreeAt h t) :
    ∀ (ns : DATreeNodes) (rest : List Ptr) (out : List (Line F C)), ns.WF →
      ns.items = (if t.isNil then [] else [t.ptr]) ++ rest →
      ∃ ns2, ns2.WF ∧ ns2.items = rest ∧
        ∀ fuel, draw_loop h (fuel + t.size) ns out
          = draw_loop h fuel ns2 (out ++ t.drawOrder.map Prod.snd) := by
  induction t with
  | nil =>
    intro ns rest out hns hi
    exact ⟨ns, hns, by simpa [Tree.isNil] using hi, by simp [Tree.size, Tree.drawOrder]⟩
  | node a ln l r ihl ihr =>
    intro ns rest out hns hi
    have hd := deref_of_TreeAt h a ln l r ht
    simp only [TreeAt] at ht
    simp only [Tree.isNil, Tree.ptr, Bool.false_eq_true, if_false, List.singleton_append] at hi
    obtain ⟨ns1, hpop, hns1, hi1, hc1⟩ := da_pop_spec ns (some a) rest hns hi
    obtain ⟨ns2, hpl, hns2, hi2⟩ := push_child_spec ns1 l hns1
    obtain ⟨ns3, hpr, hns3, hi3⟩ := push_child_spec ns2 r hns2
    rw [hi2, hi1] at hi3
    obtain ⟨ns4, hns4, hi4, hrun4⟩ := ihr ht.2.2 ns3 _ (out ++ [ln]) hns3 hi3
    obtain ⟨ns5, hns5, hi5, hrun5⟩ :=
      ihl ht.2.1 ns4 rest (out ++ [ln] ++ r.drawOrder.map Prod.snd) hns4 hi4
    refine ⟨ns5, hns5, hi5, ?_⟩
    intro fuel
    have : fuel + (Tree.node a ln l r).size = (fuel + l.size + r.size) + 1 := by
      simp [Tree.size]; omega
    rw [this, draw_loop_step h _ ns ns1 ns2 ns3 out (some a) _ hc1 hpop hd hpl hpr]
    rw [hrun4, hrun5]
    simp [Tree.drawOrder]

theorem drawOrder_perm (t : Tree F C) : t.drawOrder.Perm t.nodes := by
  induction t with
  | nil => exact List.Perm.refl _
  | node a ln l r ihl ihr =>
    simp only [Tree.drawOrder, Tree.nodes]
    exact List.Perm.cons _ ((List.perm_append_comm).trans (List.Perm.append ihl ihr))

theorem nodes_fst (t : Tree F C) : t.nodes.map Prod.fst = t.addrs := by
  induction t with
  | nil => rfl
  | node a ln l r ihl ihr => simp [Tree.nodes, Tree.addrs, ihl, ihr]

theorem nodes_length (t : Tree F C) : t.nodes.length = t.size := by
  induction t with
  | nil => rfl
  | node a ln l r ihl ihr => simp [Tree.nodes, Tree.size, ihl, ihr]; omega

/-- The whole of `draw_tree` on a tree in the heap. -/
theorem draw_tree_spec (h : Heap F C) (a : Nat) (t : Tree F C) (ht : IsTree h (some a) t) :
    ∀ fuel, t.size ≤ fuel → draw_tree fuel h (some a) = .ok (t.drawOrder.map Prod.snd) := by
  obtain ⟨hp, hta, _⟩ := ht
  have hnil : t.isNil = false := by
    cases t with
    | nil => simp [Tree.ptr] at hp
    | node _ _ _ _ => rfl
  obtain ⟨ns0, happ, hns0, hi0⟩ := da_append_spec (da_init 1) (some a) (da_init_WF 1)
  rw [da_init_items] at hi0
  obtain ⟨ns2, hns2, hi2, hrun⟩ :=
    draw_walk h t hta ns0 [] [] hns0 (by simp [hnil, hp, hi0])
  intro fuel hfuel
  have hc2 : ns2.cnt = 0 := by rw [← items_length ns2 hns2, hi2]; rfl
  have : fuel = (fuel - t.size) + t.size := by omega
  simp only [draw_tree, Option.isNone_some, Bool.false_eq_true, if_false, happ]
  rw [this, hrun, draw_loop_done h _ ns2 _ hc2]
  simp

/-- C10: `draw_tree` on a tree emits the line of every node exactly once:
the emitted sequence is the sequence of lines of a list of nodes that is a
permutation of the tree's nodes (whose addresses are pairwise distinct), so
its length is the number of nodes; on the one-node tree from `node_create`
exactly the trunk is emitted. -/
theorem draw_tree_each_node_once (h : Heap F C) (a : Nat) (t : Tree F C)
    (ht : IsTree h (some a) t) :
    (∃ (out : List (Line F C)) (visited : List (Nat × Line F C)),
      (∀ fuel, t.size ≤ fuel → draw_tree fuel h (some a) = .ok out) ∧
      out = visited.map Prod.snd ∧ visited.Perm t.nodes ∧
      (visited.map Prod.fst).Perm t.addrs ∧ (visited.map Prod.fst).Nodup ∧
      out.length = t.size) ∧
    ∀ (h0 : Heap F C) (trunk : Line F C) (fuel : Nat), 1 ≤ fuel →
      draw_tree fuel (node_create h0 trunk).1 (node_create h0 trunk).2 = .ok [trunk] := by
  constructor
  · have hperm := drawOrder_perm t
    have hfst : (t.drawOrder.map Prod.fst).Perm t.addrs := by
      rw [← nodes_fst]; exact hperm.map _
    exact ⟨_, t.drawOrder, draw_tree_spec h a t ht, rfl, hperm, hfst,
      hfst.nodup_iff.2 ht.2.2, by rw [List.length_map, hperm.length_eq, nodes_length]⟩
  · intro h0 trunk fuel hfuel
    have := draw_tree_spec _ _ _ (IsTree_node_create h0 trunk) fuel
      (by simpa [Tree.size] using hfuel)
    simpa [Tree.drawOrder] using this

/-! ## Geometry of the children over the reals -/

theorem rotate_normSq (x y k c s : ℝ) (hcs : c ^ 2 + s ^ 2 = 1) :
    (x * k * c - y * k * s) * (x * k * c - y * k * s)
      + (x * k * s + y * k * c) * (x * k * s + y * k * c) = k ^ 2 * (x * x + y * y) := by
  linear_combination (k ^ 2 * (x * x + y * y)) * hcs

theorem sqrt_scaled (k A : ℝ) : Real.sqrt (k ^ 2 * A) = |k| * Real.sqrt A := by
  rw [Real.sqrt_mul (sq_nonneg k), Real.sqrt_sq_eq_abs]

theorem left_line_vec {C : Type} (angle scale : ℝ) (ln : Line ℝ C) :
    (left_line (raymath ℝ Real.cos Real.sin) angle scale ln).vec
      = Vector2.mk (ln.vec.x * scale * Real.cos (-angle) - ln.vec.y * scale * Real.sin (-angle))
          (ln.vec.x * scale * Real.sin (-angle) + ln.vec.y * scale * Real.cos (-angle)) := by
  simp [left_line, raymath, Line.vec]

theorem right_line_vec {C : Type} (angle scale : ℝ) (ln : Line ℝ C) :
    (right_line (raymath ℝ Real.cos Real.sin) angle scale ln).vec
      = Vector2.mk (ln.vec.x * scale * Real.cos angle - ln.vec.y * scale * Real.sin angle)
          (ln.vec.x * scale * Real.sin angle + ln.vec.y * scale * Real.cos angle) := by
  simp [right_line, raymath, Line.vec]

theorem left_line_length {C : Type} (angle scale : ℝ) (ln : Line ℝ C) :
    Real.sqrt (left_line (raymath ℝ Real.cos Real.sin) angle scale ln).vec.normSq
      = Real.sqrt ln.vec.normSq * |scale| := by
  rw [left_line_vec]
  simp only [Vector2.normSq]
  rw [rotate_normSq _ _ _ _ _ (Real.cos_sq_add_sin_sq (-angle)), sqrt_scaled, mul_comm]

theorem right_line_length {C : Type} (angle scale : ℝ) (ln : Line ℝ C) :
    Real.sqrt (right_line (raymath ℝ Real.cos Real.sin) angle scale ln).vec.normSq
      = Real.sqrt ln.vec.normSq * |scale| := by
  rw [right_line_vec]
  simp only [Vector2.normSq]
  rw [rotate_normSq _ _ _ _ _ (Real.cos_sq_add_sin_sq angle), sqrt_scaled, mul_comm]

/-- C8: over the reals with the standard rotation, the two children of an
expanded leaf with vector `v = p1 - p0` start at the leaf's `p1`; for every
`scale >= 0` (the specification gives `scale` in `(0,1)`) both child vectors
have length `|v| * scale`; the left child's vector is `v` turned by `-angle`
and scaled, the right child's is `v` turned by `+angle` and scaled; and the two
are mirror images about the direction of `v` (same component along `v`,
opposite components across it). For an arbitrary `scale` the length is
`|v| * |scale|`. -/
theorem child_vectors_real {C : Type} (angle scale : ℝ) (h : Heap ℝ C) (a : Nat)
    (t : Tree ℝ C) (ht : IsTree h (some a) t) :
    ∃ h2, (∀ fuel, t.size ≤ fuel →
        generate_new_leaves (raymath ℝ Real.cos Real.sin) fuel h (some a) angle scale
          = .ok h2) ∧
      ∀ b ∈ t.addrs, ∀ nd, h[b]? = some (some nd) → nd.left = none → nd.right = none →
        ∃ l r nl nr, h2[b]? = some (some (TreeNode.mk (some l) (some r) nd.line)) ∧
          h2[l]? = some (some nl) ∧ h2[r]? = some (some nr) ∧
          nl.line.p0 = nd.line.p1 ∧ nr.line.p0 = nd.line.p1 ∧
          nl.line.vec = (raymath ℝ Real.cos Real.sin).Vector2Scale
            ((raymath ℝ Real.cos Real.sin).Vector2Rotate nd.line.vec (-angle)) scale ∧
          nr.line.vec = (raymath ℝ Real.cos Real.sin).Vector2Scale
            ((raymath ℝ Real.cos Real.sin).Vector2Rotate nd.line.vec angle) scale ∧
          Real.sqrt nl.line.vec.normSq = Real.sqrt nd.line.vec.normSq * |scale| ∧
          Real.sqrt nr.line.vec.normSq = Real.sqrt nd.line.vec.normSq * |scale| ∧
          (0 ≤ scale →
            Real.sqrt nl.line.vec.normSq = Real.sqrt nd.line.vec.normSq * scale ∧
            Real.sqrt nr.line.vec.normSq = Real.sqrt nd.line.vec.normSq * scale) ∧
          nl.line.vec.dot nd.line.vec = nr.line.vec.dot nd.line.vec ∧
          nl.line.vec.cross nd.line.vec = -(nr.line.vec.cross nd.line.vec) := by
  obtain ⟨h2, hrun, ht2, _, _⟩ :=
    generate_new_leaves_spec (raymath ℝ Real.cos Real.sin) angle scale h a t ht
  refine ⟨h2, hrun, ?_⟩
  intro b hb nd hnd hl hr
  obtain ⟨l, _, _, e1, e2, e3⟩ :=
    grow_leaf_children (raymath ℝ Real.cos Real.sin) angle scale h h2 t h.length ht.2.1
      ht2.2.1 b hb nd hnd hl hr
  have hL := left_line_length angle scale nd.line
  have hR := right_line_length angle scale nd.line
  refine ⟨l, l + 1, _, _, e1, e2, e3, rfl, rfl, ?_, ?_, hL, hR, ?_, ?_, ?_⟩
  · rw [left_line_vec]
    simp only [raymath, Vector2.mk.injEq]
    constructor <;> ring
  · rw [right_line_vec]
    simp only [raymath, Vector2.mk.injEq]
    constructor <;> ring
  · intro hs
    rw [hL, hR, abs_of_nonneg hs]
    exact ⟨rfl, rfl⟩
  · rw [left_line_vec, right_line_vec]
    simp only [Vector2.dot, Real.cos_neg, Real.sin_neg]
    ring
  · rw [left_line_vec, right_line_vec]
    simp only [Vector2.cross, Real.cos_neg, Real.sin_neg]
    ring

/-- Behaviour outside the documented range of `scale`: the code does not
validate it, and with trunk `(0,0) -> (1,0)`, angle `0` and scale `-1` the left
child has length `1 = |v| * |scale|`. -/
theorem child_length_scale_minus_one :
    ∃ (h2 : Heap ℝ Nat) (nl : TreeNode ℝ Nat),
      generate_new_leaves (raymath ℝ Real.cos Real.sin) 1
        [some (TreeNode.mk none none (Line.mk ⟨0, 0⟩ ⟨1, 0⟩ 0))] (some 0) 0 (-1) = .ok h2 ∧
      h2[0]? = some (some (TreeNode.mk (some 1) (some 2) (Line.mk ⟨0, 0⟩ ⟨1, 0⟩ 0))) ∧
      h2[1]? = some (some nl) ∧
      Real.sqrt nl.line.vec.normSq
        ≠ Real.sqrt (Line.mk ⟨0, 0⟩ ⟨1, 0⟩ 0 : Line ℝ Nat).vec.normSq * (-1) := by
  have ht : IsTree ([some (TreeNode.mk none none (Line.mk ⟨0, 0⟩ ⟨1, 0⟩ 0))] : Heap ℝ Nat)
      (some 0) (Tree.node 0 (Line.mk ⟨0, 0⟩ ⟨1, 0⟩ 0) .nil .nil) :=
    ⟨rfl, ⟨rfl, trivial, trivial⟩, by simp [Tree.addrs]⟩
  obtain ⟨h2, hrun, ht2, _, _⟩ :=
    generate_new_leaves_spec (raymath ℝ Real.cos Real.sin) 0 (-1) _ 0 _ ht
  obtain ⟨l, hge, hlt, e1, e2, _⟩ :=
    grow_leaf_children (raymath ℝ Real.cos Real.sin) 0 (-1) _ h2 _ 1 ht.2.1 ht2.2.1 0
      (by simp [Tree.addrs]) _ rfl rfl rfl
  simp only [Tree.leaves, Tree.isNil, and_self, if_true] at hlt
  have hl : l = 1 := by omega
  subst hl
  refine ⟨h2, _, hrun 1 (by simp [Tree.size]), e1, e2, ?_⟩
  simp only [left_line_length]
  have h1 : Real.sqrt (Line.mk ⟨0, 0⟩ ⟨1, 0⟩ 0 : Line ℝ Nat).vec.normSq = 1 := by
    simp [Line.vec, Vector2.normSq]
  rw [h1]
  norm_num

/-- Witness for C8: the scenario of `main`, trunk `(400,75) -> (400,150)`,
angle `pi/5`, scale `0.7`: one call gives two children starting at
`(400,150)`, each of length `52.5`. -/
theorem child_vectors_real_witness :
    IsTree ([some (TreeNode.mk none none (Line.mk ⟨400, 75⟩ ⟨400, 150⟩ 0))] : Heap ℝ Nat)
      (some 0) (Tree.node 0 (Line.mk ⟨400, 75⟩ ⟨400, 150⟩ 0) .nil .nil) ∧
    ∃ (h2 : Heap ℝ Nat) (l r : Nat) (nl nr : TreeNode ℝ Nat),
      generate_new_leaves (raymath ℝ Real.cos Real.sin) 1
        [some (TreeNode.mk none none (Line.mk ⟨400, 75⟩ ⟨400, 150⟩ 0))] (some 0)
        (Real.pi / 5) 0.7 = .ok h2 ∧
      h2[0]? = some (some (TreeNode.mk (some l) (some r) (Line.mk ⟨400, 75⟩ ⟨400, 150⟩ 0))) ∧
      h2[l]? = some (some nl) ∧ h2[r]? = some (some nr) ∧
      nl.line.p0 = ⟨400, 150⟩ ∧ nr.line.p0 = ⟨400, 150⟩ ∧
      Real.sqrt nl.line.vec.normSq = 52.5 ∧ Real.sqrt nr.line.vec.normSq = 52.5 := by
  have ht : IsTree ([some (TreeNode.mk none none (Line.mk ⟨400, 75⟩ ⟨400, 150⟩ 0))] :
      Heap ℝ Nat) (some 0) (Tree.node 0 (Line.mk ⟨400, 75⟩ ⟨400, 150⟩ 0) .nil .nil) :=
    ⟨rfl, ⟨rfl, trivial, trivial⟩, by simp [Tree.addrs]⟩
  refine ⟨ht, ?_⟩
  obtain ⟨h2, hrun, hch⟩ := child_vectors_real (Real.pi / 5) 0.7 _ 0 _ ht
  obtain ⟨l, r, nl, nr, e0, el, er, pl, pr, _, _, _, _, hlen, _, _⟩ :=
    hch 0 (by simp [Tree.addrs]) _ rfl rfl rfl
  have h75 : Real.sqrt (Line.mk ⟨400, 75⟩ ⟨400, 150⟩ 0 : Line ℝ Nat).vec.normSq = 75 := by
    have : (Line.mk ⟨400, 75⟩ ⟨400, 150⟩ 0 : Line ℝ Nat).vec.normSq = 75 ^ 2 := by
      simp [Line.vec, Vector2.normSq]; norm_num
    rw [this, Real.sqrt_sq (by norm_num)]
  obtain ⟨hl, hr⟩ := hlen (by norm_num)
  rw [h75] at hl hr
  exact ⟨h2, l, r, nl, nr, hrun 1 (by simp [Tree.size]), e0, el, er, pl, pr,
    by rw [hl]; norm_num, by rw [hr]; norm_num⟩

/-! ## Instances on concrete heaps -/

/-- Witness for C2 on `exHeap`, whose node 1 is childless. -/
theorem former_leaves_get_two_new_leaves_witness :
    IsTree exHeap (some 0) exTree ∧
    ∃ h2, (∀ fuel, exTree.size ≤ fuel →
        generate_new_leaves exRaymath fuel exHeap (some 0) 1 2 = .ok h2) ∧
      ∀ b ∈ exTree.addrs, ∀ nd, exHeap[b]? = some (some nd) → nd.left = none →
        nd.right = none →
        ∃ l r nd2 nl nr, h2[b]? = some (some nd2) ∧ nd2.left = some l ∧ nd2.right = some r ∧
          h2[l]? = some (some nl) ∧ nl.left = none ∧ nl.right = none ∧
          h2[r]? = some (some nr) ∧ nr.left = none ∧ nr.right = none ∧
          l ≠ r ∧ l ∉ exTree.addrs ∧ r ∉ exTree.addrs ∧ exHeap[l]? = none ∧
          exHeap[r]? = none :=
  ⟨⟨rfl, ⟨rfl, ⟨rfl, trivial, trivial⟩, trivial⟩, by decide⟩, former_leaves_get_two_new_leaves exRaymath 1 2 exHeap 0 exTree ⟨rfl, ⟨rfl, ⟨rfl, trivial, trivial⟩, trivial⟩, by decide⟩⟩

/-- Witness for C3 on `exHeap`, whose root has one child and is left alone. -/
theorem generate_new_leaves_frame_witness :
    IsTree exHeap (some 0) exTree ∧
    ∃ h2, (∀ fuel, exTree.size ≤ fuel →
        generate_new_leaves exRaymath fuel exHeap (some 0) 1 2 = .ok h2) ∧
      (∀ b nd, exHeap[b]? = some (some nd) →
        (b ∉ exTree.addrs ∨ nd.left ≠ none ∨ nd.right ≠ none) → h2[b]? = some (some nd)) ∧
      (∀ b ∈ exTree.addrs, ∀ nd, exHeap[b]? = some (some nd) →
        ∃ nd2, h2[b]? = some (some nd2) ∧ nd2.line = nd.line) ∧
      (∀ b ∈ exTree.addrs, ∀ nd, exHeap[b]? = some (some nd) → nd.left = none →
        nd.right = none →
        ∃ l r, h2[b]? = some (some (TreeNode.mk (some l) (some r) nd.line)) ∧
          exHeap.length ≤ l ∧ exHeap.length ≤ r) ∧
      h2.length = exHeap.length + 2 * exTree.leaves ∧
      (∀ c, exHeap.length ≤ c → c < h2.length →
        ∃ b ∈ exTree.addrs, ∃ ln nd2, exHeap[b]? = some (some (TreeNode.mk none none ln)) ∧
          h2[b]? = some (some nd2) ∧ (nd2.left = some c ∨ nd2.right = some c)) :=
  ⟨⟨rfl, ⟨rfl, ⟨rfl, trivial, trivial⟩, trivial⟩, by decide⟩, generate_new_leaves_frame exRaymath 1 2 exHeap 0 exTree ⟨rfl, ⟨rfl, ⟨rfl, trivial, trivial⟩, trivial⟩, by decide⟩⟩

/-- Witness for C4 on the strict three-node tree of `exStrictHeap`. -/
theorem strictness_invariant_witness :
    IsTree exStrictHeap (some 0) exStrictTree ∧ exStrictTree.Strict ∧
    (∃ h2 t2, (∀ fuel, exStrictTree.size ≤ fuel →
        generate_new_leaves exRaymath fuel exStrictHeap (some 0) 1 2 = .ok h2) ∧
      IsTree h2 (some 0) t2 ∧ t2.Strict) ∧
    ∀ (h0 : Heap Int Nat) (trunk : Line Int Nat) (N : Nat),
      ∃ hN tN, (∀ fuel, 2 ^ (N + 1) ≤ fuel →
          grow_times exRaymath fuel (node_create h0 trunk).2 1 2 N (node_create h0 trunk).1
            = .ok hN) ∧
        IsTree hN (node_create h0 trunk).2 tN ∧ tN.Strict :=
  ⟨⟨rfl, ⟨rfl, ⟨rfl, trivial, trivial⟩, ⟨rfl, trivial, trivial⟩⟩, by decide⟩, ⟨rfl, ⟨rfl, trivial, trivial⟩, ⟨rfl, trivial, trivial⟩⟩,
    strictness_invariant exRaymath 1 2 exStrictHeap 0 exStrictTree ⟨rfl, ⟨rfl, ⟨rfl, trivial, trivial⟩, ⟨rfl, trivial, trivial⟩⟩, by decide⟩
      ⟨rfl, ⟨rfl, trivial, trivial⟩, ⟨rfl, trivial, trivial⟩⟩⟩

/-- Witness for C6 on the non-strict tree of `exHeap`. -/
theorem generate_new_leaves_doubles_witness :
    IsTree exHeap (some 0) exTree ∧
    ∃ h2 t2, (∀ fuel, exTree.size ≤ fuel →
        generate_new_leaves exRaymath fuel exHeap (some 0) 1 2 = .ok h2) ∧
      IsTree h2 (some 0) t2 ∧ t2.leaves = 2 * exTree.leaves ∧
      t2.size = exTree.size + 2 * exTree.leaves :=
  ⟨⟨rfl, ⟨rfl, ⟨rfl, trivial, trivial⟩, trivial⟩, by decide⟩, generate_new_leaves_doubles exRaymath 1 2 exHeap 0 exTree ⟨rfl, ⟨rfl, ⟨rfl, trivial, trivial⟩, trivial⟩, by decide⟩⟩

/-- Witness for C7 on `exHeap`, angle one quarter turn, scale 2. -/
theorem child_segments_witness :
    IsTree exHeap (some 0) exTree ∧
    ∃ h2, (∀ fuel, exTree.size ≤ fuel →
        generate_new_leaves exRaymath fuel exHeap (some 0) 1 2 = .ok h2) ∧
      ∀ b ∈ exTree.addrs, ∀ nd, exHeap[b]? = some (some nd) → nd.left = none →
        nd.right = none →
        ∃ l r nl nr, h2[b]? = some (some (TreeNode.mk (some l) (some r) nd.line)) ∧
          h2[l]? = some (some nl) ∧ h2[r]? = some (some nr) ∧
          nl.line = Line.mk nd.line.p1
            (exRaymath.Vector2Add nd.line.p1
              (exRaymath.Vector2Rotate
                (exRaymath.Vector2Scale (exRaymath.Vector2Subtract nd.line.p1 nd.line.p0) 2)
                (exRaymath.neg 1)))
            nd.line.c ∧
          nr.line = Line.mk nd.line.p1
            (exRaymath.Vector2Add nd.line.p1
              (exRaymath.Vector2Rotate
                (exRaymath.Vector2Scale (exRaymath.Vector2Subtract nd.line.p1 nd.line.p0) 2)
                1))
            nd.line.c ∧
          nl.line.p0 = nd.line.p1 ∧ nr.line.p0 = nd.line.p1 :=
  ⟨⟨rfl, ⟨rfl, ⟨rfl, trivial, trivial⟩, trivial⟩, by decide⟩, child_segments exRaymath 1 2 exHeap 0 exTree ⟨rfl, ⟨rfl, ⟨rfl, trivial, trivial⟩, trivial⟩, by decide⟩⟩

/-- Witness for C10 on `exStrictHeap`. -/
theorem draw_tree_each_node_once_witness :
    IsTree exStrictHeap (some 0) exStrictTree ∧
    (∃ (out : List (Line Int Nat)) (visited : List (Nat × Line Int Nat)),
      (∀ fuel, exStrictTree.size ≤ fuel → draw_tree fuel exStrictHeap (some 0) = .ok out) ∧
      out = visited.map Prod.snd ∧ visited.Perm exStrictTree.nodes ∧
      (visited.map Prod.fst).Perm exStrictTree.addrs ∧ (visited.map Prod.fst).Nodup ∧
      out.length = exStrictTree.size) ∧
    ∀ (h0 : Heap Int Nat) (trunk : Line Int Nat) (fuel : Nat), 1 ≤ fuel →
      draw_tree fuel (node_create h0 trunk).1 (node_create h0 trunk).2 = .ok [trunk] :=
  ⟨⟨rfl, ⟨rfl, ⟨rfl, trivial, trivial⟩, ⟨rfl, trivial, trivial⟩⟩, by decide⟩, draw_tree_each_node_once exStrictHeap 0 exStrictTree ⟨rfl, ⟨rfl, ⟨rfl, trivial, trivial⟩, ⟨rfl, trivial, trivial⟩⟩, by decide⟩⟩

/-! ## Evaluation checks -/

/-- One call on `exHeap`: the one-child root is untouched, node 1 receives
the children 2 (turned by minus a quarter turn) and 3 (turned by plus a
quarter turn), both twice as long as their parent. -/
theorem generate_new_leaves_exHeap :
    generate_new_leaves exRaymath 2 exHeap (some 0) 1 2 = .ok
      [some (TreeNode.mk (some 1) none (Line.mk ⟨0, 0⟩ ⟨0, 4⟩ 7)),
       some (TreeNode.mk (some 2) (some 3) (Line.mk ⟨0, 4⟩ ⟨4, 4⟩ 7)),
       some (TreeNode.mk none none (Line.mk ⟨4, 4⟩ ⟨4, -4⟩ 7)),
       some (TreeNode.mk none none (Line.mk ⟨4, 4⟩ ⟨4, 12⟩ 7))] := by
  rfl

/-- With one unit of fuel too few the walk of a three-node tree stops. -/
theorem generate_new_leaves_short_fuel :
    generate_new_leaves exRaymath 2 exStrictHeap (some 0) 1 2 = .error .outOfFuel := by
  rfl

/-- The `NULL` root trips the assertion. -/
theorem generate_new_leaves_null :
    generate_new_leaves exRaymath 2 exHeap none 1 2 = .error .assertion := by
  rfl

/-- Drawing `exStrictHeap`: root, then the right child, then the left. -/
theorem draw_tree_exStrictHeap :
    draw_tree 3 exStrictHeap (some 0) = .ok
      [Line.mk ⟨0, 0⟩ ⟨0, 4⟩ 7, Line.mk ⟨0, 4⟩ ⟨-4, 4⟩ 7, Line.mk ⟨0, 4⟩ ⟨4, 4⟩ 7] := by
  rfl

/-! ## The destroy walk -/

theorem destroy_loop_done (h : Heap F C) (fuel : Nat) (ns : DATreeNodes) (freed : List Ptr)
    (hc : ns.cnt = 0) : destroy_loop fuel h ns freed = .ok (h, ns, freed) := by
  unfold destroy_loop
  simp [hc]

theorem destroy_loop_starved (h : Heap F C) (ns : DATreeNodes) (freed : List Ptr)
    (hc : 0 < ns.cnt) : destroy_loop 0 h ns freed = .error .outOfFuel := by
  unfold destroy_loop
  simp [hc]

theorem destroy_loop_step (h h1 : Heap F C) (fuel : Nat) (ns ns1 ns2 ns3 : DATreeNodes)
    (freed : List Ptr) (cur : Ptr) (n : TreeNode F C) (hc : ns1.cnt + 1 = ns.cnt)
    (hpop : da_pop ns = .ok (cur, ns1)) (hd : deref h cur = .ok n)
    (hpl : push_child ns1 n.left = .ok ns2) (hpr : push_child ns2 n.right = .ok ns3)
    (hfree : free h cur = .ok h1) :
    destroy_loop (fuel + 1) h ns freed = destroy_loop fuel h1 ns3 (freed ++ [cur]) := by
  rw [destroy_loop]
  have : ns.cnt > 0 := by omega
  simp only [this, if_true, hpop, hd, hpl, hpr, hfree]

/-- Destroying a subtree that sits on top of `node_stack`: after exactly
`t.size` iterations the subtree is gone from the stack, each of its cells is
dead, every other cell is as before, and its nodes were freed in
`drawOrder`. -/
theorem destroy_walk (t : Tree F C) :
    ∀ (h : Heap F C) (ns : DATreeNodes) (rest : List Ptr) (freed : List Ptr),
      TreeAt h t → t.addrs.Nodup → ns.WF →
      ns.items = (if t.isNil then [] else [t.ptr]) ++ rest →
      ∃ h2 ns2, ns2.WF ∧ ns2.items = rest ∧ h2.length = h.length ∧
        (∀ b ∈ t.addrs, h2[b]? = some none) ∧
        (∀ b, b ∉ t.addrs → h2[b]? = h[b]?) ∧
        (∀ fuel, destroy_loop (fuel + t.size) h ns freed
          = destroy_loop fuel h2 ns2 (freed ++ t.drawOrder.map (fun p => some p.1))) ∧
        (∀ fuel, fuel < t.size → destroy_loop fuel h ns freed = .error .outOfFuel) := by
  induction t with
  | nil =>
    intro h ns rest freed _ _ hns hi
    exact ⟨h, ns, hns, by simpa [Tree.isNil] using hi, rfl,
      by simp [Tree.addrs], fun _ _ => rfl, by simp [Tree.size, Tree.drawOrder],
      by simp [Tree.size]⟩
  | node a ln l r ihl ihr =>
    intro h ns rest freed ht hnd hns hi
    have hd := deref_of_TreeAt h a ln l r ht
    simp only [TreeAt] at ht
    simp only [Tree.isNil, Tree.ptr, Bool.false_eq_true, if_false, List.singleton_append] at hi
    simp only [Tree.addrs, List.nodup_cons, List.mem_append, not_or, List.nodup_append]
      at hnd
    obtain ⟨⟨hal, har⟩, hndl, hndr, hdisj⟩ := hnd
    obtain ⟨ns1, hpop, hns1, hi1, hc1⟩ := da_pop_spec ns (some a) rest hns hi
    obtain ⟨ns2, hpl, hns2, hi2⟩ := push_child_spec ns1 l hns1
    obtain ⟨ns3, hpr, hns3, hi3⟩ := push_child_spec ns2 r hns2
    rw [hi2, hi1] at hi3
    have hlta : a < h.length := by
      by_contra hge
      rw [List.getElem?_eq_none (by omega)] at ht
      exact Option.noConfusion ht.1
    have hfree : free h (some a) = .ok (h.set a none) := by
      simp [free, ht.1]
    have hset : ∀ b, b ≠ a → (h.set a none)[b]? = h[b]? := by
      intro b hb
      rw [get_set, if_neg (by omega)]
    have htr1 : TreeAt (h.set a none) r :=
      TreeAt_congr h _ r (fun b hb => hset b (fun e => har (e ▸ hb))) ht.2.2
    have htl1 : TreeAt (h.set a none) l :=
      TreeAt_congr h _ l (fun b hb => hset b (fun e => hal (e ▸ hb))) ht.2.1
    obtain ⟨h2, ns4, hns4, hi4, hlen2, hdead2, hfr2, hrun2, hshort2⟩ :=
      ihr (h.set a none) ns3 _ (freed ++ [some a]) htr1 hndr hns3 hi3
    have htl2 : TreeAt h2 l :=
      TreeAt_congr _ h2 l (fun b hb => hfr2 b (fun hbr => hdisj hb hbr)) htl1
    obtain ⟨h3, ns5, hns5, hi5, hlen3, hdead3, hfr3, hrun3, hshort3⟩ :=
      ihl h2 ns4 rest (freed ++ [some a] ++ r.drawOrder.map (fun p => some p.1))
        htl2 hndl hns4 hi4
    have hstep : ∀ fuel, destroy_loop (fuel + 1) h ns freed
        = destroy_loop fuel (h.set a none) ns3 (freed ++ [some a]) := fun fuel =>
      destroy_loop_step h _ fuel ns ns1 ns2 ns3 freed (some a) _ hc1 hpop hd hpl hpr hfree
    refine ⟨h3, ns5, hns5, hi5, ?_, ?_, ?_, ?_, ?_⟩
    · rw [hlen3, hlen2, List.length_set]
    · intro b hb
      simp only [Tree.addrs, List.mem_cons, List.mem_append] at hb
      rcases hb with rfl | hb | hb
      · rw [hfr3 b hal, hfr2 b har, get_set, if_pos ⟨rfl, hlta⟩]
      · exact hdead3 b hb
      · rw [hfr3 b (fun hbl => hdisj hbl hb)]
        exact hdead2 b hb
    · intro b hb
      simp only [Tree.addrs, List.mem_cons, List.mem_append, not_or] at hb
      rw [hfr3 b hb.2.1, hfr2 b hb.2.2, hset b hb.1]
    · intro fuel
      have : fuel + (Tree.node a ln l r).size = (fuel + l.size + r.size) + 1 := by
        simp [Tree.size]; omega
      rw [this, hstep, hrun2, hrun3]
      simp [Tree.drawOrder]
    · intro fuel hfuel
      simp only [Tree.size] at hfuel
      cases fuel with
      | zero => exact destroy_loop_starved h ns freed (by omega)
      | succ f =>
        rw [hstep]
        by_cases hf : f < r.size
        · exact hshort2 f hf
        · have : f = (f - r.size) + r.size := by omega
          rw [this, hrun2]
          exact hshort3 _ (by omega)

/-- The whole of `tree_destroy` on a tree in the heap. -/
theorem tree_destroy_spec (h : Heap F C) (a : Nat) (t : Tree F C) (ht : IsTree h (some a) t) :
    ∃ h2, h2.length = h.length ∧
      (∀ b ∈ t.addrs, h2[b]? = some none) ∧
      (∀ b, b ∉ t.addrs → h2[b]? = h[b]?) ∧
      (∀ fuel, t.size ≤ fuel →
        tree_destroy fuel h (some a) = .ok (h2, t.drawOrder.map (fun p => some p.1))) ∧
      (∀ fuel, fuel < t.size → tree_destroy fuel h (some a) = .error .outOfFuel) := by
  obtain ⟨hp, hta, hnd⟩ := ht
  have hnil : t.isNil = false := by
    cases t with
    | nil => simp [Tree.ptr] at hp
    | node _ _ _ _ => rfl
  obtain ⟨ns0, happ, hns0, hi0⟩ := da_append_spec (da_init 1) (some a) (da_init_WF 1)
  rw [da_init_items] at hi0
  obtain ⟨h2, ns2, hns2, hi2, hlen, hdead, hfr, hrun, hshort⟩ :=
    destroy_walk t h ns0 [] [] hta hnd hns0 (by simp [hnil, hp, hi0])
  have hc2 : ns2.cnt = 0 := by rw [← items_length ns2 hns2, hi2]; rfl
  refine ⟨h2, hlen, hdead, hfr, ?_, ?_⟩
  · intro fuel hfuel
    have : fuel = (fuel - t.size) + t.size := by omega
    simp only [tree_destroy, Option.isNone_some, Bool.false_eq_true, if_false, happ]
    rw [this, hrun, destroy_loop_done _ _ ns2 _ hc2]
    simp
  · intro fuel hfuel
    simp only [tree_destroy, Option.isNone_some, Bool.false_eq_true, if_false, happ]
    rw [hshort fuel hfuel]

/-! ## Exact iteration counts -/

theorem cnt_pos_of_items (ns : DATreeNodes) (hw : ns.WF) (x : Ptr) (rest : List Ptr)
    (hi : ns.items = x :: rest) : 0 < ns.cnt := by
  have := items_length ns hw
  rw [hi] at this
  simp only [List.length_cons] at this
  omega

theorem collect_loop_starved (h : Heap F C) (ns ls : DATreeNodes) (hc : 0 < ns.cnt) :
    collect_loop h 0 ns ls = .error .outOfFuel := by
  unfold collect_loop
  simp [hc]

theorem expand_loop_starved (rm : Raymath F) (angle scale : F) (h : Heap F C)
    (ls : DATreeNodes) (hc : 0 < ls.cnt) :
    expand_loop rm angle scale 0 h ls = .error .outOfFuel := by
  unfold expand_loop
  simp [hc]

theorem draw_loop_starved (h : Heap F C) (ns : DATreeNodes) (out : List (Line F C))
    (hc : 0 < ns.cnt) : draw_loop h 0 ns out = .error .outOfFuel := by
  unfold draw_loop
  simp [hc]

/-- With fewer than `t.size` iterations the collection loop does not get
through a subtree on top of `node_stack`. -/
theorem collect_short (h : Heap F C) (t : Tree F C) (ht : TreeAt h t) :
    ∀ (ns ls : DATreeNodes) (rest : List Ptr), ns.WF → ls.WF →
      ns.items = (if t.isNil then [] else [t.ptr]) ++ rest →
      ∀ fuel, fuel < t.size → collect_loop h fuel ns ls = .error .outOfFuel := by
  induction t with
  | nil => intro ns ls rest _ _ _ fuel hf; simp [Tree.size] at hf
  | node a ln l r ihl ihr =>
    intro ns ls rest hns hls hi fuel hf
    have hd := deref_of_TreeAt h a ln l r ht
    simp only [TreeAt] at ht
    simp only [Tree.isNil, Tree.ptr, Bool.false_eq_true, if_false, List.singleton_append] at hi
    have hpos := cnt_pos_of_items ns hns _ _ hi
    cases fuel with
    | zero => exact collect_loop_starved h ns ls hpos
    | succ f =>
      obtain ⟨ns1, hpop, hns1, hi1, hc1⟩ := da_pop_spec ns (some a) rest hns hi
      by_cases hleaf : l.isNil = true ∧ r.isNil = true
      · have hl := eq_nil_of_isNil l hleaf.1
        have hr := eq_nil_of_isNil r hleaf.2
        subst hl; subst hr
        simp [Tree.size] at hf
      · obtain ⟨ns2, hpl, hns2, hi2⟩ := push_child_spec ns1 l hns1
        obtain ⟨ns3, hpr, hns3, hi3⟩ := push_child_spec ns2 r hns2
        rw [hi2, hi1] at hi3
        rw [collect_loop_inner h f ns ns1 ns2 ns3 ls (some a) _ hc1 hpop hd
          (by simpa [isNil_iff_ptr] using hleaf) hpl hpr]
        simp only [Tree.size] at hf
        by_cases hfr : f < r.size
        · exact ihr ht.2.2 ns3 ls _ hns3 hls hi3 f hfr
        · obtain ⟨ns4, ls4, hns4, hls4, hi4, _, hrun4⟩ :=
            collect_tree h r ht.2.2 ns3 ls _ hns3 hls hi3
          have : f = (f - r.size) + r.size := by omega
          rw [this, hrun4]
          exact ihl ht.2.1 ns4 ls4 rest hns4 hls4 hi4 _ (by omega)

/-- With fewer than `t.size` iterations the draw loop does not get through
a subtree on top of `node_stack`. -/
theorem draw_short (h : Heap F C) (t : Tree F C) (ht : TreeAt h t) :
    ∀ (ns : DATreeNodes) (rest : List Ptr) (out : List (Line F C)), ns.WF →
      ns.items = (if t.isNil then [] else [t.ptr]) ++ rest →
      ∀ fuel, fuel < t.size → draw_loop h fuel ns out = .error .outOfFuel := by
  induction t with
  | nil => intro ns rest out _ _ fuel hf; simp [Tree.size] at hf
  | node a ln l r ihl ihr =>
    intro ns rest out hns hi fuel hf
    have hd := deref_of_TreeAt h a ln l r ht
    simp only [TreeAt] at ht
    simp only [Tree.isNil, Tree.ptr, Bool.false_eq_true, if_false, List.singleton_append] at hi
    have hpos := cnt_pos_of_items ns hns _ _ hi
    cases fuel with
    | zero => exact draw_loop_starved h ns out hpos
    | succ f =>
      obtain ⟨ns1, hpop, hns1, hi1, hc1⟩ := da_pop_spec ns (some a) rest hns hi
      obtain ⟨ns2, hpl, hns2, hi2⟩ := push_child_spec ns1 l hns1
      obtain ⟨ns3, hpr, hns3, hi3⟩ := push_child_spec ns2 r hns2
      rw [hi2, hi1] at hi3
      rw [draw_loop_step h f ns ns1 ns2 ns3 out (some a) _ hc1 hpop hd hpl hpr]
      simp only [Tree.size] at hf
      by_cases hfr : f < r.size
      · exact ihr ht.2.2 ns3 _ _ hns3 hi3 f hfr
      · obtain ⟨ns4, hns4, hi4, hrun4⟩ := draw_walk h r ht.2.2 ns3 _ (out ++ [ln]) hns3 hi3
        have : f = (f - r.size) + r.size := by omega
        rw [this, hrun4]
        exact ihl ht.2.1 ns4 rest _ hns4 hi4 _ (by omega)

/-- With fewer than `t.leaves` iterations the expansion loop does not get
through the leaves of a subtree on top of `leaf_stack`. -/
theorem expand_short (rm : Raymath F) (angle scale : F) (t : Tree F C) :
    ∀ (h : Heap F C) (ls : DATreeNodes) (rest : List Ptr), TreeAt h t → t.addrs.Nodup →
      ls.WF → ls.items = t.leafAddrs.map some ++ rest →
      ∀ fuel, fuel < t.leaves → expand_loop rm angle scale fuel h ls = .error .outOfFuel := by
  induction t with
  | nil => intro h ls rest _ _ _ _ fuel hf; simp [Tree.leaves] at hf
  | node a ln l r ihl ihr =>
    intro h ls rest ht hnd hls hi fuel hf
    by_cases hleaf : l.isNil = true ∧ r.isNil = true
    · have hl := eq_nil_of_isNil l hleaf.1
      have hr := eq_nil_of_isNil r hleaf.2
      subst hl; subst hr
      simp only [Tree.leafAddrs, Tree.isNil, and_self, if_true, List.map_cons, List.map_nil,
        List.singleton_append] at hi
      simp only [Tree.leaves, Tree.isNil, and_self, if_true] at hf
      have hf0 : fuel = 0 := by omega
      subst hf0
      exact expand_loop_starved rm angle scale h ls (cnt_pos_of_items ls hls _ _ hi)
    · simp only [Tree.leafAddrs, if_neg hleaf, List.map_append, List.append_assoc] at hi
      simp only [Tree.leaves, if_neg hleaf] at hf
      have ht' := ht
      simp only [TreeAt] at ht
      simp only [Tree.addrs, List.nodup_cons, List.mem_append, not_or, List.nodup_append]
        at hnd
      obtain ⟨_, hndl, hndr, hdisj⟩ := hnd
      by_cases hfl : fuel < l.leaves
      · exact ihl h ls _ ht.2.1 hndl hls hi fuel hfl
      · obtain ⟨h1, ls1, hls1, hi1, _, _, hfr1, hrun1⟩ :=
          expand_tree rm angle scale l h ls _ ht.2.1 hndl hls hi
        have hltr := TreeAt_lt h r ht.2.2
        have htr1 : TreeAt h1 r :=
          TreeAt_congr h h1 r (fun b hb => hfr1 b (hltr b hb)
            (fun hbl => hdisj (leafAddrs_subset l b hbl) hb)) ht.2.2
        have : fuel = (fuel - l.leaves) + l.leaves := by omega
        rw [this, hrun1]
        exact ihr h1 ls1 rest htr1 hndr hls1 hi1 _ (by omega)

theorem isNil_of_IsTree (h : Heap F C) (a : Nat) (t : Tree F C) (ht : IsTree h (some a) t) :
    t.isNil = false := by
  cases t with
  | nil => simp [IsTree, Tree.ptr] at ht
  | node _ _ _ _ => rfl

/-- The collection loop of `generate_new_leaves` on a tree: it needs exactly
`t.size` iterations, ends with an empty `node_stack` and with the leaves on
`leaf_stack`. -/
theorem collect_run (h : Heap F C) (a : Nat) (t : Tree F C) (ht : IsTree h (some a) t) :
    ∃ ns0 ns ls, da_append (da_init 1) (some a) = .ok ns0 ∧ ns.cnt = 0 ∧ ls.WF ∧
      ls.items = t.leafAddrs.map some ∧
      (∀ fuel, t.size ≤ fuel → collect_loop h fuel ns0 (da_init 1) = .ok (ns, ls)) ∧
      (∀ fuel, fuel < t.size → collect_loop h fuel ns0 (da_init 1) = .error .outOfFuel) := by
  have hnil := isNil_of_IsTree h a t ht
  obtain ⟨hp, hta, hnd⟩ := ht
  obtain ⟨ns0, happ, hns0, hi0⟩ := da_append_spec (da_init 1) (some a) (da_init_WF 1)
  rw [da_init_items] at hi0
  have hi0' : ns0.items = (if t.isNil then [] else [t.ptr]) ++ [] := by simp [hnil, hp, hi0]
  obtain ⟨ns2, ls2, hns2, hls2, hi2, hli2, hrun⟩ :=
    collect_tree h t hta ns0 (da_init 1) [] hns0 (da_init_WF 1) hi0'
  rw [da_init_items, List.append_nil] at hli2
  have hc2 : ns2.cnt = 0 := by rw [← items_length ns2 hns2, hi2]; rfl
  refine ⟨ns0, ns2, ls2, happ, hc2, hls2, hli2, ?_, ?_⟩
  · intro fuel hfuel
    have : fuel = (fuel - t.size) + t.size := by omega
    rw [this, hrun, collect_loop_done h _ ns2 ls2 hc2]
  · intro fuel hfuel
    exact collect_short h t hta ns0 (da_init 1) [] hns0 (da_init_WF 1) hi0' fuel hfuel

/-- The expansion loop of `generate_new_leaves` on the collected leaves: it
needs exactly `t.leaves` iterations and ends with an empty `leaf_stack`. -/
theorem expand_run (rm : Raymath F) (angle scale : F) (h : Heap F C) (a : Nat)
    (t : Tree F C) (ht : IsTree h (some a) t) (ls : DATreeNodes) (hls : ls.WF)
    (hi : ls.items = t.leafAddrs.map some) :
    ∃ h2 ls2, ls2.cnt = 0 ∧
      (∀ fuel, t.leaves ≤ fuel → expand_loop rm angle scale fuel h ls = .ok (h2, ls2)) ∧
      (∀ fuel, fuel < t.leaves →
        expand_loop rm angle scale fuel h ls = .error .outOfFuel) := by
  obtain ⟨hp, hta, hnd⟩ := ht
  obtain ⟨h2, ls2, hls2, hi2, _, _, _, hrun⟩ :=
    expand_tree rm angle scale t h ls [] hta hnd hls (by simp [hi])
  have hc2 : ls2.cnt = 0 := by rw [← items_length ls2 hls2, hi2]; rfl
  refine ⟨h2, ls2, hc2, ?_, ?_⟩
  · intro fuel hfuel
    have : fuel = (fuel - t.leaves) + t.leaves := by omega
    rw [this, hrun, expand_loop_done rm angle scale _ h2 ls2 hc2]
  · intro fuel hfuel
    exact expand_short rm angle scale t h ls [] hta hnd hls (by simp [hi]) fuel hfuel

/-- The loop of `draw_tree` on a tree: it needs exactly `t.size` iterations,
after which the stack is empty. -/
theorem draw_run (h : Heap F C) (a : Nat) (t : Tree F C) (ht : IsTree h (some a) t) :
    ∃ ns0 ns, da_append (da_init 1) (some a) = .ok ns0 ∧ ns.cnt = 0 ∧
      (∀ fuel, draw_loop h (fuel + t.size) ns0 []
        = draw_loop h fuel ns (t.drawOrder.map Prod.snd)) ∧
      (∀ fuel, t.size ≤ fuel → draw_loop h fuel ns0 [] = .ok (t.drawOrder.map Prod.snd)) ∧
      (∀ fuel, fuel < t.size → draw_loop h fuel ns0 [] = .error .outOfFuel) := by
  have hnil := isNil_of_IsTree h a t ht
  obtain ⟨hp, hta, hnd⟩ := ht
  obtain ⟨ns0, happ, hns0, hi0⟩ := da_append_spec (da_init 1) (some a) (da_init_WF 1)
  rw [da_init_items] at hi0
  have hi0' : ns0.items = (if t.isNil then [] else [t.ptr]) ++ [] := by simp [hnil, hp, hi0]
  obtain ⟨ns2, hns2, hi2, hrun⟩ := draw_walk h t hta ns0 [] [] hns0 hi0'
  have hc2 : ns2.cnt = 0 := by rw [← items_length ns2 hns2, hi2]; rfl
  simp only [List.nil_append] at hrun
  refine ⟨ns0, ns2, happ, hc2, hrun, ?_, ?_⟩
  · intro fuel hfuel
    have : fuel = (fuel - t.size) + t.size := by omega
    rw [this, hrun, draw_loop_done h _ ns2 _ hc2]
  · intro fuel hfuel
    exact draw_short h t hta ns0 [] [] hns0 hi0' fuel hfuel

/-- The loop of `tree_destroy` on a tree: it needs exactly `t.size`
iterations and ends with an empty stack. -/
theorem destroy_run (h : Heap F C) (a : Nat) (t : Tree F C) (ht : IsTree h (some a) t) :
    ∃ ns0 h2 ns, da_append (da_init 1) (some a) = .ok ns0 ∧ ns.cnt = 0 ∧
      (∀ fuel, t.size ≤ fuel → destroy_loop fuel h ns0 []
        = .ok (h2, ns, t.drawOrder.map (fun p => some p.1))) ∧
      (∀ fuel, fuel < t.size → destroy_loop fuel h ns0 [] = .error .outOfFuel) := by
  have hnil := isNil_of_IsTree h a t ht
  obtain ⟨hp, hta, hnd⟩ := ht
  obtain ⟨ns0, happ, hns0, hi0⟩ := da_append_spec (da_init 1) (some a) (da_init_WF 1)
  rw [da_init_items] at hi0
  obtain ⟨h2, ns2, hns2, hi2, _, _, _, hrun, hshort⟩ :=
    destroy_walk t h ns0 [] [] hta hnd hns0 (by simp [hnil, hp, hi0])
  have hc2 : ns2.cnt = 0 := by rw [← items_length ns2 hns2, hi2]; rfl
  refine ⟨ns0, h2, ns2, happ, hc2, ?_, hshort⟩
  intro fuel hfuel
  have : fuel = (fuel - t.size) + t.size := by omega
  rw [this, hrun, destroy_loop_done _ _ ns2 _ hc2]
  simp

/-- With less fuel than the tree has nodes, `generate_new_leaves` stops in
its collection loop. -/
theorem generate_new_leaves_short (rm : Raymath F) (angle scale : F) (h : Heap F C)
    (a : Nat) (t : Tree F C) (ht : IsTree h (some a) t) :
    ∀ fuel, fuel < t.size →
      generate_new_leaves rm fuel h (some a) angle scale = .error .outOfFuel := by
  obtain ⟨ns0, ns, ls, happ, _, _, _, _, hshort⟩ := collect_run h a t ht
  intro fuel hfuel
  simp [generate_new_leaves, happ, hshort fuel hfuel]

/-- With less fuel than the tree has nodes, `draw_tree` stops in its loop. -/
theorem draw_tree_short (h : Heap F C) (a : Nat) (t : Tree F C) (ht : IsTree h (some a) t) :
    ∀ fuel, fuel < t.size → draw_tree fuel h (some a) = .error .outOfFuel := by
  obtain ⟨ns0, ns, happ, _, _, _, hshort⟩ := draw_run h a t ht
  intro fuel hfuel
  simp [draw_tree, happ, hshort fuel hfuel]

/-! ## Laws of the pointer stack -/

theorem da_pop_ok (s s2 : DATreeNodes) (x : Ptr) (h : da_pop s = .ok (x, s2)) :
    ∃ k, s.cnt = k + 1 ∧ s.nodes[k]? = some x ∧ s2 = { s with cnt := k } := by
  unfold da_pop at h
  split at h
  · exact Except.noConfusion h
  · rename_i k hk
    split at h
    · rename_i p hp
      simp only [Except.ok.injEq, Prod.mk.injEq] at h
      exact ⟨k, hk, by rw [hp, h.1], h.2.symm⟩
    · exact Except.noConfusion h

theorem da_pop_WF (s s2 : DATreeNodes) (x : Ptr) (hw : s.WF) (h : da_pop s = .ok (x, s2)) :
    s2.WF := by
  obtain ⟨k, hk, _, rfl⟩ := da_pop_ok s s2 x h
  obtain ⟨h1, h2, h3⟩ := hw
  exact ⟨by simp only; omega, h2, h3⟩

theorem reachable_WF (s : DATreeNodes) (hs : Reachable s) : s.WF := by
  induction hs with
  | init cap => exact da_init_WF cap
  | append s s2 x _ happ ih =>
    obtain ⟨s3, e, w, _⟩ := da_append_spec s x ih
    rw [e] at happ
    simp only [Except.ok.injEq] at happ
    rw [← happ]; exact w
  | pop s s2 x _ _ hpop ih => exact da_pop_WF s s2 x ih hpop

theorem items_eq_take (s s2 : DATreeNodes) (hi : s2.items = s.items) (hc : s2.cnt = s.cnt) :
    ∀ i, i < s.cnt → s2.nodes[i]? = s.nodes[i]? := by
  intro i hlt
  have ht : s2.nodes.take s.cnt = s.nodes.take s.cnt := by
    have := congrArg List.reverse hi
    simpa [DATreeNodes.items, hc] using this
  have h1 : (s2.nodes.take s.cnt)[i]? = s2.nodes[i]? := List.getElem?_take_of_lt hlt
  have h2 : (s.nodes.take s.cnt)[i]? = s.nodes[i]? := List.getElem?_take_of_lt hlt
  rw [← h1, ← h2, ht]

/-- What `da_append` does to a well-formed stack, slot by slot. -/
theorem da_append_slots (s : DATreeNodes) (x : Ptr) (hw : s.WF) :
    ∃ s1, da_append s x = .ok s1 ∧ s1.WF ∧ s1.items = x :: s.items ∧
      s1.cnt = s.cnt + 1 ∧ s1.nodes[s.cnt]? = some x ∧
      (∀ i, i < s.cnt → s1.nodes[i]? = s.nodes[i]?) ∧
      (s.cnt ≠ s.cap → s1.cap = s.cap) ∧ (s.cnt = s.cap → s1.cap = 2 * s.cap) ∧
      s.cnt < s1.cap := by
  obtain ⟨s1, e, w, hi⟩ := da_append_spec s x hw
  have hcnt : s1.cnt = s.cnt + 1 := by
    have h1 := items_length s1 w
    have h2 := items_length s hw
    rw [hi] at h1
    simp only [List.length_cons] at h1
    omega
  obtain ⟨h1, h2, h3⟩ := hw
  have hcap : (s.cnt ≠ s.cap → s1.cap = s.cap) ∧ (s.cnt = s.cap → s1.cap = 2 * s.cap) := by
    unfold da_append at e
    by_cases hc : s.cnt = s.cap
    · simp only [hc, if_true] at e
      split at e
      · simp only [Except.ok.injEq] at e
        rw [← e]
        exact ⟨fun hne => absurd hc hne, fun _ => by simp only; omega⟩
      · exact Except.noConfusion e
    · simp only [hc, if_false] at e
      split at e
      · simp only [Except.ok.injEq] at e
        rw [← e]
        exact ⟨fun _ => rfl, fun he => absurd he hc⟩
      · exact Except.noConfusion e
  have hpop := da_pop_spec s1 x s.items w hi
  obtain ⟨s2, e2, _, hi2, hc2⟩ := hpop
  obtain ⟨k, hk, hx, rfl⟩ := da_pop_ok s1 _ x e2
  have hks : k = s.cnt := by omega
  subst hks
  refine ⟨s1, e, w, hi, hcnt, hx, ?_, hcap.1, hcap.2, ?_⟩
  · intro i hlt
    exact items_eq_take s { s1 with cnt := s.cnt } hi2 rfl i hlt
  · have := w.1
    omega

/-- C12: for every stack `s` built by `da_init` and any sequence of
`da_append` and `da_pop` on non-empty stacks, and every item `x`: `da_append`
succeeds, the following `da_pop` returns `x`, and the stack then has the same
count and the same items in the same slots as `s`; when `s` was full the
append doubled the capacity on the way. -/
theorem append_then_pop (s : DATreeNodes) (x : Ptr) (hs : Reachable s) :
    ∃ s1 s2, da_append s x = .ok s1 ∧ da_pop s1 = .ok (x, s2) ∧
      s2.cnt = s.cnt ∧ (∀ i, i < s.cnt → s2.nodes[i]? = s.nodes[i]?) ∧
      s2.items = s.items ∧ (s.cnt = s.cap → s1.cap = 2 * s.cap) := by
  have hw := reachable_WF s hs
  obtain ⟨s1, e, w, hi, hcnt, _, _, _, hgrow, _⟩ := da_append_slots s x hw
  obtain ⟨s2, e2, _, hi2, hc2⟩ := da_pop_spec s1 x s.items w hi
  have hc : s2.cnt = s.cnt := by omega
  exact ⟨s1, s2, e, e2, hc, items_eq_take s s2 hi2 hc, hi2, hgrow⟩

/-- C13: `da_init cap` has count 0 and capacity `max cap 1`; on a stack whose
buffer has `cap >= 1` slots with `cnt <= cap`, `da_append` raises the count by
one, stores the item in slot `cnt`, keeps the earlier slots, leaves the
capacity alone unless `cnt = cap` and then doubles it; `da_pop` on a non-empty
stack lowers the count by one and keeps the capacity; so `1 <= cap` and
`cnt <= cap` hold after `da_init`, are preserved by both operations, and hold
for every stack a program can build. -/
theorem stack_capacity_contract :
    (∀ cap, (da_init cap).cnt = 0 ∧ (da_init cap).cap = max cap 1 ∧ (da_init cap).WF) ∧
    (∀ s x, s.WF → ∃ s1, da_append s x = .ok s1 ∧
      s1.cnt = s.cnt + 1 ∧ s1.nodes[s.cnt]? = some x ∧
      (∀ i, i < s.cnt → s1.nodes[i]? = s.nodes[i]?) ∧
      (s.cnt ≠ s.cap → s1.cap = s.cap) ∧ (s.cnt = s.cap → s1.cap = 2 * s.cap) ∧
      s1.WF ∧ 1 ≤ s1.cap ∧ s1.cnt ≤ s1.cap) ∧
    (∀ s, s.WF → 0 < s.cnt → ∃ x s1, da_pop s = .ok (x, s1) ∧
      s1.cnt + 1 = s.cnt ∧ s1.cap = s.cap ∧ s1.WF ∧ 1 ≤ s1.cap ∧ s1.cnt ≤ s1.cap) ∧
    (∀ s, Reachable s → 1 ≤ s.cap ∧ s.cnt ≤ s.cap) := by
  refine ⟨?_, ?_, ?_, ?_⟩
  · intro cap
    exact ⟨rfl, by simp [da_init, MAX_eq_max], da_init_WF cap⟩
  · intro s x hw
    obtain ⟨s1, e, w, _, hcnt, hx, hkeep, h1, h2, _⟩ := da_append_slots s x hw
    exact ⟨s1, e, hcnt, hx, hkeep, h1, h2, w, w.2.2, w.1⟩
  · intro s hw hpos
    obtain ⟨x, rest, hi⟩ : ∃ x rest, s.items = x :: rest := by
      have hl := items_length s hw
      cases hitems : s.items with
      | nil => rw [hitems] at hl; simp at hl; omega
      | cons x rest => exact ⟨x, rest, rfl⟩
    obtain ⟨s1, e, w, _, hc⟩ := da_pop_spec s x rest hw hi
    obtain ⟨k, _, _, hs1⟩ := da_pop_ok s s1 x e
    exact ⟨x, s1, e, hc, by rw [hs1], w, w.2.2, w.1⟩
  · intro s hs
    have hw := reachable_WF s hs
    exact ⟨hw.2.2, hw.1⟩

/-! ## The assertion is the only source of `Fault.assertion` -/

theorem da_pop_error (s : DATreeNodes) (e : Fault) (h : da_pop s = .error e) :
    e = .outOfBounds := by
  unfold da_pop at h
  split at h
  · simp only [Except.error.injEq] at h; exact h.symm
  · split at h
    · exact Except.noConfusion h
    · simp only [Except.error.injEq] at h; exact h.symm

theorem da_append_error (s : DATreeNodes) (x : Ptr) (e : Fault)
    (h : da_append s x = .error e) : e = .outOfBounds := by
  unfold da_append at h
  dsimp only at h
  split at h <;> split at h
  all_goals first
    | exact Except.noConfusion h
    | (simp only [Except.error.injEq] at h; exact h.symm)

theorem push_child_error (s : DATreeNodes) (x : Ptr) (e : Fault)
    (h : push_child s x = .error e) : e = .outOfBounds := by
  unfold push_child at h
  split at h
  · exact da_append_error s x e h
  · exact Except.noConfusion h

theorem deref_error (h : Heap F C) (p : Ptr) (e : Fault) (he : deref h p = .error e) :
    e = .nullDeref ∨ e = .badPointer := by
  unfold deref at he
  split at he
  · simp only [Except.error.injEq] at he; exact Or.inl he.symm
  · split at he
    · exact Except.noConfusion he
    · simp only [Except.error.injEq] at he; exact Or.inr he.symm

theorem store_error (h : Heap F C) (p : Ptr) (n : TreeNode F C) (e : Fault)
    (he : store h p n = .error e) : e = .nullDeref ∨ e = .badPointer := by
  unfold store at he
  split at he
  · simp only [Except.error.injEq] at he; exact Or.inl he.symm
  · split at he
    · exact Except.noConfusion he
    · simp only [Except.error.injEq] at he; exact Or.inr he.symm

theorem free_error (h : Heap F C) (p : Ptr) (e : Fault) (he : free h p = .error e) :
    e = .badPointer := by
  unfold free at he
  split at he
  · exact Except.noConfusion he
  · split at he
    · exact Except.noConfusion he
    · simp only [Except.error.injEq] at he; exact he.symm

theorem expand_leaf_error (rm : Raymath F) (angle scale : F) (h : Heap F C) (p : Ptr)
    (e : Fault) (he : expand_leaf rm angle scale h p = .error e) :
    e = .nullDeref ∨ e = .badPointer := by
  unfold expand_leaf at he
  split at he
  · rename_i e1 h1
    simp only [Except.error.injEq] at he
    rw [← he]; exact deref_error _ _ _ h1
  · simp only [node_create] at he
    split at he
    · rename_i e1 h1
      simp only [Except.error.injEq] at he
      rw [← he]; exact deref_error _ _ _ h1
    · split at he
      · rename_i e1 h1
        simp only [Except.error.injEq] at he
        rw [← he]; exact store_error _ _ _ _ h1
      · split at he
        · rename_i e1 h1
          simp only [Except.error.injEq] at he
          rw [← he]; exact deref_error _ _ _ h1
        · exact store_error _ _ _ _ he

/-! ## The loops never fail an assertion -/

theorem collect_loop_error (h : Heap F C) :
    ∀ fuel ns ls e, collect_loop h fuel ns ls = .error e → e ≠ .assertion := by
  intro fuel
  induction fuel with
  | zero =>
    intro ns ls e he
    unfold collect_loop at he
    split at he
    · simp only [Except.error.injEq] at he
      rw [← he]; decide
    · exact Except.noConfusion he
  | succ f ih =>
    intro ns ls e he
    rw [collect_loop] at he
    repeat' split at he
    all_goals first
      | exact Except.noConfusion he
      | exact ih _ _ _ he
      | (simp only [Except.error.injEq] at he
         subst he
         rename_i hx
         first
          | (rw [da_pop_error _ _ hx]; decide)
          | (rw [da_append_error _ _ _ hx]; decide)
          | (rw [push_child_error _ _ _ hx]; decide)
          | (rcases deref_error _ _ _ hx with h1 | h1 <;> rw [h1] <;> decide))

theorem expand_loop_error (rm : Raymath F) (angle scale : F) :
    ∀ fuel (h : Heap F C) ls e,
      expand_loop rm angle scale fuel h ls = .error e → e ≠ .assertion := by
  intro fuel
  induction fuel with
  | zero =>
    intro h ls e he
    unfold expand_loop at he
    split at he
    · simp only [Except.error.injEq] at he
      rw [← he]; decide
    · exact Except.noConfusion he
  | succ f ih =>
    intro h ls e he
    rw [expand_loop] at he
    repeat' split at he
    all_goals first
      | exact Except.noConfusion he
      | exact ih _ _ _ he
      | (simp only [Except.error.injEq] at he
         subst he
         rename_i hx
         first
          | (rw [da_pop_error _ _ hx]; decide)
          | (rcases expand_leaf_error _ _ _ _ _ _ hx with h1 | h1 <;> rw [h1] <;> decide))

theorem draw_loop_error (h : Heap F C) :
    ∀ fuel ns out e, draw_loop h fuel ns out = .error e → e ≠ .assertion := by
  intro fuel
  induction fuel with
  | zero =>
    intro ns out e he
    unfold draw_loop at he
    split at he
    · simp only [Except.error.injEq] at he
      rw [← he]; decide
    · exact Except.noConfusion he
  | succ f ih =>
    intro ns out e he
    rw [draw_loop] at he
    repeat' split at he
    all_goals first
      | exact Except.noConfusion he
      | exact ih _ _ _ he
      | (simp only [Except.error.injEq] at he
         subst he
         rename_i hx
         first
          | (rw [da_pop_error _ _ hx]; decide)
          | (rw [push_child_error _ _ _ hx]; decide)
          | (rcases deref_error _ _ _ hx with h1 | h1 <;> rw [h1] <;> decide))

theorem destroy_loop_error :
    ∀ fuel (h : Heap F C) ns freed e,
      destroy_loop fuel h ns freed = .error e → e ≠ .assertion := by
  intro fuel
  induction fuel with
  | zero =>
    intro h ns freed e he
    unfold destroy_loop at he
    split at he
    · simp only [Except.error.injEq] at he
      rw [← he]; decide
    · exact Except.noConfusion he
  | succ f ih =>
    intro h ns freed e he
    rw [destroy_loop] at he
    repeat' split at he
    all_goals first
      | exact Except.noConfusion he
      | exact ih _ _ _ _ he
      | (simp only [Except.error.injEq] at he
         subst he
         rename_i hx
         first
          | (rw [da_pop_error _ _ hx]; decide)
          | (rw [push_child_error _ _ _ hx]; decide)
          | (rw [free_error _ _ _ hx]; decide)
          | (rcases deref_error _ _ _ hx with h1 | h1 <;> rw [h1] <;> decide))

theorem generate_new_leaves_error (rm : Raymath F) (fuel : Nat) (h : Heap F C) (a : Nat)
    (angle scale : F) (e : Fault)
    (he : generate_new_leaves rm fuel h (some a) angle scale = .error e) :
    e ≠ .assertion := by
  unfold generate_new_leaves at he
  simp only [Option.isNone_some, Bool.false_eq_true, if_false] at he
  split at he
  · rename_i e1 h1
    simp only [Except.error.injEq] at he
    rw [← he, da_append_error _ _ _ h1]; decide
  · split at he
    · rename_i e1 h1
      simp only [Except.error.injEq] at he
      rw [← he]; exact collect_loop_error h _ _ _ _ h1
    · split at he
      · rename_i e1 h1
        simp only [Except.error.injEq] at he
        rw [← he]; exact expand_loop_error rm angle scale _ _ _ _ h1
      · exact Except.noConfusion he

theorem draw_tree_error (fuel : Nat) (h : Heap F C) (a : Nat) (e : Fault)
    (he : draw_tree fuel h (some a) = .error e) : e ≠ .assertion := by
  unfold draw_tree at he
  simp only [Option.isNone_some, Bool.false_eq_true, if_false] at he
  split at he
  · rename_i e1 h1
    simp only [Except.error.injEq] at he
    rw [← he, da_append_error _ _ _ h1]; decide
  · exact draw_loop_error h _ _ _ _ he

theorem tree_destroy_error (fuel : Nat) (h : Heap F C) (a : Nat) (e : Fault)
    (he : tree_destroy fuel h (some a) = .error e) : e ≠ .assertion := by
  unfold tree_destroy at he
  simp only [Option.isNone_some, Bool.false_eq_true, if_false] at he
  split at he
  · rename_i e1 h1
    simp only [Except.error.injEq] at he
    rw [← he, da_append_error _ _ _ h1]; decide
  · split at he
    · rename_i e1 h1
      simp only [Except.error.injEq] at he
      rw [← he]; exact destroy_loop_error _ _ _ _ _ h1
    · exact Except.noConfusion he

/-! ## Depth -/

theorem grow_height (rm : Raymath F) (angle scale : F) (t : Tree F C) :
    ∀ n, t.isNil = false → (t.grow rm angle scale n).height = t.height + 1 := by
  induction t with
  | nil => intro n hn; simp [Tree.isNil] at hn
  | node a ln l r ihl ihr =>
    intro n _
    by_cases hleaf : l.isNil = true ∧ r.isNil = true
    · have hl := eq_nil_of_isNil l hleaf.1
      have hr := eq_nil_of_isNil r hleaf.2
      subst hl; subst hr
      simp [Tree.grow, Tree.height, Tree.isNil]
    · have h2 : ¬ ((l.grow rm angle scale n).isNil = true ∧
          (r.grow rm angle scale (n + 2 * l.leaves)).isNil = true) := by
        simpa [grow_isNil] using hleaf
      simp only [Tree.grow, Tree.height, if_neg hleaf, if_neg h2]
      cases hl : l.isNil with
      | true =>
        have hl' := eq_nil_of_isNil l hl
        subst hl'
        have hr : r.isNil = false := by
          cases hr : r.isNil with
          | true => exact absurd ⟨rfl, hr⟩ hleaf
          | false => rfl
        rw [ihr _ hr]
        simp [Tree.grow, Tree.height]
        omega
      | false =>
        cases hr : r.isNil with
        | true =>
          have hr' := eq_nil_of_isNil r hr
          subst hr'
          rw [ihl _ hl]
          simp [Tree.grow, Tree.height]
          omega
        | false =>
          rw [ihl _ hl, ihr _ hr]
          omega

theorem leafInfo_fst (t : Tree F C) : ∀ d, (t.leafInfo d).map Prod.fst = t.leafAddrs := by
  induction t with
  | nil => intro d; rfl
  | node a ln l r ihl ihr =>
    intro d
    simp only [Tree.leafInfo, Tree.leafAddrs]
    split
    · rfl
    · simp [ihl, ihr]

theorem leafInfo_snd (t : Tree F C) :
    ∀ d, (t.leafInfo d).map Prod.snd = t.leafDepths.map (fun k => k + d) := by
  induction t with
  | nil => intro d; rfl
  | node a ln l r ihl ihr =>
    intro d
    simp only [Tree.leafInfo, Tree.leafDepths]
    split
    · simp
    · simp only [List.map_append, ihl, ihr, List.map_map]
      congr 1 <;> apply List.map_congr_left <;> intro k _ <;> simp <;> omega

/-- Every leaf of the grown tree is a newly allocated cell, one edge below a
former leaf. -/
theorem grow_leafInfo (rm : Raymath F) (angle scale : F) (h2 : Heap F C) (t : Tree F C) :
    ∀ n d, TreeAt h2 (t.grow rm angle scale n) →
      ∀ p ∈ (t.grow rm angle scale n).leafInfo d,
        ∃ q ∈ t.leafInfo d, p.2 = q.2 + 1 ∧ n ≤ p.1 ∧ p.1 < n + 2 * t.leaves ∧
          ∃ nd2, h2[q.1]? = some (some nd2) ∧
            (nd2.left = some p.1 ∨ nd2.right = some p.1) := by
  induction t with
  | nil => intro n d _ p hp; simp [Tree.grow, Tree.leafInfo] at hp
  | node a ln l r ihl ihr =>
    intro n d ht2 p hp
    by_cases hleaf : l.isNil = true ∧ r.isNil = true
    · have hl := eq_nil_of_isNil l hleaf.1
      have hr := eq_nil_of_isNil r hleaf.2
      subst hl; subst hr
      simp only [Tree.grow, Tree.isNil, and_self, if_true, TreeAt, Tree.ptr, and_true] at ht2
      simp only [Tree.grow, Tree.isNil, and_self, if_true, Tree.leafInfo, Bool.false_eq_true,
        if_false, List.singleton_append, List.mem_cons, List.mem_singleton,
        List.not_mem_nil, or_false] at hp
      refine ⟨(a, d), by simp [Tree.leafInfo, Tree.isNil], ?_⟩
      rcases hp with rfl | rfl
      · exact ⟨rfl, Nat.le_refl n, by simp [Tree.leaves, Tree.isNil], _, ht2.1, Or.inl rfl⟩
      · exact ⟨rfl, by simp, by simp [Tree.leaves, Tree.isNil], _, ht2.1, Or.inr rfl⟩
    · have h2' : ¬ ((l.grow rm angle scale n).isNil = true ∧
          (r.grow rm angle scale (n + 2 * l.leaves)).isNil = true) := by
        simpa [grow_isNil] using hleaf
      simp only [Tree.grow, if_neg hleaf, TreeAt] at ht2
      simp only [Tree.grow, if_neg hleaf, Tree.leafInfo, if_neg h2', List.mem_append] at hp
      simp only [Tree.leafInfo, if_neg hleaf, List.mem_append, Tree.leaves]
      rcases hp with hp | hp
      · obtain ⟨q, hq, e1, e2, e3, rest⟩ := ihl n (d + 1) ht2.2.1 p hp
        exact ⟨q, Or.inl hq, e1, e2, by omega, rest⟩
      · obtain ⟨q, hq, e1, e2, e3, rest⟩ := ihr _ (d + 1) ht2.2.2 p hp
        exact ⟨q, Or.inr hq, e1, by omega, by omega, rest⟩

/-- C16: one call of `generate_new_leaves` on a tree makes every path to a
former leaf one edge longer: every leaf of the resulting tree is a newly
allocated node, a child of a node that was a leaf before the call and one edge
deeper than it; the leaf depths are the former ones plus one, each twice; and
the height of the tree grows by exactly one. -/
theorem depth_grows_by_one (rm : Raymath F) (angle scale : F) (h : Heap F C) (a : Nat)
    (t : Tree F C) (ht : IsTree h (some a) t) :
    ∃ h2 t2, (∀ fuel, t.size ≤ fuel →
        generate_new_leaves rm fuel h (some a) angle scale = .ok h2) ∧
      IsTree h2 (some a) t2 ∧
      (∀ p ∈ t2.leafInfo 0, ∃ q ∈ t.leafInfo 0, p.2 = q.2 + 1 ∧
        h.length ≤ p.1 ∧ h[p.1]? = none ∧
        ∃ nd2, h2[q.1]? = some (some nd2) ∧ (nd2.left = some p.1 ∨ nd2.right = some p.1)) ∧
      t2.leafDepths = t.leafDepths.flatMap (fun d => [d + 1, d + 1]) ∧
      t2.height = t.height + 1 := by
  have hnil := isNil_of_IsTree h a t ht
  obtain ⟨h2, hrun, ht2, _, _⟩ := generate_new_leaves_spec rm angle scale h a t ht
  refine ⟨h2, _, hrun, ht2, ?_, grow_leafDepths rm angle scale t _,
    grow_height rm angle scale t _ hnil⟩
  intro p hp
  obtain ⟨q, hq, e1, e2, _, rest⟩ := grow_leafInfo rm angle scale h2 t h.length 0 ht2.2.1 p hp
  exact ⟨q, hq, e1, e2, List.getElem?_eq_none e2, rest⟩

/-! ## Claims about the walks -/

theorem drawOrder_fst_perm (t : Tree F C) : (t.drawOrder.map Prod.fst).Perm t.addrs := by
  rw [← nodes_fst]
  exact (drawOrder_perm t).map _

/-- C11: on a tree, `tree_destroy` runs to completion without ever reading a
dead cell, and passes every node of the tree to `free` exactly once: the freed
pointers are a permutation of the tree's addresses, without repetition;
afterwards every cell of the tree is dead and every other cell is as before.
With less fuel than there are nodes the run stops for lack of fuel, not on a
fault. -/
theorem tree_destroy_frees_each_node_once (h : Heap F C) (a : Nat) (t : Tree F C)
    (ht : IsTree h (some a) t) :
    ∃ (h2 : Heap F C) (order : List Nat),
      (∀ fuel, t.size ≤ fuel → tree_destroy fuel h (some a) = .ok (h2, order.map some)) ∧
      (∀ fuel, fuel < t.size → tree_destroy fuel h (some a) = .error .outOfFuel) ∧
      order.Perm t.addrs ∧ order.Nodup ∧ order.length = t.size ∧
      h2.length = h.length ∧
      (∀ b ∈ t.addrs, h2[b]? = some none) ∧
      (∀ b, b ∉ t.addrs → h2[b]? = h[b]?) := by
  obtain ⟨h2, hlen, hdead, hfr, hrun, hshort⟩ := tree_destroy_spec h a t ht
  have hperm := drawOrder_fst_perm t
  refine ⟨h2, t.drawOrder.map Prod.fst, ?_, hshort, hperm, hperm.nodup_iff.2 ht.2.2, ?_,
    hlen, hdead, hfr⟩
  · intro fuel hfuel
    rw [hrun fuel hfuel, List.map_map]
    rfl
  · rw [hperm.length_eq, ← nodes_fst, List.length_map, nodes_length]

/-- C19: on a tree, `draw_tree` emits the lines in the order root, whole right
subtree, whole left subtree, applied recursively (`Tree.drawOrder`), and
`tree_destroy` frees the nodes in that same order. -/
theorem draw_and_destroy_order (h : Heap F C) (a : Nat) (t : Tree F C)
    (ht : IsTree h (some a) t) :
    (∀ fuel, t.size ≤ fuel → draw_tree fuel h (some a) = .ok (t.drawOrder.map Prod.snd)) ∧
    (∃ h2, ∀ fuel, t.size ≤ fuel →
      tree_destroy fuel h (some a) = .ok (h2, t.drawOrder.map (fun p => some p.1))) ∧
    (∀ (b : Nat) (ln : Line F C) (l r : Tree F C),
      (Tree.node b ln l r).drawOrder = (b, ln) :: (r.drawOrder ++ l.drawOrder)) ∧
    (Tree.nil : Tree F C).drawOrder = [] := by
  obtain ⟨h2, _, _, _, hrun, _⟩ := tree_destroy_spec h a t ht
  exact ⟨draw_tree_spec h a t ht, ⟨h2, hrun⟩, fun _ _ _ _ => rfl, rfl⟩

/-- C17: on a tree, each stack-based walk terminates: the collection loop of
`generate_new_leaves` runs for exactly `t.size` iterations (one pop each) and
ends with an empty `node_stack`; its expansion loop runs for exactly
`t.leaves` iterations and ends with an empty `leaf_stack`; the loops of
`draw_tree` and `tree_destroy` run for exactly `t.size` iterations and end with
an empty stack; so the three operations return. -/
theorem walks_terminate (rm : Raymath F) (angle scale : F) (h : Heap F C) (a : Nat)
    (t : Tree F C) (ht : IsTree h (some a) t) :
    (∃ ns0 ns ls h2 ls2, da_append (da_init 1) (some a) = .ok ns0 ∧
      ns.cnt = 0 ∧
      (∀ fuel, t.size ≤ fuel → collect_loop h fuel ns0 (da_init 1) = .ok (ns, ls)) ∧
      (∀ fuel, fuel < t.size → collect_loop h fuel ns0 (da_init 1) = .error .outOfFuel) ∧
      ls2.cnt = 0 ∧
      (∀ fuel, t.leaves ≤ fuel → expand_loop rm angle scale fuel h ls = .ok (h2, ls2)) ∧
      (∀ fuel, fuel < t.leaves →
        expand_loop rm angle scale fuel h ls = .error .outOfFuel) ∧
      (∀ fuel, t.size ≤ fuel →
        generate_new_leaves rm fuel h (some a) angle scale = .ok h2)) ∧
    (∃ ns0 ns out, da_append (da_init 1) (some a) = .ok ns0 ∧
      ns.cnt = 0 ∧
      (∀ fuel, draw_loop h (fuel + t.size) ns0 [] = draw_loop h fuel ns out) ∧
      (∀ fuel, t.size ≤ fuel → draw_loop h fuel ns0 [] = .ok out) ∧
      (∀ fuel, fuel < t.size → draw_loop h fuel ns0 [] = .error .outOfFuel) ∧
      (∀ fuel, t.size ≤ fuel → draw_tree fuel h (some a) = .ok out)) ∧
    (∃ ns0 h2 ns freed, da_append (da_init 1) (some a) = .ok ns0 ∧
      ns.cnt = 0 ∧
      (∀ fuel, t.size ≤ fuel → destroy_loop fuel h ns0 [] = .ok (h2, ns, freed)) ∧
      (∀ fuel, fuel < t.size → destroy_loop fuel h ns0 [] = .error .outOfFuel) ∧
      (∀ fuel, t.size ≤ fuel → tree_destroy fuel h (some a) = .ok (h2, freed))) := by
  refine ⟨?_, ?_, ?_⟩
  · obtain ⟨ns0, ns, ls, happ, hc, hls, hli, hrun, hshort⟩ := collect_run h a t ht
    obtain ⟨h2, ls2, hc2, hrun2, hshort2⟩ := expand_run rm angle scale h a t ht ls hls hli
    refine ⟨ns0, ns, ls, h2, ls2, happ, hc, hrun, hshort, hc2, hrun2, hshort2, ?_⟩
    intro fuel hfuel
    have := leaves_le_size t
    simp [generate_new_leaves, happ, hrun fuel hfuel, hrun2 fuel (by omega)]
  · obtain ⟨ns0, ns, happ, hc, hpeel, hrun, hshort⟩ := draw_run h a t ht
    exact ⟨ns0, ns, _, happ, hc, hpeel, hrun, hshort, draw_tree_spec h a t ht⟩
  · obtain ⟨ns0, h2, ns, happ, hc, hrun, hshort⟩ := destroy_run h a t ht
    refine ⟨ns0, h2, ns, _, happ, hc, hrun, hshort, ?_⟩
    intro fuel hfuel
    simp [tree_destroy, happ, hrun fuel hfuel]

/-- C20: on a tree, and with any amount of fuel, `generate_new_leaves`,
`draw_tree` and `tree_destroy` either return or run out of fuel: no `da_pop` on
an empty stack, no access outside a buffer and no use of a `NULL` or dead
pointer is ever reached. Every reference popped by `draw_tree` and freed by
`tree_destroy` is the address of a node of the tree, as is every reference on
the leaf stack of `generate_new_leaves`. On every stack a program can build,
`da_append` writes below the capacity it leaves behind and `da_pop` on a
non-empty stack reads below the capacity, while `da_pop` on an empty stack
always faults. -/
theorem stack_precondition_never_violated (rm : Raymath F) (angle scale : F)
    (h : Heap F C) (a : Nat) (t : Tree F C) (ht : IsTree h (some a) t) :
    (∀ fuel, generate_new_leaves rm fuel h (some a) angle scale = .error .outOfFuel ∨
      ∃ h2, generate_new_leaves rm fuel h (some a) angle scale = .ok h2) ∧
    (∀ fuel, draw_tree fuel h (some a) = .error .outOfFuel ∨
      ∃ out, draw_tree fuel h (some a) = .ok out) ∧
    (∀ fuel, tree_destroy fuel h (some a) = .error .outOfFuel ∨
      ∃ h2 freed, tree_destroy fuel h (some a) = .ok (h2, freed) ∧
        ∀ p ∈ freed, ∃ b ∈ t.addrs, p = some b) ∧
    (∃ ns0 ns ls, da_append (da_init 1) (some a) = .ok ns0 ∧
      (∀ fuel, t.size ≤ fuel → collect_loop h fuel ns0 (da_init 1) = .ok (ns, ls)) ∧
      ∀ p ∈ ls.items, ∃ b ∈ t.addrs, p = some b) ∧
    (∀ s : DATreeNodes, Reachable s →
      (∀ x, ∃ s1, da_append s x = .ok s1 ∧ s.cnt < s1.cap ∧ s1.nodes.length = s1.cap) ∧
      (0 < s.cnt → ∃ x s1, da_pop s = .ok (x, s1) ∧ s1.cnt < s.cap ∧
        s.nodes.length = s.cap)) ∧
    (∀ s : DATreeNodes, s.cnt = 0 → da_pop s = .error .outOfBounds) := by
  refine ⟨?_, ?_, ?_, ?_, ?_, ?_⟩
  · intro fuel
    by_cases hf : fuel < t.size
    · exact Or.inl (generate_new_leaves_short rm angle scale h a t ht fuel hf)
    · obtain ⟨h2, hrun, _⟩ := generate_new_leaves_spec rm angle scale h a t ht
      exact Or.inr ⟨h2, hrun fuel (by omega)⟩
  · intro fuel
    by_cases hf : fuel < t.size
    · exact Or.inl (draw_tree_short h a t ht fuel hf)
    · exact Or.inr ⟨_, draw_tree_spec h a t ht fuel (by omega)⟩
  · intro fuel
    obtain ⟨h2, _, _, _, hrun, hshort⟩ := tree_destroy_spec h a t ht
    by_cases hf : fuel < t.size
    · exact Or.inl (hshort fuel hf)
    · refine Or.inr ⟨h2, _, hrun fuel (by omega), ?_⟩
      intro p hp
      simp only [List.mem_map] at hp
      obtain ⟨q, hq, rfl⟩ := hp
      exact ⟨q.1, (drawOrder_fst_perm t).subset (List.mem_map_of_mem _ hq), rfl⟩
  · obtain ⟨ns0, ns, ls, happ, _, _, hli, hrun, _⟩ := collect_run h a t ht
    refine ⟨ns0, ns, ls, happ, hrun, ?_⟩
    intro p hp
    rw [hli, List.mem_map] at hp
    obtain ⟨b, hb, rfl⟩ := hp
    exact ⟨b, leafAddrs_subset t b hb, rfl⟩
  · intro s hs
    have hw := reachable_WF s hs
    constructor
    · intro x
      obtain ⟨s1, e, w, _, _, _, _, _, _, hlt⟩ := da_append_slots s x hw
      exact ⟨s1, e, hlt, w.2.1⟩
    · intro hpos
      obtain ⟨x, rest, hi⟩ : ∃ x rest, s.items = x :: rest := by
        have hl := items_length s hw
        cases hitems : s.items with
        | nil => rw [hitems] at hl; simp at hl; omega
        | cons x rest => exact ⟨x, rest, rfl⟩
      obtain ⟨s1, e, _, _, hc⟩ := da_pop_spec s x rest hw hi
      exact ⟨x, s1, e, by have := hw.1; omega, hw.2.1⟩
  · intro s hc
    simp [da_pop, hc]

/-! ## `da_pop` on an empty stack -/

/-- On every input on which the embedding's `da_pop` returns, the unchecked
execution returns the same. -/
theorem da_pop_unchecked_agrees (oob : Nat → Ptr) (s s2 : DATreeNodes) (x : Ptr)
    (hle : s.cnt ≤ SIZE_MAX) (h : da_pop s = .ok (x, s2)) :
    da_pop_unchecked oob s = (x, s2) := by
  obtain ⟨k, hk, hx, rfl⟩ := da_pop_ok s s2 x h
  have hmod : (s.cnt + SIZE_MAX) % (SIZE_MAX + 1) = k := by
    have : s.cnt + SIZE_MAX = k + (SIZE_MAX + 1) := by omega
    rw [this, Nat.add_mod_right, Nat.mod_eq_of_lt (by omega)]
  simp [da_pop_unchecked, hmod, hx]

/-- C14 (amended): `da_pop` makes no check. On an empty stack whose buffer has
fewer than `SIZE_MAX` slots the decrement wraps the count to `SIZE_MAX` and the
read lies outside the buffer: the embedding reports an out-of-bounds fault
(undefined behaviour in C), not an assertion failure, and an execution
without bounds check returns whatever the memory holds there together with a
stack whose count is `SIZE_MAX`, so that the call is neither a no-op nor a
signalled error. On inputs where `da_pop` returns, both agree. -/
theorem da_pop_empty_unchecked (s : DATreeNodes) (oob : Nat → Ptr) (hc : s.cnt = 0)
    (hlen : s.nodes.length ≤ SIZE_MAX) :
    da_pop s = .error .outOfBounds ∧ da_pop s ≠ .error .assertion ∧
    da_pop_unchecked oob s = (oob SIZE_MAX, { s with cnt := SIZE_MAX }) ∧
    (da_pop_unchecked oob s).2 ≠ s ∧
    ∀ (s3 s4 : DATreeNodes) (x : Ptr), s3.cnt ≤ SIZE_MAX → da_pop s3 = .ok (x, s4) →
      da_pop_unchecked oob s3 = (x, s4) := by
  have hmod : (s.cnt + SIZE_MAX) % (SIZE_MAX + 1) = SIZE_MAX := by
    rw [hc, Nat.zero_add, Nat.mod_eq_of_lt (by omega)]
  have hpop : da_pop s = .error .outOfBounds := by simp [da_pop, hc]
  have hun : da_pop_unchecked oob s = (oob SIZE_MAX, { s with cnt := SIZE_MAX }) := by
    simp [da_pop_unchecked, hmod, List.getElem?_eq_none hlen]
  have hne : da_pop s ≠ .error .assertion := by
    rw [hpop]
    intro he
    cases he
  refine ⟨hpop, hne, hun, ?_,
    fun s3 s4 x hle h => da_pop_unchecked_agrees oob s3 s4 x hle h⟩
  rw [hun]
  intro he
  have := congrArg DATreeNodes.cnt he
  simp [hc, SIZE_MAX] at this

/-! ## Refinement of the recursive definition -/

theorem shape_isNil (t : Tree F C) : t.shape = .nil ↔ t.isNil = true := by
  cases t <;> simp [Tree.shape, Tree.isNil]

theorem grow_shape (rm : Raymath F) (angle scale : F) (t : Tree F C) :
    ∀ n, (t.grow rm angle scale n).shape = growRec rm angle scale t.shape := by
  induction t with
  | nil => intro n; rfl
  | node a ln l r ihl ihr =>
    intro n
    cases l with
    | nil =>
      cases r with
      | nil => simp [Tree.grow, Tree.shape, growRec, Tree.isNil]
      | node b lb l2 r2 =>
        have := ihr (n + 2 * (Tree.nil : Tree F C).leaves)
        simp only [Tree.grow, Tree.isNil, Bool.false_eq_true, and_false, if_false, Tree.shape,
          growRec] at this ⊢
        rw [this]
    | node b lb l2 r2 =>
      have h1 := ihl n
      have h2 := ihr (n + 2 * (Tree.node b lb l2 r2).leaves)
      simp only [Tree.grow, Tree.isNil, Bool.false_eq_true, false_and, if_false, Tree.shape]
        at h1 h2 ⊢
      rw [h1, h2]
      cases r <;> simp [Tree.shape, growRec]

/-! ## Expanding the leaves in an arbitrary order -/

theorem growBy_ptr (rm : Raymath F) (angle scale : F) (f : Nat → Option Nat)
    (t : Tree F C) : (t.growBy rm angle scale f).ptr = t.ptr := by
  cases t with
  | nil => rfl
  | node a ln l r =>
    simp only [Tree.growBy]
    split
    · split <;> rfl
    · rfl

theorem growBy_congr (rm : Raymath F) (angle scale : F) (f g : Nat → Option Nat)
    (t : Tree F C) (hfg : ∀ b ∈ t.addrs, g b = f b) :
    t.growBy rm angle scale g = t.growBy rm angle scale f := by
  induction t with
  | nil => rfl
  | node a ln l r ihl ihr =>
    simp only [Tree.addrs, List.mem_cons, List.mem_append] at hfg
    simp only [Tree.growBy]
    rw [hfg a (Or.inl rfl), ihl (fun b hb => hfg b (Or.inr (Or.inl hb))),
      ihr (fun b hb => hfg b (Or.inr (Or.inr hb)))]

theorem growBy_addrs (rm : Raymath F) (angle scale : F) (f : Nat → Option Nat)
    (t : Tree F C) :
    ∀ b ∈ (t.growBy rm angle scale f).addrs,
      b ∈ t.addrs ∨ ∃ x ∈ t.leafAddrs, ∃ c, f x = some c ∧ (b = c ∨ b = c + 1) := by
  induction t with
  | nil => intro b hb; simp [Tree.growBy, Tree.addrs] at hb
  | node a ln l r ihl ihr =>
    intro b hb
    by_cases hleaf : l.isNil = true ∧ r.isNil = true
    · have hl := eq_nil_of_isNil l hleaf.1
      have hr := eq_nil_of_isNil r hleaf.2
      subst hl; subst hr
      simp only [Tree.growBy, Tree.isNil, and_self, if_true] at hb
      cases hfa : f a with
      | none =>
        rw [hfa] at hb
        exact Or.inl hb
      | some c =>
        rw [hfa] at hb
        simp only [Tree.addrs, List.mem_cons, List.append_nil, List.not_mem_nil, or_false,
          List.mem_append] at hb
        rcases hb with rfl | rfl | rfl
        · exact Or.inl (by simp [Tree.addrs])
        · exact Or.inr ⟨a, by simp [Tree.leafAddrs, Tree.isNil], b, hfa, Or.inl rfl⟩
        · exact Or.inr ⟨a, by simp [Tree.leafAddrs, Tree.isNil], c, hfa, Or.inr rfl⟩
    · simp only [Tree.growBy, if_neg hleaf, Tree.addrs, List.mem_cons, List.mem_append] at hb
      simp only [Tree.addrs, List.mem_cons, List.mem_append, Tree.leafAddrs, if_neg hleaf]
      rcases hb with rfl | hb | hb
      · exact Or.inl (Or.inl rfl)
      · rcases ihl b hb with h1 | ⟨x, hx, rest⟩
        · exact Or.inl (Or.inr (Or.inl h1))
        · exact Or.inr ⟨x, Or.inl hx, rest⟩
      · rcases ihr b hb with h1 | ⟨x, hx, rest⟩
        · exact Or.inl (Or.inr (Or.inr h1))
        · exact Or.inr ⟨x, Or.inr hx, rest⟩

theorem growBy_leaf_cell (rm : Raymath F) (angle scale : F) (f : Nat → Option Nat)
    (h : Heap F C) (a : Nat) (t : Tree F C) (ht : TreeAt h (t.growBy rm angle scale f))
    (ha : a ∈ t.leafAddrs) (hfa : f a = none) :
    ∃ ln, h[a]? = some (some (TreeNode.mk none none ln)) := by
  induction t with
  | nil => simp [Tree.leafAddrs] at ha
  | node x ln l r ihl ihr =>
    by_cases hleaf : l.isNil = true ∧ r.isNil = true
    · have hl := eq_nil_of_isNil l hleaf.1
      have hr := eq_nil_of_isNil r hleaf.2
      subst hl; subst hr
      simp only [Tree.leafAddrs, Tree.isNil, and_self, if_true, List.mem_singleton] at ha
      subst ha
      simp only [Tree.growBy, Tree.isNil, and_self, if_true, hfa, TreeAt, Tree.ptr, and_true]
        at ht
      exact ⟨ln, ht⟩
    · simp only [Tree.growBy, if_neg hleaf, TreeAt] at ht
      simp only [Tree.leafAddrs, if_neg hleaf, List.mem_append] at ha
      rcases ha with ha | ha
      · exact ihl ht.2.1 ha
      · exact ihr ht.2.2 ha

/-- Frame lemma for one expansion: a subtree that does not contain the
expanded leaf `a` is still laid out in the new heap. -/
theorem growBy_frame (rm : Raymath F) (angle scale : F) (f : Nat → Option Nat)
    (h h2 : Heap F C) (a n0 : Nat) (hf : ∀ b c, f b = some c → n0 ≤ c) (han0 : a < n0)
    (hfr : ∀ b, b < h.length → b ≠ a → h2[b]? = h[b]?) (t : Tree F C)
    (ht : TreeAt h (t.growBy rm angle scale f)) (hat : a ∉ t.addrs) :
    TreeAt h2 (t.growBy rm angle scale (fun b => if b = a then some h.length else f b)) := by
  have hcongr : t.growBy rm angle scale (fun b => if b = a then some h.length else f b)
      = t.growBy rm angle scale f := by
    apply growBy_congr
    intro b hb
    have : b ≠ a := fun e => hat (e ▸ hb)
    simp [this]
  rw [hcongr]
  refine TreeAt_congr h h2 _ (fun b hb => hfr b (TreeAt_lt h _ ht b hb) ?_) ht
  rcases growBy_addrs rm angle scale f t b hb with h1 | ⟨x, _, c, hc, hbc⟩
  · exact fun e => hat (e ▸ h1)
  · have := hf x c hc
    rcases hbc with rfl | rfl <;> omega

/-- One expansion step on the tree: if the heap holds the tree with the
leaves chosen by `f` expanded, then after expanding the leaf `a` it holds the
tree with `a` expanded as well. -/
theorem growBy_step (rm : Raymath F) (angle scale : F) (f : Nat → Option Nat)
    (h h2 : Heap F C) (a n0 : Nat) (nd : TreeNode F C)
    (hf : ∀ b c, f b = some c → n0 ≤ c) (han0 : a < n0) (hfa : f a = none)
    (hnd : h[a]? = some (some nd))
    (ha2 : h2[a]? = some (some (TreeNode.mk (some h.length) (some (h.length + 1)) nd.line)))
    (hl2 : h2[h.length]?
      = some (some (TreeNode.mk none none (left_line rm angle scale nd.line))))
    (hr2 : h2[h.length + 1]?
      = some (some (TreeNode.mk none none (right_line rm angle scale nd.line))))
    (hfr : ∀ b, b < h.length → b ≠ a → h2[b]? = h[b]?) (t : Tree F C) :
    TreeAt h (t.growBy rm angle scale f) → t.addrs.Nodup → a ∈ t.leafAddrs →
      TreeAt h2
        (t.growBy rm angle scale (fun b => if b = a then some h.length else f b)) := by
  induction t with
  | nil => intro _ _ ha; simp [Tree.leafAddrs] at ha
  | node x ln l r ihl ihr =>
    intro ht hnd' ha
    by_cases hleaf : l.isNil = true ∧ r.isNil = true
    · have hl := eq_nil_of_isNil l hleaf.1
      have hr := eq_nil_of_isNil r hleaf.2
      subst hl; subst hr
      simp only [Tree.leafAddrs, Tree.isNil, and_self, if_true, List.mem_singleton] at ha
      subst ha
      simp only [Tree.growBy, Tree.isNil, and_self, if_true, hfa, TreeAt, Tree.ptr, and_true]
        at ht
      have he := hnd.symm.trans ht
      simp only [Option.some.injEq] at he
      subst he
      simp only [Tree.growBy, Tree.isNil, and_self, if_true, TreeAt, Tree.ptr, and_true]
      exact ⟨ha2, hl2, hr2⟩
    · simp only [Tree.growBy, if_neg hleaf, TreeAt, growBy_ptr] at ht ⊢
      simp only [Tree.leafAddrs, if_neg hleaf, List.mem_append] at ha
      simp only [Tree.addrs, List.nodup_cons, List.mem_append, not_or, List.nodup_append]
        at hnd'
      obtain ⟨⟨hxl, hxr⟩, hndl, hndr, hdisj⟩ := hnd'
      have hxlt : x < h.length := by
        by_contra hge
        rw [List.getElem?_eq_none (by omega)] at ht
        exact Option.noConfusion ht.1
      rcases ha with ha | ha
      · have hal := leafAddrs_subset l a ha
        have hxa : x ≠ a := fun e => hxl (e ▸ hal)
        refine ⟨by rw [hfr x hxlt hxa]; exact ht.1, ihl ht.2.1 hndl ha, ?_⟩
        exact growBy_frame rm angle scale f h h2 a n0 hf han0 hfr r ht.2.2
          (fun har => hdisj hal har)
      · have har := leafAddrs_subset r a ha
        have hxa : x ≠ a := fun e => hxr (e ▸ har)
        refine ⟨by rw [hfr x hxlt hxa]; exact ht.1, ?_, ihr ht.2.2 hndr ha⟩
        exact growBy_frame rm angle scale f h h2 a n0 hf han0 hfr l ht.2.1
          (fun hal => hdisj hal har)

theorem growBy_nodup (rm : Raymath F) (angle scale : F) (f : Nat → Option Nat) (n0 : Nat)
    (hf : ∀ b c, f b = some c → n0 ≤ c)
    (hsp : ∀ b b2 c c2, f b = some c → f b2 = some c2 → b ≠ b2 → c + 1 < c2 ∨ c2 + 1 < c)
    (t : Tree F C) :
    t.addrs.Nodup → (∀ b ∈ t.addrs, b < n0) → (t.growBy rm angle scale f).addrs.Nodup := by
  induction t with
  | nil => intro _ _; simp [Tree.growBy, Tree.addrs]
  | node a ln l r ihl ihr =>
    intro hnd hlt
    simp only [Tree.addrs, List.nodup_cons, List.mem_append, not_or, List.nodup_append]
      at hnd
    obtain ⟨⟨hal, har⟩, hndl, hndr, hdisj⟩ := hnd
    simp only [Tree.addrs, List.mem_cons, List.mem_append] at hlt
    have hltl : ∀ b ∈ l.addrs, b < n0 := fun b hb => hlt b (Or.inr (Or.inl hb))
    have hltr : ∀ b ∈ r.addrs, b < n0 := fun b hb => hlt b (Or.inr (Or.inr hb))
    have han : a < n0 := hlt a (Or.inl rfl)
    by_cases hleaf : l.isNil = true ∧ r.isNil = true
    · have hl := eq_nil_of_isNil l hleaf.1
      have hr := eq_nil_of_isNil r hleaf.2
      subst hl; subst hr
      simp only [Tree.growBy, Tree.isNil, and_self, if_true]
      cases hfa : f a with
      | none => simp [Tree.addrs]
      | some c =>
        have := hf a c hfa
        simp [Tree.addrs]
        omega
    · simp only [Tree.growBy, if_neg hleaf, Tree.addrs, List.nodup_cons, List.mem_append,
        not_or, List.nodup_append]
      refine ⟨⟨?_, ?_⟩, ihl hndl hltl, ihr hndr hltr, ?_⟩
      · intro hx
        rcases growBy_addrs rm angle scale f l a hx with h1 | ⟨x, _, c, hc, hbc⟩
        · exact hal h1
        · have := hf x c hc
          rcases hbc with rfl | rfl <;> omega
      · intro hx
        rcases growBy_addrs rm angle scale f r a hx with h1 | ⟨x, _, c, hc, hbc⟩
        · exact har h1
        · have := hf x c hc
          rcases hbc with rfl | rfl <;> omega
      · intro y hyl hyr
        rcases growBy_addrs rm angle scale f l y hyl with h1 | ⟨x, hx, c, hc, hbc⟩ <;>
          rcases growBy_addrs rm angle scale f r y hyr with h2 | ⟨x2, hx2, c2, hc2, hbc2⟩
        · exact hdisj h1 h2
        · have := hltl y h1
          have := hf x2 c2 hc2
          rcases hbc2 with rfl | rfl <;> omega
        · have := hltr y h2
          have := hf x c hc
          rcases hbc with rfl | rfl <;> omega
        · have hne : x ≠ x2 := fun e =>
            hdisj (leafAddrs_subset l x hx) (e ▸ leafAddrs_subset r x2 hx2)
          have := hsp x x2 c c2 hc hc2 hne
          rcases hbc with rfl | rfl <;> rcases hbc2 with h3 | h3 <;> omega

theorem growBy_shape (rm : Raymath F) (angle scale : F) (f : Nat → Option Nat)
    (t : Tree F C) (hall : ∀ b ∈ t.leafAddrs, (f b).isSome) :
    (t.growBy rm angle scale f).shape = growRec rm angle scale t.shape := by
  induction t with
  | nil => rfl
  | node a ln l r ihl ihr =>
    by_cases hleaf : l.isNil = true ∧ r.isNil = true
    · have hl := eq_nil_of_isNil l hleaf.1
      have hr := eq_nil_of_isNil r hleaf.2
      subst hl; subst hr
      have hfa := hall a (by simp [Tree.leafAddrs, Tree.isNil])
      obtain ⟨c, hc⟩ := Option.isSome_iff_exists.1 hfa
      simp [Tree.growBy, Tree.isNil, hc, Tree.shape, growRec]
    · simp only [Tree.leafAddrs, if_neg hleaf, List.mem_append] at hall
      simp only [Tree.growBy, if_neg hleaf, Tree.shape,
        ihl (fun b hb => hall b (Or.inl hb)), ihr (fun b hb => hall b (Or.inr hb))]
      cases l with
      | nil =>
        cases r with
        | nil => simp [Tree.isNil] at hleaf
        | node _ _ _ _ => simp [Tree.shape, growRec]
      | node _ _ _ _ => cases r <;> simp [Tree.shape, growRec]

theorem growBy_none (rm : Raymath F) (angle scale : F) (t : Tree F C) :
    t.growBy rm angle scale (fun _ => none) = t := by
  induction t with
  | nil => rfl
  | node a ln l r ihl ihr =>
    by_cases hleaf : l.isNil = true ∧ r.isNil = true
    · have hl := eq_nil_of_isNil l hleaf.1
      have hr := eq_nil_of_isNil r hleaf.2
      subst hl; subst hr
      simp [Tree.growBy, Tree.isNil]
    · simp only [Tree.growBy, if_neg hleaf, ihl, ihr]

theorem leafAddrs_sublist (t : Tree F C) : t.leafAddrs.Sublist t.addrs := by
  induction t with
  | nil => exact List.Sublist.refl _
  | node a ln l r ihl ihr =>
    simp only [Tree.leafAddrs, Tree.addrs]
    split
    · exact List.Sublist.cons₂ _ (List.nil_sublist _)
    · exact List.Sublist.cons _ (List.Sublist.append ihl ihr)

/-- The expansion loop on a stack holding distinct, not yet expanded leaves
of the tree in any order: it expands them all. -/
theorem expand_list (rm : Raymath F) (angle scale : F) (t : Tree F C) (n0 : Nat)
    (hndt : t.addrs.Nodup) (hlt : ∀ b ∈ t.addrs, b < n0) :
    ∀ (as : List Nat) (f : Nat → Option Nat) (h : Heap F C) (ls : DATreeNodes),
      ls.WF → ls.items = as.map some → as.Nodup →
      (∀ b ∈ as, b ∈ t.leafAddrs ∧ f b = none) →
      (∀ b c, f b = some c → n0 ≤ c ∧ c + 1 < h.length) →
      (∀ b b2 c c2, f b = some c → f b2 = some c2 → b ≠ b2 → c + 1 < c2 ∨ c2 + 1 < c) →
      n0 ≤ h.length → TreeAt h (t.growBy rm angle scale f) →
      ∃ h2 ls2 f2, ls2.WF ∧ ls2.items = [] ∧ TreeAt h2 (t.growBy rm angle scale f2) ∧
        (∀ b c, f2 b = some c → n0 ≤ c) ∧
        (∀ b b2 c c2, f2 b = some c → f2 b2 = some c2 → b ≠ b2 →
          c + 1 < c2 ∨ c2 + 1 < c) ∧
        (∀ b, (f b).isSome ∨ b ∈ as → (f2 b).isSome) ∧
        ∀ fuel, expand_loop rm angle scale (fuel + as.length) h ls
          = expand_loop rm angle scale fuel h2 ls2 := by
  intro as
  induction as with
  | nil =>
    intro f h ls hls hi _ _ hf hsp _ ht
    refine ⟨h, ls, f, hls, by simpa using hi, ht, fun b c hc => (hf b c hc).1, hsp, ?_, ?_⟩
    · intro b hb
      rcases hb with hb | hb
      · exact hb
      · simp at hb
    · intro fuel; rfl
  | cons a as ih =>
    intro f h ls hls hi hnd hmem hf hsp hn0 ht
    simp only [List.map_cons] at hi
    obtain ⟨ls1, hpop, hls1, hi1, hc1⟩ := da_pop_spec ls (some a) _ hls hi
    obtain ⟨hat, hfa⟩ := hmem a (List.mem_cons_self a as)
    have han0 : a < n0 := hlt a (leafAddrs_subset t a hat)
    obtain ⟨ln, hcell⟩ := growBy_leaf_cell rm angle scale f h a t ht hat hfa
    obtain ⟨h1, he, hlen1, hga, hgl, hgr, hfr⟩ := expand_leaf_spec rm angle scale h a _ hcell
    have ht1 := growBy_step rm angle scale f h h1 a n0 _ (fun b c hc => (hf b c hc).1) han0
      hfa hcell hga hgl hgr hfr t ht hndt hat
    simp only [List.nodup_cons] at hnd
    have hmem1 : ∀ b ∈ as, b ∈ t.leafAddrs ∧
        (fun b => if b = a then some h.length else f b) b = none := by
      intro b hb
      have hne : b ≠ a := fun e => hnd.1 (e ▸ hb)
      have := hmem b (List.mem_cons_of_mem a hb)
      exact ⟨this.1, by simp [hne, this.2]⟩
    have hf1 : ∀ b c, (fun b => if b = a then some h.length else f b) b = some c →
        n0 ≤ c ∧ c + 1 < h1.length := by
      intro b c hc
      by_cases hba : b = a
      · simp only [hba, if_true, Option.some.injEq] at hc
        omega
      · simp only [hba, if_false] at hc
        have := hf b c hc
        omega
    have hsp1 : ∀ b b2 c c2, (fun b => if b = a then some h.length else f b) b = some c →
        (fun b => if b = a then some h.length else f b) b2 = some c2 → b ≠ b2 →
        c + 1 < c2 ∨ c2 + 1 < c := by
      intro b b2 c c2 hc hc2 hne
      by_cases hba : b = a
      · have hb2a : b2 ≠ a := fun e => hne (hba.trans e.symm)
        simp only [hba, if_true, Option.some.injEq] at hc
        simp only [hb2a, if_false] at hc2
        have := hf b2 c2 hc2
        omega
      · simp only [hba, if_false] at hc
        by_cases hb2a : b2 = a
        · simp only [hb2a, if_true, Option.some.injEq] at hc2
          have := hf b c hc
          omega
        · simp only [hb2a, if_false] at hc2
          exact hsp b b2 c c2 hc hc2 hne
    obtain ⟨h2, ls2, f2, hls2, hi2, ht2, hf2, hsp2, hsome2, hrun2⟩ :=
      ih _ h1 ls1 hls1 hi1 hnd.2 hmem1 hf1 hsp1 (by omega) ht1
    refine ⟨h2, ls2, f2, hls2, hi2, ht2, hf2, hsp2, ?_, ?_⟩
    · intro b hb
      apply hsome2
      by_cases hba : b = a
      · exact Or.inl (by simp [hba])
      · rcases hb with hb | hb
        · exact Or.inl (by simpa [hba] using hb)
        · simp only [List.mem_cons] at hb
          rcases hb with hb | hb
          · exact absurd hb hba
          · exact Or.inr hb
    · intro fuel
      have : fuel + (a :: as).length = (fuel + as.length) + 1 := by simp; omega
      rw [this, expand_loop_step rm angle scale _ h h1 ls ls1 (some a) hc1 hpop he, hrun2]

/-- C18: the stack-based `generate_new_leaves` computes the recursive
reference definition `growRec`: on a tree it returns a heap whose tree, with
addresses forgotten, is `growRec` of the input tree; and this does not depend
on the order of the leaves on the leaf stack: started on a stack that holds
the tree's leaves in any order, the expansion loop yields a tree with that
same shape. -/
theorem generate_new_leaves_refines_growRec (rm : Raymath F) (angle scale : F)
    (h : Heap F C) (a : Nat) (t : Tree F C) (ht : IsTree h (some a) t) :
    (∃ h2 t2, (∀ fuel, t.size ≤ fuel →
        generate_new_leaves rm fuel h (some a) angle scale = .ok h2) ∧
      IsTree h2 (some a) t2 ∧ t2.shape = growRec rm angle scale t.shape) ∧
    ∀ (ls : DATreeNodes) (as : List Nat), ls.WF → ls.items = as.map some →
      as.Perm t.leafAddrs →
      ∃ h3 ls3 t3, ls3.cnt = 0 ∧
        (∀ fuel, t.leaves ≤ fuel →
          expand_loop rm angle scale fuel h ls = .ok (h3, ls3)) ∧
        IsTree h3 (some a) t3 ∧ t3.shape = growRec rm angle scale t.shape := by
  constructor
  · obtain ⟨h2, hrun, ht2, _, _⟩ := generate_new_leaves_spec rm angle scale h a t ht
    exact ⟨h2, _, hrun, ht2, grow_shape rm angle scale t _⟩
  · intro ls as hls hi hperm
    obtain ⟨hp, hta, hnd⟩ := ht
    have hlt := TreeAt_lt h t hta
    have hasnd : as.Nodup := hperm.nodup_iff.2 (hnd.sublist (leafAddrs_sublist t))
    obtain ⟨h3, ls3, f3, hls3, hi3, ht3, hf3, hsp3, hsome3, hrun3⟩ :=
      expand_list rm angle scale t h.length hnd hlt as (fun _ => none) h ls hls hi hasnd
        (fun b hb => ⟨hperm.subset hb, rfl⟩) (fun b c hc => Option.noConfusion hc)
        (fun b b2 c c2 hc => Option.noConfusion hc) (Nat.le_refl _)
        (by rw [growBy_none]; exact hta)
    have hc3 : ls3.cnt = 0 := by rw [← items_length ls3 hls3, hi3]; rfl
    refine ⟨h3, ls3, _, hc3, ?_, ⟨by rw [growBy_ptr]; exact hp, ht3,
      growBy_nodup rm angle scale f3 h.length hf3 hsp3 t hnd hlt⟩, ?_⟩
    · intro fuel hfuel
      have hlen : as.length = t.leaves := by rw [hperm.length_eq, leafAddrs_length]
      have : fuel = (fuel - as.length) + as.length := by omega
      rw [this, hrun3, expand_loop_done rm angle scale _ h3 ls3 hc3]
    · exact growBy_shape rm angle scale f3 t
        (fun b hb => hsome3 b (Or.inr (hperm.symm.subset hb)))

/-! ## Further instances on concrete inputs -/

/-- C14 fails as stated on the empty stack `da_init(1)`: `da_pop` has no check
that could signal anything; the read at the wrapped index is out of bounds,
and executed without bounds check the call returns an item (what the memory
holds there, here the pointer 7) and a stack whose count is `SIZE_MAX`. -/
theorem da_pop_empty_returns_garbage :
    da_pop (da_init 1) = .error .outOfBounds ∧
    da_pop_unchecked (fun _ => some 7) (da_init 1)
      = (some 7, { nodes := [none], cnt := 18446744073709551615, cap := 1 }) := by
  constructor <;> rfl

/-- Witness for C14 on the empty stack `da_init(4)`. -/
theorem da_pop_empty_unchecked_witness :
    (da_init 4).cnt = 0 ∧ (da_init 4).nodes.length ≤ SIZE_MAX ∧
    da_pop (da_init 4) = .error .outOfBounds ∧ da_pop (da_init 4) ≠ .error .assertion ∧
    da_pop_unchecked (fun _ => none) (da_init 4)
      = (none, { da_init 4 with cnt := SIZE_MAX }) ∧
    (da_pop_unchecked (fun _ => none) (da_init 4)).2 ≠ da_init 4 ∧
    ∀ (s3 s4 : DATreeNodes) (x : Ptr), s3.cnt ≤ SIZE_MAX → da_pop s3 = .ok (x, s4) →
      da_pop_unchecked (fun _ => none) s3 = (x, s4) :=
  ⟨rfl, by decide, da_pop_empty_unchecked (da_init 4) (fun _ => none) rfl (by decide)⟩

/-- Witness for C11 on `exStrictHeap`. -/
theorem tree_destroy_frees_each_node_once_witness :
    IsTree exStrictHeap (some 0) exStrictTree ∧
    ∃ (h2 : Heap Int Nat) (order : List Nat),
      (∀ fuel, exStrictTree.size ≤ fuel →
        tree_destroy fuel exStrictHeap (some 0) = .ok (h2, order.map some)) ∧
      (∀ fuel, fuel < exStrictTree.size →
        tree_destroy fuel exStrictHeap (some 0) = .error .outOfFuel) ∧
      order.Perm exStrictTree.addrs ∧ order.Nodup ∧ order.length = exStrictTree.size ∧
      h2.length = exStrictHeap.length ∧
      (∀ b ∈ exStrictTree.addrs, h2[b]? = some none) ∧
      (∀ b, b ∉ exStrictTree.addrs → h2[b]? = exStrictHeap[b]?) :=
  ⟨⟨rfl, ⟨rfl, ⟨rfl, trivial, trivial⟩, ⟨rfl, trivial, trivial⟩⟩, by decide⟩, tree_destroy_frees_each_node_once exStrictHeap 0 exStrictTree ⟨rfl, ⟨rfl, ⟨rfl, trivial, trivial⟩, ⟨rfl, trivial, trivial⟩⟩, by decide⟩⟩

/-- Witness for C12 on a full stack, where the append has to grow the
buffer. -/
theorem append_then_pop_witness :
    Reachable exFullStack ∧
    ∃ s1 s2, da_append exFullStack (some 9) = .ok s1 ∧ da_pop s1 = .ok (some 9, s2) ∧
      s2.cnt = exFullStack.cnt ∧
      (∀ i, i < exFullStack.cnt → s2.nodes[i]? = exFullStack.nodes[i]?) ∧
      s2.items = exFullStack.items ∧
      (exFullStack.cnt = exFullStack.cap → s1.cap = 2 * exFullStack.cap) :=
  ⟨Reachable.append (da_init 1) _ (some 5) (Reachable.init 1) rfl,
    append_then_pop exFullStack (some 9)
      (Reachable.append (da_init 1) _ (some 5) (Reachable.init 1) rfl)⟩

/-- Witness for C13: the contract at `da_init(0)` and on the full stack. -/
theorem stack_capacity_contract_witness :
    (da_init 0).cap = 1 ∧ exFullStack.WF ∧
    (∃ s1, da_append exFullStack (some 9) = .ok s1 ∧ s1.cnt = 2 ∧ s1.cap = 2 ∧
      s1.nodes[1]? = some (some 9) ∧ s1.nodes[0]? = some (some 5)) ∧
    (∃ x s1, da_pop exFullStack = .ok (x, s1) ∧ s1.cnt + 1 = exFullStack.cnt ∧
      s1.cap = exFullStack.cap) := by
  have hw : exFullStack.WF := ⟨by decide, rfl, by decide⟩
  obtain ⟨h1, h2, h3, _⟩ := stack_capacity_contract
  obtain ⟨s1, e, hc, hx, hkeep, _, hgrow, _⟩ := h2 exFullStack (some 9) hw
  obtain ⟨x, s2, e2, hc2, hcap2, _⟩ := h3 exFullStack hw (by decide)
  exact ⟨(h1 0).2.1, hw, ⟨s1, e, hc, hgrow rfl, hx, hkeep 0 (by decide)⟩,
    ⟨x, s2, e2, hc2, hcap2⟩⟩

/-- Witness for C16 on `exHeap`. -/
theorem depth_grows_by_one_witness :
    IsTree exHeap (some 0) exTree ∧
    ∃ h2 t2, (∀ fuel, exTree.size ≤ fuel →
        generate_new_leaves exRaymath fuel exHeap (some 0) 1 2 = .ok h2) ∧
      IsTree h2 (some 0) t2 ∧
      (∀ p ∈ t2.leafInfo 0, ∃ q ∈ exTree.leafInfo 0, p.2 = q.2 + 1 ∧
        exHeap.length ≤ p.1 ∧ exHeap[p.1]? = none ∧
        ∃ nd2, h2[q.1]? = some (some nd2) ∧ (nd2.left = some p.1 ∨ nd2.right = some p.1)) ∧
      t2.leafDepths = exTree.leafDepths.flatMap (fun d => [d + 1, d + 1]) ∧
      t2.height = exTree.height + 1 :=
  ⟨⟨rfl, ⟨rfl, ⟨rfl, trivial, trivial⟩, trivial⟩, by decide⟩, depth_grows_by_one exRaymath 1 2 exHeap 0 exTree ⟨rfl, ⟨rfl, ⟨rfl, trivial, trivial⟩, trivial⟩, by decide⟩⟩

/-- Witness for C17 on `exStrictHeap`. -/
theorem walks_terminate_witness :
    IsTree exStrictHeap (some 0) exStrictTree ∧
    (∃ ns0 ns ls h2 ls2, da_append (da_init 1) (some 0) = .ok ns0 ∧
      ns.cnt = 0 ∧
      (∀ fuel, exStrictTree.size ≤ fuel →
        collect_loop exStrictHeap fuel ns0 (da_init 1) = .ok (ns, ls)) ∧
      (∀ fuel, fuel < exStrictTree.size →
        collect_loop exStrictHeap fuel ns0 (da_init 1) = .error .outOfFuel) ∧
      ls2.cnt = 0 ∧
      (∀ fuel, exStrictTree.leaves ≤ fuel →
        expand_loop exRaymath 1 2 fuel exStrictHeap ls = .ok (h2, ls2)) ∧
      (∀ fuel, fuel < exStrictTree.leaves →
        expand_loop exRaymath 1 2 fuel exStrictHeap ls = .error .outOfFuel) ∧
      (∀ fuel, exStrictTree.size ≤ fuel →
        generate_new_leaves exRaymath fuel exStrictHeap (some 0) 1 2 = .ok h2)) ∧
    (∃ ns0 ns out, da_append (da_init 1) (some 0) = .ok ns0 ∧
      ns.cnt = 0 ∧
      (∀ fuel, draw_loop exStrictHeap (fuel + exStrictTree.size) ns0 []
        = draw_loop exStrictHeap fuel ns out) ∧
      (∀ fuel, exStrictTree.size ≤ fuel → draw_loop exStrictHeap fuel ns0 [] = .ok out) ∧
      (∀ fuel, fuel < exStrictTree.size →
        draw_loop exStrictHeap fuel ns0 [] = .error .outOfFuel) ∧
      (∀ fuel, exStrictTree.size ≤ fuel →
        draw_tree fuel exStrictHeap (some 0) = .ok out)) ∧
    (∃ ns0 h2 ns freed, da_append (da_init 1) (some 0) = .ok ns0 ∧
      ns.cnt = 0 ∧
      (∀ fuel, exStrictTree.size ≤ fuel →
        destroy_loop fuel exStrictHeap ns0 [] = .ok (h2, ns, freed)) ∧
      (∀ fuel, fuel < exStrictTree.size →
        destroy_loop fuel exStrictHeap ns0 [] = .error .outOfFuel) ∧
      (∀ fuel, exStrictTree.size ≤ fuel →
        tree_destroy fuel exStrictHeap (some 0) = .ok (h2, freed))) :=
  ⟨⟨rfl, ⟨rfl, ⟨rfl, trivial, trivial⟩, ⟨rfl, trivial, trivial⟩⟩, by decide⟩, walks_terminate exRaymath 1 2 exStrictHeap 0 exStrictTree ⟨rfl, ⟨rfl, ⟨rfl, trivial, trivial⟩, ⟨rfl, trivial, trivial⟩⟩, by decide⟩⟩

/-- Witness for C18 on the non-strict tree of `exHeap`. -/
theorem generate_new_leaves_refines_growRec_witness :
    IsTree exHeap (some 0) exTree ∧
    (∃ h2 t2, (∀ fuel, exTree.size ≤ fuel →
        generate_new_leaves exRaymath fuel exHeap (some 0) 1 2 = .ok h2) ∧
      IsTree h2 (some 0) t2 ∧ t2.shape = growRec exRaymath 1 2 exTree.shape) ∧
    ∀ (ls : DATreeNodes) (as : List Nat), ls.WF → ls.items = as.map some →
      as.Perm exTree.leafAddrs →
      ∃ h3 ls3 t3, ls3.cnt = 0 ∧
        (∀ fuel, exTree.leaves ≤ fuel →
          expand_loop exRaymath 1 2 fuel exHeap ls = .ok (h3, ls3)) ∧
        IsTree h3 (some 0) t3 ∧ t3.shape = growRec exRaymath 1 2 exTree.shape :=
  ⟨⟨rfl, ⟨rfl, ⟨rfl, trivial, trivial⟩, trivial⟩, by decide⟩, generate_new_leaves_refines_growRec exRaymath 1 2 exHeap 0 exTree ⟨rfl, ⟨rfl, ⟨rfl, trivial, trivial⟩, trivial⟩, by decide⟩⟩

/-- Witness for C19 on `exStrictHeap`. -/
theorem draw_and_destroy_order_witness :
    IsTree exStrictHeap (some 0) exStrictTree ∧
    (∀ fuel, exStrictTree.size ≤ fuel →
      draw_tree fuel exStrictHeap (some 0) = .ok (exStrictTree.drawOrder.map Prod.snd)) ∧
    (∃ h2, ∀ fuel, exStrictTree.size ≤ fuel →
      tree_destroy fuel exStrictHeap (some 0)
        = .ok (h2, exStrictTree.drawOrder.map (fun p => some p.1))) ∧
    (∀ (b : Nat) (ln : Line Int Nat) (l r : Tree Int Nat),
      (Tree.node b ln l r).drawOrder = (b, ln) :: (r.drawOrder ++ l.drawOrder)) ∧
    (Tree.nil : Tree Int Nat).drawOrder = [] :=
  ⟨⟨rfl, ⟨rfl, ⟨rfl, trivial, trivial⟩, ⟨rfl, trivial, trivial⟩⟩, by decide⟩, draw_and_destroy_order exStrictHeap 0 exStrictTree ⟨rfl, ⟨rfl, ⟨rfl, trivial, trivial⟩, ⟨rfl, trivial, trivial⟩⟩, by decide⟩⟩

/-- Witness for C20 on `exHeap`. -/
theorem stack_precondition_never_violated_witness :
    IsTree exHeap (some 0) exTree ∧
    (∀ fuel, generate_new_leaves exRaymath fuel exHeap (some 0) 1 2 = .error .outOfFuel ∨
      ∃ h2, generate_new_leaves exRaymath fuel exHeap (some 0) 1 2 = .ok h2) ∧
    (∀ fuel, draw_tree fuel exHeap (some 0) = .error .outOfFuel ∨
      ∃ out, draw_tree fuel exHeap (some 0) = .ok out) ∧
    (∀ fuel, tree_destroy fuel exHeap (some 0) = .error .outOfFuel ∨
      ∃ h2 freed, tree_destroy fuel exHeap (some 0) = .ok (h2, freed) ∧
        ∀ p ∈ freed, ∃ b ∈ exTree.addrs, p = some b) ∧
    (∃ ns0 ns ls, da_append (da_init 1) (some 0) = .ok ns0 ∧
      (∀ fuel, exTree.size ≤ fuel →
        collect_loop exHeap fuel ns0 (da_init 1) = .ok (ns, ls)) ∧
      ∀ p ∈ ls.items, ∃ b ∈ exTree.addrs, p = some b) ∧
    (∀ s : DATreeNodes, Reachable s →
      (∀ x, ∃ s1, da_append s x = .ok s1 ∧ s.cnt < s1.cap ∧ s1.nodes.length = s1.cap) ∧
      (0 < s.cnt → ∃ x s1, da_pop s = .ok (x, s1) ∧ s1.cnt < s.cap ∧
        s.nodes.length = s.cap)) ∧
    (∀ s : DATreeNodes, s.cnt = 0 → da_pop s = .error .outOfBounds) :=
  ⟨⟨rfl, ⟨rfl, ⟨rfl, trivial, trivial⟩, trivial⟩, by decide⟩, stack_precondition_never_violated exRaymath 1 2 exHeap 0 exTree ⟨rfl, ⟨rfl, ⟨rfl, trivial, trivial⟩, trivial⟩, by decide⟩⟩

/-! ## Further evaluation checks -/

/-- Destroying `exStrictHeap`: root, right child, left child; every cell is
dead afterwards. -/
theorem tree_destroy_exStrictHeap :
    tree_destroy 3 exStrictHeap (some 0)
      = .ok ([none, none, none], [some 0, some 2, some 1]) := by
  rfl

/-- On a heap with a shared child the second visit reads a dead cell. -/
theorem tree_destroy_exSharedHeap :
    tree_destroy 5 exSharedHeap (some 0) = .error .badPointer := by
  rfl

/-- A pop from the empty stack reads out of bounds. -/
theorem da_pop_da_init : da_pop (da_init 1) = .error .outOfBounds := by
  rfl

/-- Appending to the full stack doubles its capacity. -/
theorem da_append_exFullStack :
    da_append exFullStack (some 9) = .ok { nodes := [some 5, some 9], cnt := 2, cap := 2 } := by
  rfl

/-! ## The recorded runs agree with the plain ones -/

theorem push_child_tr_eq (log : List (Event F C)) (da : DATreeNodes) (child : Ptr) :
    push_child_tr log da child = (push_child_log log da child, push_child da child) := by
  unfold push_child_tr push_child_log push_child da_append_tr
  split <;> rfl

theorem collect_loop_tr_result (h : Heap F C) :
    ∀ fuel ns ls (log : List (Event F C)),
      (collect_loop_tr h fuel ns ls log).result = collect_loop h fuel ns ls := by
  intro fuel
  induction fuel with
  | zero =>
    intro ns ls log
    unfold collect_loop_tr collect_loop
    split <;> rfl
  | succ f ih =>
    intro ns ls log
    rw [collect_loop_tr, collect_loop]
    simp only [da_append_tr, push_child_tr_eq]
    split
    · cases hpop : da_pop ns with
      | error e => rfl
      | ok v =>
        obtain ⟨cur, ns1⟩ := v
        simp only
        cases hd : deref h cur with
        | error e => rfl
        | ok n =>
          simp only
          split
          · cases happ : da_append ls cur with
            | error e => rfl
            | ok ls2 => exact ih _ _ _
          · cases hl : push_child ns1 n.left with
            | error e => rfl
            | ok ns2 =>
              simp only
              cases hr : push_child ns2 n.right with
              | error e => rfl
              | ok ns3 => exact ih _ _ _
    · rfl

theorem collect_loop_tr_heap (h : Heap F C) :
    ∀ fuel ns ls (log : List (Event F C)), (collect_loop_tr h fuel ns ls log).heap = h := by
  intro fuel
  induction fuel with
  | zero =>
    intro ns ls log
    unfold collect_loop_tr
    split <;> rfl
  | succ f ih =>
    intro ns ls log
    rw [collect_loop_tr]
    simp only [da_append_tr, push_child_tr_eq]
    split
    · cases hpop : da_pop ns with
      | error e => rfl
      | ok v =>
        obtain ⟨cur, ns1⟩ := v
        simp only
        cases hd : deref h cur with
        | error e => rfl
        | ok n =>
          simp only
          split
          · cases happ : da_append ls cur with
            | error e => rfl
            | ok ls2 => exact ih _ _ _
          · cases hl : push_child ns1 n.left with
            | error e => rfl
            | ok ns2 =>
              simp only
              cases hr : push_child ns2 n.right with
              | error e => rfl
              | ok ns3 => exact ih _ _ _
    · rfl

theorem expand_leaf_tr_result (rm : Raymath F) (angle scale : F) (h : Heap F C)
    (log : List (Event F C)) (cur : Ptr) :
    (expand_leaf_tr rm angle scale h log cur).result = expand_leaf rm angle scale h cur := by
  unfold expand_leaf_tr expand_leaf
  cases hd : deref h cur with
  | error e => rfl
  | ok n =>
    simp only [node_create_tr, node_create]
    cases hd1 : deref (h ++ [some (TreeNode.mk none none (left_line rm angle scale n.line))])
        cur with
    | error e => rfl
    | ok n1 =>
      simp only
      cases hs1 : store (h ++ [some (TreeNode.mk none none (left_line rm angle scale n.line))])
          cur { n1 with left := some h.length } with
      | error e => rfl
      | ok h2 =>
        simp only
        cases hd3 : deref
            (h2 ++ [some (TreeNode.mk none none (right_line rm angle scale n.line))]) cur with
        | error e => rfl
        | ok n3 =>
          simp only
          cases hs3 : store
              (h2 ++ [some (TreeNode.mk none none (right_line rm angle scale n.line))]) cur
              { n3 with right := some h2.length } with
          | error e => rfl
          | ok h4 => rfl

theorem expand_loop_tr_result (rm : Raymath F) (angle scale : F) :
    ∀ fuel (h : Heap F C) ls (log : List (Event F C)),
      (expand_loop_tr rm angle scale fuel h ls log).result
        = expand_loop rm angle scale fuel h ls := by
  intro fuel
  induction fuel with
  | zero =>
    intro h ls log
    unfold expand_loop_tr expand_loop
    split <;> rfl
  | succ f ih =>
    intro h ls log
    rw [expand_loop_tr, expand_loop]
    split
    · cases hpop : da_pop ls with
      | error e => rfl
      | ok v =>
        obtain ⟨cur, ls1⟩ := v
        simp only
        have hagree := expand_leaf_tr_result rm angle scale h log cur
        cases hx : expand_leaf_tr rm angle scale h log cur with
        | mk h1 log1 res =>
          rw [hx] at hagree
          simp only at hagree
          rw [← hagree]
          cases res with
          | error e => rfl
          | ok h2 => exact ih _ _ _
    · rfl

theorem generate_new_leaves_tr_result (rm : Raymath F) (fuel : Nat) (h : Heap F C)
    (log : List (Event F C)) (root : Ptr) (angle scale : F) :
    (generate_new_leaves_tr rm fuel h log root angle scale).result
      = generate_new_leaves rm fuel h root angle scale := by
  unfold generate_new_leaves_tr generate_new_leaves
  split
  · rfl
  · simp only [da_init_tr, da_append_tr, da_destroy_tr]
    cases happ : da_append (da_init 1) root with
    | error e => rfl
    | ok ns =>
      simp only
      have hagree := collect_loop_tr_result h fuel ns (da_init 1)
        (da_append_log (log ++ [Event.da_init 1] ++ [Event.da_init 1]) (da_init 1))
      cases hx : collect_loop_tr h fuel ns (da_init 1)
          (da_append_log (log ++ [Event.da_init 1] ++ [Event.da_init 1]) (da_init 1)) with
      | mk h1 log1 res =>
        rw [hx] at hagree
        simp only at hagree
        rw [← hagree]
        cases res with
        | error e => rfl
        | ok v =>
          obtain ⟨ns2, ls2⟩ := v
          simp only
          have hagree2 := expand_loop_tr_result rm angle scale fuel h1 ls2
            (log1 ++ [Event.da_destroy])
          cases hx2 : expand_loop_tr rm angle scale fuel h1 ls2 (log1 ++ [Event.da_destroy]) with
          | mk h2 log2 res2 =>
            rw [hx2] at hagree2
            simp only at hagree2
            have hh : h1 = h := by
              have := collect_loop_tr_heap h fuel ns (da_init 1)
                (da_append_log (log ++ [Event.da_init 1] ++ [Event.da_init 1]) (da_init 1))
              rw [hx] at this
              exact this
            subst hh
            rw [← hagree2]
            cases res2 with
            | error e => rfl
            | ok v2 => rfl

theorem draw_loop_tr_result (h : Heap F C) :
    ∀ fuel ns out (log : List (Event F C)),
      (draw_loop_tr h fuel ns out log).result = draw_loop h fuel ns out := by
  intro fuel
  induction fuel with
  | zero =>
    intro ns out log
    unfold draw_loop_tr draw_loop
    split <;> rfl
  | succ f ih =>
    intro ns out log
    rw [draw_loop_tr, draw_loop]
    simp only [push_child_tr_eq, DrawLineV]
    split
    · cases hpop : da_pop ns with
      | error e => rfl
      | ok v =>
        obtain ⟨cur, ns1⟩ := v
        simp only
        cases hd : deref h cur with
        | error e => rfl
        | ok n =>
          simp only
          cases hl : push_child ns1 n.left with
          | error e => rfl
          | ok ns2 =>
            simp only
            cases hr : push_child ns2 n.right with
            | error e => rfl
            | ok ns3 => exact ih _ _ _
    · rfl

theorem draw_tree_tr_result (fuel : Nat) (h : Heap F C) (log : List (Event F C))
    (root : Ptr) : (draw_tree_tr fuel h log root).result = draw_tree fuel h root := by
  unfold draw_tree_tr draw_tree
  split
  · rfl
  · simp only [da_init_tr, da_append_tr, da_destroy_tr]
    cases happ : da_append (da_init 1) root with
    | error e => rfl
    | ok ns =>
      simp only
      have hagree := draw_loop_tr_result h fuel ns []
        (da_append_log (log ++ [Event.da_init 1]) (da_init 1))
      cases hx : draw_loop_tr h fuel ns [] (da_append_log (log ++ [Event.da_init 1])
          (da_init 1)) with
      | mk h1 log1 res =>
        rw [hx] at hagree
        simp only at hagree
        rw [← hagree]
        cases res with
        | error e => rfl
        | ok v => rfl

theorem destroy_loop_tr_result :
    ∀ fuel (h : Heap F C) ns freed (log : List (Event F C)),
      (destroy_loop_tr fuel h ns freed log).result = destroy_loop fuel h ns freed := by
  intro fuel
  induction fuel with
  | zero =>
    intro h ns freed log
    unfold destroy_loop_tr destroy_loop
    split <;> rfl
  | succ f ih =>
    intro h ns freed log
    rw [destroy_loop_tr, destroy_loop]
    simp only [push_child_tr_eq, free_tr]
    split
    · cases hpop : da_pop ns with
      | error e => rfl
      | ok v =>
        obtain ⟨cur, ns1⟩ := v
        simp only
        cases hd : deref h cur with
        | error e => rfl
        | ok n =>
          simp only
          cases hl : push_child ns1 n.left with
          | error e => rfl
          | ok ns2 =>
            simp only
            cases hr : push_child ns2 n.right with
            | error e => rfl
            | ok ns3 =>
              simp only
              cases hf : free h cur with
              | error e => rfl
              | ok h1 => exact ih _ _ _ _
    · rfl

theorem tree_destroy_tr_result (fuel : Nat) (h : Heap F C) (log : List (Event F C))
    (root : Ptr) : (tree_destroy_tr fuel h log root).result = tree_destroy fuel h root := by
  unfold tree_destroy_tr tree_destroy
  split
  · rfl
  · simp only [da_init_tr, da_append_tr, da_destroy_tr]
    cases happ : da_append (da_init 1) root with
    | error e => rfl
    | ok ns =>
      simp only
      have hagree := destroy_loop_tr_result fuel h ns []
        (da_append_log (log ++ [Event.da_init 1]) (da_init 1))
      cases hx : destroy_loop_tr fuel h ns [] (da_append_log (log ++ [Event.da_init 1])
          (da_init 1)) with
      | mk h1 log1 res =>
        rw [hx] at hagree
        simp only at hagree
        rw [← hagree]
        cases res with
        | error e => rfl
        | ok v => rfl

/-! ## The recorded calls only grow -/

theorem ext_trans {α : Type} (a b c : List α) (h1 : ∃ e, b = a ++ e) (h2 : ∃ e, c = b ++ e) :
    ∃ e, c = a ++ e := by
  obtain ⟨e1, rfl⟩ := h1
  obtain ⟨e2, rfl⟩ := h2
  exact ⟨e1 ++ e2, by simp⟩

theorem da_append_log_ext (log : List (Event F C)) (da : DATreeNodes) :
    ∃ e, da_append_log log da = log ++ e := by
  unfold da_append_log
  split
  · exact ⟨_, rfl⟩
  · exact ⟨[], by simp⟩

theorem push_child_log_ext (log : List (Event F C)) (da : DATreeNodes) (child : Ptr) :
    ∃ e, push_child_log log da child = log ++ e := by
  unfold push_child_log
  split
  · exact da_append_log_ext log da
  · exact ⟨[], by simp⟩

theorem push_children_log_ext (log : List (Event F C)) (da da2 : DATreeNodes)
    (c1 c2 : Ptr) :
    ∃ e, push_child_log (push_child_log log da c1) da2 c2 = log ++ e :=
  ext_trans _ _ _ (push_child_log_ext log da c1) (push_child_log_ext _ da2 c2)

theorem collect_loop_tr_log (h : Heap F C) :
    ∀ fuel ns ls (log : List (Event F C)),
      ∃ e, (collect_loop_tr h fuel ns ls log).log = log ++ e := by
  intro fuel
  induction fuel with
  | zero =>
    intro ns ls log
    unfold collect_loop_tr
    split <;> exact ⟨[], by simp⟩
  | succ f ih =>
    intro ns ls log
    rw [collect_loop_tr]
    simp only [da_append_tr, push_child_tr_eq]
    split
    · cases hpop : da_pop ns with
      | error e => exact ⟨[], by simp⟩
      | ok v =>
        obtain ⟨cur, ns1⟩ := v
        simp only
        cases hd : deref h cur with
        | error e => exact ⟨[], by simp⟩
        | ok n =>
          simp only
          split
          · cases happ : da_append ls cur with
            | error e => exact da_append_log_ext log ls
            | ok ls2 => exact ext_trans _ _ _ (da_append_log_ext log ls) (ih _ _ _)
          · cases hl : push_child ns1 n.left with
            | error e => exact push_child_log_ext log ns1 n.left
            | ok ns2 =>
              simp only
              cases hr : push_child ns2 n.right with
              | error e => exact push_children_log_ext log ns1 ns2 _ _
              | ok ns3 =>
                exact ext_trans _ _ _ (push_children_log_ext log ns1 ns2 _ _) (ih _ _ _)
    · exact ⟨[], by simp⟩

theorem expand_leaf_tr_log (rm : Raymath F) (angle scale : F) (h : Heap F C)
    (log : List (Event F C)) (cur : Ptr) :
    ∃ e, (expand_leaf_tr rm angle scale h log cur).log = log ++ e := by
  unfold expand_leaf_tr
  cases hd : deref h cur with
  | error e => exact ⟨[], by simp⟩
  | ok n =>
    simp only [node_create_tr, node_create]
    cases hd1 : deref (h ++ [some (TreeNode.mk none none (left_line rm angle scale n.line))])
        cur with
    | error e => exact ⟨_, rfl⟩
    | ok n1 =>
      simp only
      cases hs1 : store (h ++ [some (TreeNode.mk none none (left_line rm angle scale n.line))])
          cur { n1 with left := some h.length } with
      | error e => exact ⟨_, rfl⟩
      | ok h2 =>
        simp only
        cases hd3 : deref
            (h2 ++ [some (TreeNode.mk none none (right_line rm angle scale n.line))]) cur with
        | error e => exact ⟨_, by rw [List.append_assoc]⟩
        | ok n3 =>
          simp only
          cases hs3 : store
              (h2 ++ [some (TreeNode.mk none none (right_line rm angle scale n.line))]) cur
              { n3 with right := some h2.length } with
          | error e => exact ⟨_, by rw [List.append_assoc]⟩
          | ok h4 => exact ⟨_, by rw [List.append_assoc]⟩

theorem expand_loop_tr_log (rm : Raymath F) (angle scale : F) :
    ∀ fuel (h : Heap F C) ls (log : List (Event F C)),
      ∃ e, (expand_loop_tr rm angle scale fuel h ls log).log = log ++ e := by
  intro fuel
  induction fuel with
  | zero =>
    intro h ls log
    unfold expand_loop_tr
    split <;> exact ⟨[], by simp⟩
  | succ f ih =>
    intro h ls log
    rw [expand_loop_tr]
    split
    · cases hpop : da_pop ls with
      | error e => exact ⟨[], by simp⟩
      | ok v =>
        obtain ⟨cur, ls1⟩ := v
        simp only
        have hext := expand_leaf_tr_log rm angle scale h log cur
        cases hx : expand_leaf_tr rm angle scale h log cur with
        | mk h1 log1 res =>
          rw [hx] at hext
          simp only at hext
          cases res with
          | error e => exact hext
          | ok h2 => exact ext_trans _ _ _ hext (ih _ _ _)
    · exact ⟨[], by simp⟩

theorem draw_loop_tr_log (h : Heap F C) :
    ∀ fuel ns out (log : List (Event F C)),
      ∃ e, (draw_loop_tr h fuel ns out log).log = log ++ e := by
  intro fuel
  induction fuel with
  | zero =>
    intro ns out log
    unfold draw_loop_tr
    split <;> exact ⟨[], by simp⟩
  | succ f ih =>
    intro ns out log
    rw [draw_loop_tr]
    simp only [push_child_tr_eq, DrawLineV]
    split
    · cases hpop : da_pop ns with
      | error e => exact ⟨[], by simp⟩
      | ok v =>
        obtain ⟨cur, ns1⟩ := v
        simp only
        cases hd : deref h cur with
        | error e => exact ⟨[], by simp⟩
        | ok n =>
          simp only
          cases hl : push_child ns1 n.left with
          | error e => exact push_child_log_ext log ns1 n.left
          | ok ns2 =>
            simp only
            cases hr : push_child ns2 n.right with
            | error e => exact push_children_log_ext log ns1 ns2 _ _
            | ok ns3 =>
              exact ext_trans _ _ _
                (ext_trans _ _ _ (push_children_log_ext log ns1 ns2 _ _) ⟨_, rfl⟩) (ih _ _ _)
    · exact ⟨[], by simp⟩

theorem destroy_loop_tr_log :
    ∀ fuel (h : Heap F C) ns freed (log : List (Event F C)),
      ∃ e, (destroy_loop_tr fuel h ns freed log).log = log ++ e := by
  intro fuel
  induction fuel with
  | zero =>
    intro h ns freed log
    unfold destroy_loop_tr
    split <;> exact ⟨[], by simp⟩
  | succ f ih =>
    intro h ns freed log
    rw [destroy_loop_tr]
    simp only [push_child_tr_eq, free_tr]
    split
    · cases hpop : da_pop ns with
      | error e => exact ⟨[], by simp⟩
      | ok v =>
        obtain ⟨cur, ns1⟩ := v
        simp only
        cases hd : deref h cur with
        | error e => exact ⟨[], by simp⟩
        | ok n =>
          simp only
          cases hl : push_child ns1 n.left with
          | error e => exact push_child_log_ext log ns1 n.left
          | ok ns2 =>
            simp only
            cases hr : push_child ns2 n.right with
            | error e => exact push_children_log_ext log ns1 ns2 _ _
            | ok ns3 =>
              simp only
              cases hf : free h cur with
              | error e =>
                exact ext_trans _ _ _ (push_children_log_ext log ns1 ns2 _ _) ⟨_, rfl⟩
              | ok h1 =>
                exact ext_trans _ _ _
                  (ext_trans _ _ _ (push_children_log_ext log ns1 ns2 _ _) ⟨_, rfl⟩)
                  (ih _ _ _ _)
    · exact ⟨[], by simp⟩

/-- With a root that is not `NULL`, the first thing `generate_new_leaves` does
after its assertion is a `da_init`. -/
theorem generate_new_leaves_tr_log (rm : Raymath F) (fuel : Nat) (h : Heap F C)
    (log : List (Event F C)) (a : Nat) (angle scale : F) :
    ∃ e, (generate_new_leaves_tr rm fuel h log (some a) angle scale).log
      = log ++ Event.da_init 1 :: e := by
  have hstart : ∀ l2 : List (Event F C),
      (∃ e, l2 = (log ++ [Event.da_init 1] ++ [Event.da_init 1]) ++ e) →
      ∃ e, l2 = log ++ Event.da_init 1 :: e := by
    rintro l2 ⟨e, rfl⟩
    exact ⟨Event.da_init 1 :: e, by simp⟩
  unfold generate_new_leaves_tr
  simp only [Option.isNone_some, Bool.false_eq_true, if_false, da_init_tr, da_append_tr,
    da_destroy_tr]
  cases happ : da_append (da_init 1) (some a) with
  | error e =>
    have := hstart _ (da_append_log_ext (log ++ [Event.da_init 1] ++ [Event.da_init 1])
      (da_init 1))
    exact this
  | ok ns =>
    simp only
    have hext := collect_loop_tr_log h fuel ns (da_init 1)
      (da_append_log (log ++ [Event.da_init 1] ++ [Event.da_init 1]) (da_init 1))
    cases hx : collect_loop_tr h fuel ns (da_init 1)
        (da_append_log (log ++ [Event.da_init 1] ++ [Event.da_init 1]) (da_init 1)) with
    | mk h1 log1 res =>
      rw [hx] at hext
      simp only at hext
      have hext1 := ext_trans _ _ _ (da_append_log_ext _ _) hext
      cases res with
      | error e => exact hstart _ hext1
      | ok v =>
        obtain ⟨ns2, ls2⟩ := v
        simp only
        have hext2 := expand_loop_tr_log rm angle scale fuel h1 ls2 (log1 ++ [Event.da_destroy])
        cases hx2 : expand_loop_tr rm angle scale fuel h1 ls2 (log1 ++ [Event.da_destroy]) with
        | mk h2 log2 res2 =>
          rw [hx2] at hext2
          simp only at hext2
          have hext3 := ext_trans _ _ _ (ext_trans _ _ _ hext1 ⟨_, rfl⟩) hext2
          cases res2 with
          | error e => exact hstart _ hext3
          | ok v2 => exact hstart _ (ext_trans _ _ _ hext3 ⟨_, rfl⟩)

/-- With a root that is not `NULL`, the first thing `draw_tree` does after its
assertion is a `da_init`. -/
theorem draw_tree_tr_log (fuel : Nat) (h : Heap F C) (log : List (Event F C)) (a : Nat) :
    ∃ e, (draw_tree_tr fuel h log (some a)).log = log ++ Event.da_init 1 :: e := by
  have hstart : ∀ l2 : List (Event F C), (∃ e, l2 = (log ++ [Event.da_init 1]) ++ e) →
      ∃ e, l2 = log ++ Event.da_init 1 :: e := by
    rintro l2 ⟨e, rfl⟩
    exact ⟨e, by simp⟩
  unfold draw_tree_tr
  simp only [Option.isNone_some, Bool.false_eq_true, if_false, da_init_tr, da_append_tr,
    da_destroy_tr]
  cases happ : da_append (da_init 1) (some a) with
  | error e =>
    have := hstart _ (da_append_log_ext (log ++ [Event.da_init 1]) (da_init 1))
    exact this
  | ok ns =>
    simp only
    have hext := draw_loop_tr_log h fuel ns []
      (da_append_log (log ++ [Event.da_init 1]) (da_init 1))
    cases hx : draw_loop_tr h fuel ns [] (da_append_log (log ++ [Event.da_init 1])
        (da_init 1)) with
    | mk h1 log1 res =>
      rw [hx] at hext
      simp only at hext
      have hext1 := ext_trans _ _ _ (da_append_log_ext _ _) hext
      cases res with
      | error e => exact hstart _ hext1
      | ok v => exact hstart _ (ext_trans _ _ _ hext1 ⟨_, rfl⟩)

/-- With a root that is not `NULL`, the first thing `tree_destroy` does after
its assertion is a `da_init`. -/
theorem tree_destroy_tr_log (fuel : Nat) (h : Heap F C) (log : List (Event F C)) (a : Nat) :
    ∃ e, (tree_destroy_tr fuel h log (some a)).log = log ++ Event.da_init 1 :: e := by
  have hstart : ∀ l2 : List (Event F C), (∃ e, l2 = (log ++ [Event.da_init 1]) ++ e) →
      ∃ e, l2 = log ++ Event.da_init 1 :: e := by
    rintro l2 ⟨e, rfl⟩
    exact ⟨e, by simp⟩
  unfold tree_destroy_tr
  simp only [Option.isNone_some, Bool.false_eq_true, if_false, da_init_tr, da_append_tr,
    da_destroy_tr]
  cases happ : da_append (da_init 1) (some a) with
  | error e =>
    have := hstart _ (da_append_log_ext (log ++ [Event.da_init 1]) (da_init 1))
    exact this
  | ok ns =>
    simp only
    have hext := destroy_loop_tr_log fuel h ns []
      (da_append_log (log ++ [Event.da_init 1]) (da_init 1))
    cases hx : destroy_loop_tr fuel h ns [] (da_append_log (log ++ [Event.da_init 1])
        (da_init 1)) with
    | mk h1 log1 res =>
      rw [hx] at hext
      simp only at hext
      have hext1 := ext_trans _ _ _ (da_append_log_ext _ _) hext
      cases res with
      | error e => exact hstart _ hext1
      | ok v => exact hstart _ (ext_trans _ _ _ hext1 ⟨_, rfl⟩)


/-! ## The assertion on the root -/

/-- C15: called with a `NULL` root, each of `generate_new_leaves`, `draw_tree`
and `tree_destroy` stops at its assertion before doing anything else: the run
ends with the heap it started with and without a single call recorded (no
`da_init`, so no stack is initialised; no `node_create`; no `free`; no
`DrawLineV`), whatever the heap, the fuel and the calls made earlier. Called
with a root that is not `NULL`, none of them ever fails an assertion, and the
first call each of them makes is a `da_init`. The recorded runs return what the
plain ones return. -/
theorem null_root_assertion (rm : Raymath F) (fuel : Nat) (h : Heap F C)
    (log : List (Event F C)) (angle scale : F) :
    generate_new_leaves_tr rm fuel h log none angle scale
      = Outcome.mk h log (.error .assertion) ∧
    draw_tree_tr fuel h log none = Outcome.mk h log (.error .assertion) ∧
    tree_destroy_tr fuel h log none = Outcome.mk h log (.error .assertion) ∧
    generate_new_leaves rm fuel h none angle scale = .error .assertion ∧
    draw_tree fuel h none = .error .assertion ∧
    tree_destroy fuel h none = .error .assertion ∧
    ∀ a : Nat,
      ((generate_new_leaves_tr rm fuel h log (some a) angle scale).result
          = generate_new_leaves rm fuel h (some a) angle scale ∧
        generate_new_leaves rm fuel h (some a) angle scale ≠ .error .assertion ∧
        ∃ e, (generate_new_leaves_tr rm fuel h log (some a) angle scale).log
          = log ++ Event.da_init 1 :: e) ∧
      ((draw_tree_tr fuel h log (some a)).result = draw_tree fuel h (some a) ∧
        draw_tree fuel h (some a) ≠ .error .assertion ∧
        ∃ e, (draw_tree_tr fuel h log (some a)).log = log ++ Event.da_init 1 :: e) ∧
      ((tree_destroy_tr fuel h log (some a)).result = tree_destroy fuel h (some a) ∧
        tree_destroy fuel h (some a) ≠ .error .assertion ∧
        ∃ e, (tree_destroy_tr fuel h log (some a)).log = log ++ Event.da_init 1 :: e) :=
  ⟨rfl, rfl, rfl, rfl, rfl, rfl, fun a =>
    ⟨⟨generate_new_leaves_tr_result rm fuel h log (some a) angle scale,
      fun he => generate_new_leaves_error rm fuel h a angle scale _ he rfl,
      generate_new_leaves_tr_log rm fuel h log a angle scale⟩,
     ⟨draw_tree_tr_result fuel h log (some a),
      fun he => draw_tree_error fuel h a _ he rfl,
      draw_tree_tr_log fuel h log a⟩,
     ⟨tree_destroy_tr_result fuel h log (some a),
      fun he => tree_destroy_error fuel h a _ he rfl,
      tree_destroy_tr_log fuel h log a⟩⟩⟩

/-! ## Evaluation checks of the recorded runs -/

/-- One call of `generate_new_leaves` on `exHeap`: two stacks are set up, the
first is released after the collection loop, the two children of node 1 are
created, the second stack is released. -/
theorem generate_new_leaves_tr_exHeap :
    (generate_new_leaves_tr exRaymath 2 exHeap [] (some 0) 1 2).log
      = [.da_init 1, .da_init 1, .da_destroy, .node_create (some 2), .node_create (some 3),
         .da_destroy] := by
  rfl

/-- The same call with a `NULL` root: nothing is recorded and the heap is the
one the call started with. -/
theorem generate_new_leaves_tr_null :
    generate_new_leaves_tr exRaymath 2 exHeap [] none 1 2
      = Outcome.mk exHeap [] (.error .assertion) := by
  rfl

/-- Destroying the heap with a shared child: the run stops on the second
visit of node 1, after both nodes were freed; the heap and the calls made up
to the fault are kept. -/
theorem tree_destroy_tr_exSharedHeap :
    tree_destroy_tr 5 exSharedHeap [] (some 0)
      = Outcome.mk [none, none]
          [.da_init 1, .erealloc 2, .free (some 0), .free (some 1)]
          (.error .badPointer) := by
  rfl

/-- Drawing `exStrictHeap`: one stack, three segments, release. -/
theorem draw_tree_tr_exStrictHeap :
    (draw_tree_tr 3 exStrictHeap [] (some 0)).log
      = [.da_init 1, .erealloc 2,
         .DrawLineV (Line.mk ⟨0, 0⟩ ⟨0, 4⟩ 7), .DrawLineV (Line.mk ⟨0, 4⟩ ⟨-4, 4⟩ 7),
         .DrawLineV (Line.mk ⟨0, 4⟩ ⟨4, 4⟩ 7), .da_destroy] := by
  rfl

end FractalTree
